import Mathlib

/-!
# compute_path: a shallow embedding of `main.cpp`

The program parses a text maze into a grid, searches a route from the start
cell to the target cell and renders the route as line art.

Modelling conventions
* `int` is modelled by `Int` (signed overflow is undefined behaviour in C++ and
  does not occur for grids with fewer than 2^31 cells).
* `vector<T>` is modelled by `List T`; an access `v[i]` outside `[0, size)` is
  undefined behaviour in C++ and is reported by the model as a fault carrying
  the offending index.
* Loops whose termination is not structural carry a fuel argument; running out
  of fuel is a separate outcome, never a result.
* `/` and `%` on `int` truncate toward zero: `Int.tdiv` and `Int.tmod`.
-/

namespace ComputePath

/-! ## Data model -/

/-- The struct `point_t` of the source: a pair of `int` coordinates. -/
structure point_t where
  x : Int
  y : Int
deriving DecidableEq, Repr

/-- The enum `grid_t::cell_t` of the source. -/
inductive cell_t where
  | empty
  | wall
deriving DecidableEq, Repr

/-- The struct `grid_t` of the source. -/
structure grid_t where
  width : Int
  height : Int
  cells : List cell_t
  start : point_t
  target : point_t
deriving DecidableEq, Repr

/-- The member `grid_t::index_of`: `point.x + point.y * width`. -/
def grid_t.index_of (g : grid_t) (point : point_t) : Int :=
  point.x + point.y * g.width

/-- Outcome of running a piece of the program: a value, an access to a vector
outside its range (with the index used), or exhaustion of the model's fuel. -/
inductive result_t (α : Type) where
  | ok (value : α)
  | fault (index : Int)
  | out_of_fuel
deriving DecidableEq, Repr

/-- Read `v[i]` for an `int` index: `none` when `i` is outside `[0, size)`. -/
def vec_get {α : Type} (v : List α) (i : Int) : Option α :=
  if 0 ≤ i then v[i.toNat]? else none

/-- Write `v[i] = a` for an `int` index (used after a successful range check). -/
def vec_set {α : Type} (v : List α) (i : Int) (a : α) : List α :=
  if 0 ≤ i then v.set i.toNat a else v

/-- The function `get_point_from_index`: `{ i % w, i / w }` with C++ truncation. -/
def get_point_from_index (i : Int) (w : Int) : point_t :=
  ⟨i.tmod w, i.tdiv w⟩

/-- The function `calculate_heuristic`: the Manhattan distance. -/
def calculate_heuristic (start target : point_t) : Int :=
  ((start.x - target.x).natAbs : Int) + ((start.y - target.y).natAbs : Int)

/-! ## Directed search (`priority_search`) -/

/-- The order `operator<` of `std::pair<int, int>`: lexicographic. -/
def pair_lt (a b : Int × Int) : Bool :=
  decide (a.1 < b.1) || (decide (a.1 = b.1) && decide (a.2 < b.2))

/-- The `std::priority_queue<pair<int, int>>` is kept as a list sorted from the
largest entry down: `push` inserts in order, `top` is the head, `pop` the tail. -/
def pq_push : List (Int × Int) → Int × Int → List (Int × Int)
  | [], e => [e]
  | a :: rest, e => if pair_lt a e then e :: a :: rest else a :: pq_push rest e

/-- The local vectors and the queue of `priority_search`. -/
structure search_t where
  previous : List point_t
  visited : List Bool
  next : List (Int × Int)
deriving DecidableEq, Repr

/-- The vector `directions` of `priority_search`. -/
def directions : List point_t := [⟨1, 0⟩, ⟨0, 1⟩, ⟨-1, 0⟩, ⟨0, -1⟩]

/-- One turn of the `for (int i = 0; i < 4; i++)` loop body, for direction `d`.
The three vectors `cells`, `visited`, `previous` are indexed with the same
unchecked `index_of(neighbor)`. -/
def visit_neighbor (g : grid_t) (current : point_t) (s : search_t) (d : point_t) :
    result_t search_t :=
  let neighbor : point_t := ⟨current.x + d.x, current.y + d.y⟩
  let ni := g.index_of neighbor
  match vec_get g.cells ni, vec_get s.visited ni with
  | some c, some v =>
    if c = cell_t.wall ∨ v = true then result_t.ok s
    else result_t.ok
      ⟨vec_set s.previous ni current, vec_set s.visited ni true,
        pq_push s.next (calculate_heuristic neighbor g.start, ni)⟩
  | _, _ => result_t.fault ni

/-- The `for` loop over the directions still to be examined. -/
def expand (g : grid_t) (current : point_t) : List point_t → search_t → result_t search_t
  | [], s => result_t.ok s
  | d :: ds, s =>
    match visit_neighbor g current s d with
    | result_t.ok s1 => expand g current ds s1
    | result_t.fault i => result_t.fault i
    | result_t.out_of_fuel => result_t.out_of_fuel

/-- The inner `while` of `priority_search` that follows `previous` from the
start cell until the index of the target is met. -/
def reconstruct (g : grid_t) (previous : List point_t) :
    Nat → point_t → List point_t → result_t (List point_t)
  | 0, _, _ => result_t.out_of_fuel
  | fuel + 1, current, path =>
    if g.index_of current ≠ g.index_of g.target then
      match vec_get previous (g.index_of current) with
      | some came_from => reconstruct g previous fuel came_from (path ++ [came_from])
      | none => result_t.fault (g.index_of current)
    else result_t.ok path

/-- The outer `while (!next.empty())` of `priority_search`. -/
def search_loop (g : grid_t) : Nat → search_t → result_t (List point_t)
  | 0, _ => result_t.out_of_fuel
  | fuel + 1, s =>
    match s.next with
    | [] => result_t.ok []
    | top :: rest =>
      let current := get_point_from_index top.2 g.width
      let ci := g.index_of current
      match vec_get s.visited ci with
      | none => result_t.fault ci
      | some _ =>
        let s1 : search_t := ⟨s.previous, vec_set s.visited ci true, rest⟩
        if ci = g.index_of g.start then
          reconstruct g s1.previous (g.cells.length + 1) current []
        else
          match expand g current directions s1 with
          | result_t.ok s2 => search_loop g fuel s2
          | result_t.fault i => result_t.fault i
          | result_t.out_of_fuel => result_t.out_of_fuel

/-- The state of `priority_search` when its outer loop is entered. -/
def search_init (g : grid_t) : search_t :=
  ⟨List.replicate g.cells.length ⟨0, 0⟩, List.replicate g.cells.length false,
    pq_push [] (calculate_heuristic g.target g.start, g.index_of g.target)⟩

/-- The function `priority_search` with an explicit bound on the turns of its
outer loop. -/
def priority_search_fuel (fuel : Nat) (g : grid_t) : result_t (List point_t) :=
  search_loop g fuel (search_init g)

/-- The function `priority_search`: the outer loop is given one turn per cell
plus two, which is never exhausted on a valid grid (every turn pops an entry
and an index is pushed at most once). -/
def priority_search (g : grid_t) : result_t (List point_t) :=
  priority_search_fuel (g.cells.length + 2) g

/-! ### The pushes of a run

The same loop, carrying next to the state the list of the indices given to
`next.push`, in the order of the calls: the push of the target before the loop
and the push at the end of the `for` body. -/

/-- The body of the `for` loop as in `visit_neighbor`, with the index appended
to the log where the source calls `next.push`. -/
def visit_neighbor_log (g : grid_t) (current : point_t) (s : search_t) (log : List Int)
    (d : point_t) : result_t search_t × List Int :=
  let neighbor : point_t := ⟨current.x + d.x, current.y + d.y⟩
  let ni := g.index_of neighbor
  match vec_get g.cells ni, vec_get s.visited ni with
  | some c, some v =>
    if c = cell_t.wall ∨ v = true then (result_t.ok s, log)
    else (result_t.ok
      ⟨vec_set s.previous ni current, vec_set s.visited ni true,
        pq_push s.next (calculate_heuristic neighbor g.start, ni)⟩, log ++ [ni])
  | _, _ => (result_t.fault ni, log)

/-- The `for` loop as in `expand`, with the log. -/
def expand_log (g : grid_t) (current : point_t) :
    List point_t → search_t → List Int → result_t search_t × List Int
  | [], s, log => (result_t.ok s, log)
  | d :: ds, s, log =>
    match visit_neighbor_log g current s log d with
    | (result_t.ok s1, log1) => expand_log g current ds s1 log1
    | (result_t.fault i, log1) => (result_t.fault i, log1)
    | (result_t.out_of_fuel, log1) => (result_t.out_of_fuel, log1)

/-- The outer loop as in `search_loop`, with the log. -/
def search_loop_log (g : grid_t) :
    Nat → search_t → List Int → result_t (List point_t) × List Int
  | 0, _, log => (result_t.out_of_fuel, log)
  | fuel + 1, s, log =>
    match s.next with
    | [] => (result_t.ok [], log)
    | top :: rest =>
      let current := get_point_from_index top.2 g.width
      let ci := g.index_of current
      match vec_get s.visited ci with
      | none => (result_t.fault ci, log)
      | some _ =>
        let s1 : search_t := ⟨s.previous, vec_set s.visited ci true, rest⟩
        if ci = g.index_of g.start then
          (reconstruct g s1.previous (g.cells.length + 1) current [], log)
        else
          match expand_log g current directions s1 log with
          | (result_t.ok s2, log2) => search_loop_log g fuel s2 log2
          | (result_t.fault i, log2) => (result_t.fault i, log2)
          | (result_t.out_of_fuel, log2) => (result_t.out_of_fuel, log2)

/-- The function `priority_search` run for at most `fuel` turns of its outer
loop, with the log of every index pushed; the log starts with the index of the
target, pushed before the loop. -/
def priority_search_log (fuel : Nat) (g : grid_t) : result_t (List point_t) × List Int :=
  search_loop_log g fuel (search_init g) [g.index_of g.target]

/-! ## Reachability explorer (`flood_fill`) -/

/-- The local variables of `flood_fill`. -/
structure flood_t where
  open_set : List point_t
  closed_set : List point_t
  current_pos : point_t
deriving DecidableEq, Repr

/-- The four neighbours built in the loop body of `flood_fill`, in order
`up, right, down, left`. -/
def flood_neighbors (p : point_t) : List point_t :=
  [⟨p.x, p.y + 1⟩, ⟨p.x + 1, p.y⟩, ⟨p.x, p.y - 1⟩, ⟨p.x - 1, p.y⟩]

/-- The body of the `for` loop over `neighbors`. The test
`index < grid.cells.size()` compares after conversion to `size_t`, so a negative
index fails it; together with `cells[index] == empty` this is a checked read. -/
def flood_neighbor (g : grid_t) (s : flood_t) (nb : point_t) : flood_t :=
  if vec_get g.cells (g.index_of nb) = some cell_t.empty then
    if nb ∈ s.closed_set then s
    else if nb ∈ s.open_set then s
    else ⟨s.open_set ++ [nb], s.closed_set, s.current_pos⟩
  else s

/-- The body of the `while` loop of `flood_fill` after the target test: the
four neighbours are examined, the front of the open list is erased, the current
cell is appended to the closed list and the next current cell is the front of
the open list when there is one. -/
def flood_turn (g : grid_t) (s : flood_t) : flood_t :=
  let s1 := (flood_neighbors s.current_pos).foldl (flood_neighbor g) s
  let open1 := s1.open_set.tail
  let closed1 := s1.closed_set ++ [s.current_pos]
  let current1 := match open1 with
    | [] => s.current_pos
    | p :: _ => p
  ⟨open1, closed1, current1⟩

/-- The `while (!open_set.empty())` loop of `flood_fill`; the final state is
returned, `none` when the fuel runs out. -/
def flood_loop (g : grid_t) : Nat → flood_t → Option flood_t
  | 0, _ => none
  | fuel + 1, s =>
    if s.open_set = [] then some s
    else if s.current_pos.x = g.target.x ∧ s.current_pos.y = g.target.y then some s
    else flood_loop g fuel (flood_turn g s)

/-- The state of `flood_fill` when its loop is entered. -/
def flood_init (g : grid_t) : flood_t := ⟨[g.start], [], g.start⟩

/-- The function `flood_fill`: the closed list when the loop stops within
`fuel` turns. -/
def flood_fill (fuel : Nat) (g : grid_t) : Option (List point_t) :=
  (flood_loop g fuel (flood_init g)).map flood_t.closed_set

/-! ## Grid construction (`read_grid`) -/

/-- The call `cells.resize(n, value)` of `std::vector`. -/
def resize {α : Type} (v : List α) (n : Nat) (value : α) : List α :=
  v.take n ++ List.replicate (n - v.length) value

/-- The `switch (lines[y][x])` of `read_grid`: `none` is the `default` branch. -/
def read_cell (g : grid_t) (x y : Int) (c : Char) : Option grid_t :=
  let grid_index := g.index_of ⟨x, y⟩
  if c = '#' then
    some ⟨g.width, g.height, vec_set g.cells grid_index cell_t.wall, g.start, g.target⟩
  else if c = ' ' then
    some ⟨g.width, g.height, vec_set g.cells grid_index cell_t.empty, g.start, g.target⟩
  else if c = 's' then
    some ⟨g.width, g.height, vec_set g.cells grid_index cell_t.empty, ⟨x, y⟩, g.target⟩
  else if c = 't' then
    some ⟨g.width, g.height, vec_set g.cells grid_index cell_t.empty, g.start, ⟨x, y⟩⟩
  else none

/-- The inner loop of `read_grid` over the characters of line `y`, from column
`x` on; the flag is `false` when the `default` branch returned. -/
def read_row (y : Int) : List Char → Int → grid_t → Bool × grid_t
  | [], _, g => (true, g)
  | c :: cs, x, g =>
    match read_cell g x y c with
    | some g1 => read_row y cs (x + 1) g1
    | none => (false, g)

/-- The outer loop of `read_grid` over the lines, from row `y` on. -/
def read_rows : List (List Char) → Int → grid_t → Bool × grid_t
  | [], _, g => (true, g)
  | line :: rest, y, g =>
    match read_row y line 0 g with
    | (true, g1) => read_rows rest (y + 1) g1
    | (false, g1) => (false, g1)

/-- The function `read_grid` on the lines of the stream; `grid` is the object
passed by reference, the result is the returned flag and the object after the
call. -/
def read_grid (lines : List String) (grid : grid_t) : Bool × grid_t :=
  let height : Nat := lines.length
  let width : Nat := lines.foldl (fun w line => max w line.length) 0
  read_rows (lines.map String.toList) 0
    ⟨width, height, resize grid.cells (width * height) cell_t.empty, grid.start, grid.target⟩

/-! ## Path geometry encoder (`compute_intersections`, `print_path`) -/

/-- The statement `intersections[i].value |= bit`. -/
def or_at (m : List Nat) (i : Int) (bit : Nat) : Option (List Nat) :=
  match vec_get m i with
  | some v => some (vec_set m i (v ||| bit))
  | none => none

/-- The body of the range `for` of `compute_intersections` for one point; the
state is the mask vector and `prev_grid_index`; `none` is an access outside
the mask vector. The bits are `up = 1, left = 2, right = 4, down = 8,
visited = 16`. -/
def intersect_point (g : grid_t) (st : List Nat × Int) (point : point_t) :
    Option (List Nat × Int) :=
  if 0 ≤ point.x ∧ point.x < g.width ∧ 0 ≤ point.y ∧ point.y < g.height then
    let grid_index := g.index_of point
    let prev_grid_index := st.2
    match vec_get st.1 grid_index with
    | none => none
    | some _ =>
      let m := vec_set st.1 grid_index 16
      let linked : Option (List Nat) :=
        if grid_index = prev_grid_index - g.width then
          (or_at m grid_index 8).bind (fun m1 => or_at m1 prev_grid_index 1)
        else if grid_index = prev_grid_index - 1 ∧ point.x < g.width - 1 then
          (or_at m grid_index 4).bind (fun m1 => or_at m1 prev_grid_index 2)
        else if grid_index = prev_grid_index + 1 ∧ point.x > 0 then
          (or_at m grid_index 2).bind (fun m1 => or_at m1 prev_grid_index 4)
        else if grid_index = prev_grid_index + g.width then
          (or_at m grid_index 1).bind (fun m1 => or_at m1 prev_grid_index 8)
        else some m
      linked.map (fun m2 => (m2, grid_index))
  else some (st.1, -(g.width + 1))

/-- The range `for` of `compute_intersections` over the rest of the path. -/
def intersect_loop (g : grid_t) : List point_t → List Nat × Int → Option (List Nat)
  | [], st => some st.1
  | point :: rest, st =>
    match intersect_point g st point with
    | some st1 => intersect_loop g rest st1
    | none => none

/-- The function `compute_intersections`: the mask of every cell. -/
def compute_intersections (g : grid_t) (path : List point_t) : Option (List Nat) :=
  intersect_loop g path (List.replicate (g.width * g.height).toNat 0, -(g.width + 1))

/-- The table `intersection_graphics` of `print_path`. -/
def intersection_graphics : List Char :=
  [' ', '?', '?', '?',
   '?', '?', '?', '?',
   '?', '?', '?', '?',
   '?', '?', '?', '?',
   'o', '|', '-', '/',
   '-', '\\', '-', '?',
   '|', '|', '\\', '?',
   '/', '?', '?', '?']

/-- The character `print_path` writes for the cell `(x, y)`, given the masks;
`none` is an access outside `cells`, the masks or the table. -/
def print_cell (g : grid_t) (m : List Nat) (x y : Int) : Option Char :=
  let grid_index := g.index_of ⟨x, y⟩
  match vec_get g.cells grid_index, vec_get m grid_index with
  | some cell_t.empty, some v =>
    if g.start.x = x ∧ g.start.y = y then some 's'
    else if g.target.x = x ∧ g.target.y = y then some 't'
    else intersection_graphics[v]?
  | some cell_t.wall, some v => some (if v = 0 then '#' else 'X')
  | _, _ => none

/-- The inner loop of `print_path`: `k` cells of row `y` from column `x` on,
followed by the newline. -/
def print_row (g : grid_t) (m : List Nat) (y : Int) : Nat → Int → Option (List Char)
  | 0, _ => some ['\n']
  | k + 1, x =>
    match print_cell g m x y, print_row g m y k (x + 1) with
    | some c, some rest => some (c :: rest)
    | _, _ => none

/-- The outer loop of `print_path`: `k` rows from row `y` on. -/
def print_rows (g : grid_t) (m : List Nat) : Nat → Int → Option (List Char)
  | 0, _ => some []
  | k + 1, y =>
    match print_row g m y g.width.toNat 0, print_rows g m k (y + 1) with
    | some row, some rest => some (row ++ rest)
    | _, _ => none

/-- The function `print_path`: the characters written to the stream. -/
def print_path (g : grid_t) (path : List point_t) : Option (List Char) :=
  match compute_intersections g path with
  | some m => print_rows g m g.height.toNat 0
  | none => none

/-! ## Specification vocabulary -/

/-- The point lies inside the grid: `0 ≤ x < width` and `0 ≤ y < height`. -/
def in_bounds (g : grid_t) (p : point_t) : Prop :=
  0 ≤ p.x ∧ p.x < g.width ∧ 0 ≤ p.y ∧ p.y < g.height

instance (g : grid_t) (p : point_t) : Decidable (in_bounds g p) :=
  inferInstanceAs (Decidable (0 ≤ p.x ∧ p.x < g.width ∧ 0 ≤ p.y ∧ p.y < g.height))

/-- The point is an in-bounds Empty cell of the grid. -/
def open_cell (g : grid_t) (p : point_t) : Prop :=
  in_bounds g p ∧ vec_get g.cells (g.index_of p) = some cell_t.empty

instance (g : grid_t) (p : point_t) : Decidable (open_cell g p) :=
  inferInstanceAs (Decidable (in_bounds g p ∧ _))

/-- The invariants of the data model: `cells` has `width * height` entries,
start and target are in-bounds Empty cells. -/
def grid_t.valid (g : grid_t) : Prop :=
  (g.cells.length : Int) = g.width * g.height ∧ open_cell g g.start ∧ open_cell g g.target

instance (g : grid_t) : Decidable g.valid :=
  inferInstanceAs (Decidable (_ ∧ _ ∧ _))

/-- Every cell of the first and last column and of the first and last row is a
Wall (stated over the linear indices of `cells`). -/
def border_walls (g : grid_t) : Prop :=
  ∀ i : Nat, i < g.cells.length →
    ((get_point_from_index i g.width).x = 0 ∨ (get_point_from_index i g.width).x = g.width - 1 ∨
      (get_point_from_index i g.width).y = 0 ∨ (get_point_from_index i g.width).y = g.height - 1) →
    g.cells[i]? = some cell_t.wall

instance (g : grid_t) : Decidable (border_walls g) :=
  inferInstanceAs (Decidable (∀ i : Nat, i < g.cells.length → _))

/-- Orthogonal adjacency: Manhattan distance exactly 1. -/
def adjacent (p q : point_t) : Prop :=
  (p.x - q.x).natAbs + (p.y - q.y).natAbs = 1

instance (p q : point_t) : Decidable (adjacent p q) :=
  inferInstanceAs (Decidable (_ = 1))

/-- Consecutive points of the list are orthogonally adjacent. -/
def steps_adjacent : List point_t → Prop
  | [] => True
  | [_] => True
  | p :: q :: rest => adjacent p q ∧ steps_adjacent (q :: rest)

/-- Adjacency of consecutive points is decided by walking the list. -/
def steps_adjacent_dec : (l : List point_t) → Decidable (steps_adjacent l)
  | [] => isTrue trivial
  | [_] => isTrue trivial
  | p :: q :: rest =>
    match (inferInstance : Decidable (adjacent p q)), steps_adjacent_dec (q :: rest) with
    | isTrue h1, isTrue h2 => isTrue ⟨h1, h2⟩
    | isFalse h1, _ => isFalse (fun h => h1 h.1)
    | _, isFalse h2 => isFalse (fun h => h2 h.2)

instance (l : List point_t) : Decidable (steps_adjacent l) := steps_adjacent_dec l

/-- A route: consecutive points are orthogonally adjacent and every point is an
in-bounds Empty cell. -/
def is_route (g : grid_t) (l : List point_t) : Prop :=
  steps_adjacent l ∧ ∀ p ∈ l, open_cell g p

instance (g : grid_t) (l : List point_t) : Decidable (is_route g l) :=
  inferInstanceAs (Decidable (_ ∧ _))

/-! ## Invariants of the directed search -/

/-- The `visited` flag of index `i` is set. -/
def is_visited (visited : List Bool) (i : Int) : Prop :=
  vec_get visited i = some true

/-- The point `current` moved by the direction `d`, as `priority_search`
builds `neighbor`. -/
def step_to (current d : point_t) : point_t :=
  ⟨current.x + d.x, current.y + d.y⟩

/-- Following `previous` from index `i` yields exactly the points of `path`
and stops at the index of the target; every point met is an in-bounds Empty
cell whose index is visited, was reached from it by one direction step (on
indices), and no index is met twice. -/
def chain (g : grid_t) (previous : List point_t) (visited : List Bool) :
    Int → List point_t → Prop
  | i, [] => i = g.index_of g.target
  | i, p :: rest =>
    i ≠ g.index_of g.target ∧ vec_get previous i = some p ∧ open_cell g p ∧
    is_visited visited (g.index_of p) ∧
    (∃ d ∈ directions, g.index_of (step_to p d) = i) ∧
    i ∉ (p :: rest).map g.index_of ∧ chain g previous visited (g.index_of p) rest

/-- The part of `chain` that does not mention the vectors of the search. -/
def link_path (g : grid_t) : Int → List point_t → Prop
  | i, [] => i = g.index_of g.target
  | i, p :: rest =>
    i ≠ g.index_of g.target ∧ open_cell g p ∧
    (∃ d ∈ directions, g.index_of (step_to p d) = i) ∧
    i ∉ (p :: rest).map g.index_of ∧ link_path g (g.index_of p) rest

/-- Invariant of the outer loop of `priority_search` on the vectors and the
queue. -/
structure search_inv (g : grid_t) (s : search_t) : Prop where
  len_visited : s.visited.length = g.cells.length
  len_previous : s.previous.length = g.cells.length
  target_visited : is_visited s.visited (g.index_of g.target)
  queue_visited : ∀ e ∈ s.next, is_visited s.visited e.2
  chains : ∀ i, is_visited s.visited i →
    vec_get g.cells i = some cell_t.empty ∧ ∃ path, chain g s.previous s.visited i path

/-- All four neighbour indices of the cell with index `i` are walls or
visited. -/
def closed_at (g : grid_t) (visited : List Bool) (i : Int) : Prop :=
  ∀ d ∈ directions,
    vec_get g.cells (g.index_of (step_to (get_point_from_index i g.width) d)) = some cell_t.wall ∨
    is_visited visited (g.index_of (step_to (get_point_from_index i g.width) d))

/-- Every visited index is still queued, or is the one being expanded
(`pending`), or is not the start index and has all its neighbours examined. -/
def frontier_inv (g : grid_t) (s : search_t) (pending : Option Int) : Prop :=
  ∀ i, is_visited s.visited i →
    (∃ e ∈ s.next, e.2 = i) ∨ pending = some i ∨
    (i ≠ g.index_of g.start ∧ closed_at g s.visited i)

/-- The quantity that decreases with every turn of the outer loop: unvisited
indices plus queued entries. -/
def search_measure (s : search_t) : Nat :=
  s.visited.count false + s.next.length

/-- Invariant inside a turn of the outer loop, after `current` has been popped
and marked and while its neighbours are examined. -/
structure expand_inv (g : grid_t) (current : point_t) (s : search_t) : Prop where
  inv : search_inv g s
  front : frontier_inv g s (some (g.index_of current))
  cur_open : open_cell g current
  cur_visited : is_visited s.visited (g.index_of current)

/-- A turn of the outer loop of `priority_search` from the point where
`current` has been popped and marked: the test against the start index, then
either the reconstruction or the four neighbours and the rest of the loop `k`. -/
def finish_turn (g : grid_t) (k : search_t → result_t (List point_t)) (current : point_t)
    (s1 : search_t) : result_t (List point_t) :=
  if g.index_of current = g.index_of g.start then
    reconstruct g s1.previous (g.cells.length + 1) current []
  else
    match expand g current directions s1 with
    | result_t.ok s2 => k s2
    | result_t.fault i => result_t.fault i
    | result_t.out_of_fuel => result_t.out_of_fuel

/-- The grid read from the rows `"#####"`, `"#s  #"`, `"# # #"`, `"#  t#"`,
`"#####"`: every border cell is a wall. -/
def bordered_example : grid_t :=
  ⟨5, 5,
    [cell_t.wall, cell_t.wall, cell_t.wall, cell_t.wall, cell_t.wall,
     cell_t.wall, cell_t.empty, cell_t.empty, cell_t.empty, cell_t.wall,
     cell_t.wall, cell_t.empty, cell_t.wall, cell_t.empty, cell_t.wall,
     cell_t.wall, cell_t.empty, cell_t.empty, cell_t.empty, cell_t.wall,
     cell_t.wall, cell_t.wall, cell_t.wall, cell_t.wall, cell_t.wall],
    ⟨1, 1⟩, ⟨3, 3⟩⟩

/-! ## Invariants of the reachability explorer -/

/-- The explorer accepts the point: its index lies inside `cells` and the cell
stored there is Empty. -/
def flood_ok (g : grid_t) (p : point_t) : Prop :=
  vec_get g.cells (g.index_of p) = some cell_t.empty

/-- The point `q` is reached from `p` by `k` neighbour steps of the explorer
through accepted points. -/
def flood_reach (g : grid_t) : Nat → point_t → point_t → Prop
  | 0, p, q => p = q
  | k + 1, p, q => ∃ r ∈ flood_neighbors p, flood_ok g r ∧ flood_reach g k r q

/-- Invariant of the loop of `flood_fill`: the current cell is the front of a
non-empty open list, every accepted neighbour of a closed cell is open or
closed, and the target is not closed. -/
structure flood_inv (g : grid_t) (s : flood_t) : Prop where
  front : s.open_set ≠ [] → s.open_set.head? = some s.current_pos
  closed_done : ∀ c ∈ s.closed_set, ∀ r ∈ flood_neighbors c, flood_ok g r →
    r ∈ s.open_set ∨ r ∈ s.closed_set
  target_open : g.target ∉ s.closed_set

/-! ## Specification vocabulary of the encoder -/

/-- The bits chosen by the `if` chain of `compute_intersections` for the point
`point` after the index `prev`: the bit or-ed into the mask of the current cell
and the bit or-ed into the mask of the previous cell; `(0, 0)` when no branch
is taken. -/
def link_bits (g : grid_t) (prev : Int) (point : point_t) : Nat × Nat :=
  if g.index_of point = prev - g.width then (8, 1)
  else if g.index_of point = prev - 1 ∧ point.x < g.width - 1 then (4, 2)
  else if g.index_of point = prev + 1 ∧ point.x > 0 then (2, 4)
  else if g.index_of point = prev + g.width then (1, 8)
  else (0, 0)

/-- The cell next to `c` in the direction named by a bit: `up = 1` is `y - 1`,
`left = 2` is `x - 1`, `right = 4` is `x + 1`, `down = 8` is `y + 1`. -/
def dir_neighbor (c : point_t) (bit : Nat) : point_t :=
  if bit = 1 then ⟨c.x, c.y - 1⟩
  else if bit = 2 then ⟨c.x - 1, c.y⟩
  else if bit = 4 then ⟨c.x + 1, c.y⟩
  else ⟨c.x, c.y + 1⟩

/-- The point `b` comes immediately after an occurrence of `a` in the list. -/
def follows (l : List point_t) (a b : point_t) : Prop :=
  ∃ pre post, l = pre ++ a :: b :: post

/-- The value `bit` is no bit at all, or a direction bit of the cell `c` that is
accounted for by the points `done`: the neighbour of `c` in that direction is
inside the grid and comes immediately before or after an occurrence of `c`. -/
def link_ok (g : grid_t) (done : List point_t) (c : point_t) (bit : Nat) : Prop :=
  bit = 0 ∨ (bit ∈ [1, 2, 4, 8] ∧ in_bounds g (dir_neighbor c bit) ∧
    (follows done (dir_neighbor c bit) c ∨ follows done c (dir_neighbor c bit)))

/-- The value of `prev_grid_index` after the points `done`: the index of the
last point when it is inside the grid, the sentinel otherwise. -/
def last_index (g : grid_t) (done : List point_t) : Int :=
  match done.getLast? with
  | some p => if in_bounds g p then g.index_of p else -(g.width + 1)
  | none => -(g.width + 1)

/-- Invariant of the loop of `compute_intersections` after the points `done`. -/
structure encode_inv (g : grid_t) (done : List point_t) (st : List Nat × Int) : Prop where
  len : st.1.length = (g.width * g.height).toNat
  prev_eq : st.2 = last_index g done
  at_prev : ∀ p, done.getLast? = some p → in_bounds g p →
    ∃ a, link_ok g done p a ∧ vec_get st.1 (g.index_of p) = some (16 ||| a)
  cells : ∀ c, in_bounds g c → ∃ v, vec_get st.1 (g.index_of c) = some v ∧
    (v = 0 ∨ ∃ a b, link_ok g done c a ∧ link_ok g done c b ∧ v = 16 ||| a ||| b)

/-- The direction bit of the cell `p` that points toward the orthogonally
adjacent cell `q`: `up = 1`, `left = 2`, `right = 4`, `down = 8`. -/
def dir_bit (p q : point_t) : Nat :=
  if q.y = p.y - 1 then 1
  else if q.x = p.x - 1 then 2
  else if q.x = p.x + 1 then 4
  else 8

/-! ## Specification vocabulary of the grid construction -/

/-- The character is one of the four accepted by `read_grid`. -/
def accepted_char (c : Char) : Prop :=
  c = '#' ∨ c = ' ' ∨ c = 's' ∨ c = 't'

instance (c : Char) : Decidable (accepted_char c) :=
  inferInstanceAs (Decidable (_ ∨ _ ∨ _ ∨ _))

/-- The cell state `read_grid` stores for an accepted character. -/
def cell_of_char (c : Char) : cell_t :=
  if c = '#' then cell_t.wall else cell_t.empty

/-- The grid object as `main` declares it before calling `read_grid`: no cells
yet (the integers of a default-initialised `grid_t` are indeterminate; they are
overwritten or unused). -/
def fresh_grid : grid_t := ⟨0, 0, [], ⟨0, 0⟩, ⟨0, 0⟩⟩

/-- Three input rows, the last one shorter than the others. -/
def ragged_lines : List String := ["s  #", " # #", "  t"]

/-- The grid read from the rows `"s  "`, `" ##"`, `"#t#"`: the target `(1, 2)`
is walled off and the indices 0 to 3 are consecutive Empty cells. -/
def looping_example : grid_t :=
  ⟨3, 3,
    [cell_t.empty, cell_t.empty, cell_t.empty,
     cell_t.empty, cell_t.wall, cell_t.wall,
     cell_t.wall, cell_t.empty, cell_t.wall],
    ⟨0, 0⟩, ⟨1, 2⟩⟩

/-- The wall-free grid read from the rows `"s  "`, `"  t"`. -/
def open_example : grid_t :=
  ⟨3, 2, List.replicate 6 cell_t.empty, ⟨0, 0⟩, ⟨2, 1⟩⟩

/-! # Theorems -/

/-! ## Index arithmetic -/

theorem index_of_nonneg (g : grid_t) (p : point_t) (h : in_bounds g p) : 0 ≤ g.index_of p := by
  obtain ⟨h1, h2, h3, h4⟩ := h
  unfold grid_t.index_of
  have : 0 ≤ p.y * g.width := mul_nonneg h3 (by omega)
  omega

theorem index_of_lt (g : grid_t) (p : point_t) (h : in_bounds g p) :
    g.index_of p < g.width * g.height := by
  obtain ⟨h1, h2, h3, h4⟩ := h
  unfold grid_t.index_of
  have : (p.y + 1) * g.width ≤ g.height * g.width :=
    mul_le_mul_of_nonneg_right (by omega) (by omega)
  nlinarith

theorem index_of_get_point (g : grid_t) (i : Int) :
    g.index_of (get_point_from_index i g.width) = i := by
  unfold grid_t.index_of get_point_from_index
  have := Int.tmod_add_tdiv i g.width
  simp only
  rw [mul_comm]; exact this

theorem get_point_index_of (g : grid_t) (p : point_t) (h : in_bounds g p) :
    get_point_from_index (g.index_of p) g.width = p := by
  obtain ⟨h1, h2, h3, h4⟩ := h
  have hn := index_of_nonneg g p ⟨h1, h2, h3, h4⟩
  unfold get_point_from_index
  rw [Int.tmod_eq_emod hn (by omega), Int.tdiv_eq_ediv hn (by omega)]
  unfold grid_t.index_of
  have hx : (p.x + p.y * g.width) % g.width = p.x := by
    rw [Int.add_mul_emod_self]; exact Int.emod_eq_of_lt h1 h2
  have hy : (p.x + p.y * g.width) / g.width = p.y := by
    rw [Int.add_mul_ediv_right _ _ (by omega), Int.ediv_eq_zero_of_lt h1 h2]; simp
  cases p; simp_all

theorem get_point_in_bounds (g : grid_t) (i : Int) (hw : 0 < g.width)
    (h0 : 0 ≤ i) (h1 : i < g.width * g.height) : in_bounds g (get_point_from_index i g.width) := by
  unfold get_point_from_index in_bounds
  simp only
  rw [Int.tmod_eq_emod h0 (by omega), Int.tdiv_eq_ediv h0 (by omega)]
  refine ⟨Int.emod_nonneg _ (by omega), Int.emod_lt_of_pos _ hw, Int.ediv_nonneg h0 (by omega), ?_⟩
  exact Int.ediv_lt_of_lt_mul hw (by rw [mul_comm]; exact h1)

theorem index_of_inj (g : grid_t) (p q : point_t) (hp : in_bounds g p) (hq : in_bounds g q)
    (h : g.index_of p = g.index_of q) : p = q := by
  rw [← get_point_index_of g p hp, ← get_point_index_of g q hq, h]

/-- C9: for `width ≥ 1` and `height ≥ 1`, `index_of` maps the in-bounds points
bijectively onto `[0, width * height)` and `get_point_from_index` is its
inverse there (in both directions). -/
theorem index_of_bijection (g : grid_t) (hw : 1 ≤ g.width) (_hh : 1 ≤ g.height) :
    Set.BijOn g.index_of {p | in_bounds g p} (Set.Ico 0 (g.width * g.height)) ∧
    Set.InvOn (fun i => get_point_from_index i g.width) g.index_of
      {p | in_bounds g p} (Set.Ico 0 (g.width * g.height)) := by
  refine ⟨⟨?_, ?_, ?_⟩, ?_, ?_⟩
  · intro p hp
    exact ⟨index_of_nonneg g p hp, index_of_lt g p hp⟩
  · intro p hp q hq h
    exact index_of_inj g p q hp hq h
  · intro i hi
    exact ⟨get_point_from_index i g.width,
      get_point_in_bounds g i (by omega) hi.1 hi.2, index_of_get_point g i⟩
  · intro p hp
    exact get_point_index_of g p hp
  · intro i _
    exact index_of_get_point g i

/-- C9 witness: the statement applied to a grid of width 3 and height 2. -/
theorem index_of_bijection_witness :
    (1 : Int) ≤ (grid_t.mk 3 2 [] ⟨0, 0⟩ ⟨0, 0⟩).width ∧
    (1 : Int) ≤ (grid_t.mk 3 2 [] ⟨0, 0⟩ ⟨0, 0⟩).height ∧
    (Set.BijOn (grid_t.mk 3 2 [] ⟨0, 0⟩ ⟨0, 0⟩).index_of
      {p | in_bounds (grid_t.mk 3 2 [] ⟨0, 0⟩ ⟨0, 0⟩) p} (Set.Ico 0 (3 * 2)) ∧
    Set.InvOn (fun i => get_point_from_index i 3) (grid_t.mk 3 2 [] ⟨0, 0⟩ ⟨0, 0⟩).index_of
      {p | in_bounds (grid_t.mk 3 2 [] ⟨0, 0⟩ ⟨0, 0⟩) p} (Set.Ico 0 (3 * 2))) :=
  ⟨by decide, by decide, index_of_bijection (grid_t.mk 3 2 [] ⟨0, 0⟩ ⟨0, 0⟩) (by decide) (by decide)⟩

/-! ## Vector accesses -/

theorem vec_get_some_iff {α : Type} (v : List α) (i : Int) :
    (∃ a, vec_get v i = some a) ↔ 0 ≤ i ∧ i < v.length := by
  unfold vec_get
  constructor
  · rintro ⟨a, h⟩
    split at h
    · rename_i h0
      have := (List.getElem?_eq_some_iff.mp h).1
      omega
    · simp at h
  · rintro ⟨h0, h1⟩
    rw [if_pos h0]
    have : i.toNat < v.length := by omega
    exact ⟨v[i.toNat], List.getElem?_eq_getElem this⟩

theorem vec_get_range {α : Type} (v : List α) (i : Int) (a : α) (h : vec_get v i = some a) :
    0 ≤ i ∧ i < v.length :=
  (vec_get_some_iff v i).mp ⟨a, h⟩

theorem vec_get_none_iff {α : Type} (v : List α) (i : Int) :
    vec_get v i = none ↔ ¬ (0 ≤ i ∧ i < v.length) := by
  rw [← vec_get_some_iff]
  cases h : vec_get v i <;> simp

theorem vec_set_length {α : Type} (v : List α) (i : Int) (a : α) :
    (vec_set v i a).length = v.length := by
  unfold vec_set; split <;> simp

theorem vec_get_set_same {α : Type} (v : List α) (i : Int) (a : α)
    (h0 : 0 ≤ i) (h1 : i < v.length) : vec_get (vec_set v i a) i = some a := by
  unfold vec_get vec_set
  rw [if_pos h0, if_pos h0]
  have : i.toNat < v.length := by omega
  simp [List.getElem?_set, this]

theorem vec_get_set_ne {α : Type} (v : List α) (i j : Int) (a : α) (h : i ≠ j) :
    vec_get (vec_set v j a) i = vec_get v i := by
  unfold vec_get vec_set
  by_cases h0 : 0 ≤ i
  · by_cases hj : 0 ≤ j
    · simp only [if_pos h0, if_pos hj]
      have : j.toNat ≠ i.toNat := by omega
      rw [List.getElem?_set_ne this]
    · simp only [if_neg hj]
  · simp only [if_neg h0]

theorem vec_get_replicate {α : Type} (n : Nat) (a : α) (i : Int) (h0 : 0 ≤ i) (h1 : i < n) :
    vec_get (List.replicate n a) i = some a := by
  unfold vec_get
  rw [if_pos h0]
  have : i.toNat < n := by omega
  simp [List.getElem?_replicate, this]

theorem vec_get_replicate_eq {α : Type} (n : Nat) (a b : α) (i : Int)
    (h : vec_get (List.replicate n a) i = some b) : b = a := by
  have hr := vec_get_range _ _ _ h
  simp only [List.length_replicate] at hr
  rw [vec_get_replicate n a i hr.1 hr.2] at h
  exact (Option.some.inj h).symm

/-! ## Directed search: start equal to target -/

theorem pq_push_nil (e : Int × Int) : pq_push [] e = [e] := rfl

/-- C5: on a valid grid whose start equals its target, `priority_search`
returns the empty path; the result is a value, so no vector was indexed out of
range (the search returns on the first pop). -/
theorem priority_search_start_eq_target (g : grid_t) (hv : g.valid) (hst : g.start = g.target) :
    priority_search g = result_t.ok [] := by
  obtain ⟨hlen, _, hb, hc⟩ := hv
  have hr := vec_get_range _ _ _ hc
  unfold priority_search priority_search_fuel search_init
  rw [pq_push_nil]
  unfold search_loop
  simp only [index_of_get_point]
  rw [vec_get_replicate _ _ _ hr.1 hr.2]
  simp only [hst, if_true]
  unfold reconstruct
  simp [index_of_get_point]

/-- C5 witness: a one-row grid whose single free cell is both start and
target. -/
theorem priority_search_start_eq_target_witness :
    (grid_t.mk 3 1 [cell_t.wall, cell_t.empty, cell_t.wall] ⟨1, 0⟩ ⟨1, 0⟩).valid ∧
    (grid_t.mk 3 1 [cell_t.wall, cell_t.empty, cell_t.wall] ⟨1, 0⟩ ⟨1, 0⟩).start =
      (grid_t.mk 3 1 [cell_t.wall, cell_t.empty, cell_t.wall] ⟨1, 0⟩ ⟨1, 0⟩).target ∧
    priority_search (grid_t.mk 3 1 [cell_t.wall, cell_t.empty, cell_t.wall] ⟨1, 0⟩ ⟨1, 0⟩) =
      result_t.ok [] :=
  ⟨by decide, by decide, priority_search_start_eq_target _ (by decide) (by decide)⟩

/-! ## Directed search: unchecked neighbour indices -/

/-- C4: on the valid one-row grid read from `"s t"` (width 3, height 1, no
walls) the first neighbour of the target, `(3, 0)`, has index 3 and
`priority_search` reads `cells[3]` of a vector of 3 entries. -/
theorem priority_search_reads_out_of_range :
    (grid_t.mk 3 1 [cell_t.empty, cell_t.empty, cell_t.empty] ⟨0, 0⟩ ⟨2, 0⟩).valid ∧
    priority_search (grid_t.mk 3 1 [cell_t.empty, cell_t.empty, cell_t.empty] ⟨0, 0⟩ ⟨2, 0⟩) =
      result_t.fault 3 := by
  decide

/-- C7: `read_grid` accepts the three rows and yields a grid of width 4 and
height 3 (12 cells) with start `(0, 0)` and target `(2, 2)`; on it
`priority_search` examines the neighbour `(2, 3)` of the target and reads
`cells[14]`, outside the vector, instead of returning a path. -/
theorem priority_search_scenario_out_of_range :
    read_grid ["s  #", " # #", "  t"] ⟨0, 0, [], ⟨0, 0⟩, ⟨0, 0⟩⟩ =
      (true, ⟨4, 3,
        [cell_t.empty, cell_t.empty, cell_t.empty, cell_t.wall,
         cell_t.empty, cell_t.wall, cell_t.empty, cell_t.wall,
         cell_t.empty, cell_t.empty, cell_t.empty, cell_t.empty], ⟨0, 0⟩, ⟨2, 2⟩⟩) ∧
    priority_search (read_grid ["s  #", " # #", "  t"] ⟨0, 0, [], ⟨0, 0⟩, ⟨0, 0⟩⟩).2 =
      result_t.fault 14 := by
  decide

theorem route_first_step (g : grid_t) (l : List point_t) (a b : point_t) (hr : is_route g l)
    (hh : l.head? = some a) (hl : l.getLast? = some b) (hab : a ≠ b) :
    ∃ q, adjacent a q ∧ open_cell g q := by
  match l, hr, hh, hl with
  | [], _, hh, _ => simp at hh
  | [p], _, hh, hl =>
    simp at hh hl
    exact absurd (hh.symm.trans hl) hab
  | p :: q :: rest, hr, hh, _ =>
    simp at hh
    subst hh
    exact ⟨q, hr.1.1, hr.2 q (by simp)⟩

/-- C3: the grid read from `"  #"`, `" #t"`, `"s #"` is valid and its target
`(2, 1)` is walled off (no route of adjacent in-bounds Empty cells joins target
and start), yet `priority_search` returns the non-empty path `[(2, 1)]`: the
neighbour `(3, 1)` of the target has the index of the start cell `(0, 2)`. -/
theorem priority_search_wraps_around :
    (grid_t.mk 3 3 [cell_t.empty, cell_t.empty, cell_t.wall, cell_t.empty, cell_t.wall,
      cell_t.empty, cell_t.empty, cell_t.empty, cell_t.wall] ⟨0, 2⟩ ⟨2, 1⟩).valid ∧
    (¬ ∃ l, is_route (grid_t.mk 3 3 [cell_t.empty, cell_t.empty, cell_t.wall, cell_t.empty,
        cell_t.wall, cell_t.empty, cell_t.empty, cell_t.empty, cell_t.wall] ⟨0, 2⟩ ⟨2, 1⟩) l ∧
      l.head? = some ⟨2, 1⟩ ∧ l.getLast? = some ⟨0, 2⟩) ∧
    priority_search (grid_t.mk 3 3 [cell_t.empty, cell_t.empty, cell_t.wall, cell_t.empty,
      cell_t.wall, cell_t.empty, cell_t.empty, cell_t.empty, cell_t.wall] ⟨0, 2⟩ ⟨2, 1⟩) =
      result_t.ok [⟨2, 1⟩] := by
  refine ⟨by decide, ?_, by decide⟩
  rintro ⟨l, hr, hh, hl⟩
  obtain ⟨⟨qx, qy⟩, hadj, hopen⟩ := route_first_step _ l _ _ hr hh hl (by decide)
  have hq : (qx = 1 ∧ qy = 1) ∨ (qx = 3 ∧ qy = 1) ∨ (qx = 2 ∧ qy = 0) ∨ (qx = 2 ∧ qy = 2) := by
    unfold adjacent at hadj
    simp only at hadj
    omega
  rcases hq with ⟨h1, h2⟩ | ⟨h1, h2⟩ | ⟨h1, h2⟩ | ⟨h1, h2⟩ <;> subst h1 <;> subst h2 <;>
    revert hopen <;> decide

/-! ## Path geometry encoder -/

theorem or_at_some (m : List Nat) (i : Int) (v bit : Nat) (h : vec_get m i = some v) :
    or_at m i bit = some (vec_set m i (v ||| bit)) := by
  unfold or_at; rw [h]

theorem intersect_point_first (g : grid_t) (m : List Nat) (p : point_t) (hw : 0 < g.width)
    (hp : in_bounds g p) (hlen : g.index_of p < m.length) :
    intersect_point g (m, -(g.width + 1)) p = some (vec_set m (g.index_of p) 16, g.index_of p) := by
  have h0 := index_of_nonneg g p hp
  obtain ⟨a, ha⟩ := (vec_get_some_iff m (g.index_of p)).mpr ⟨h0, hlen⟩
  have hp1 : 0 ≤ p.x ∧ p.x < g.width ∧ 0 ≤ p.y ∧ p.y < g.height := hp
  have c1 : ¬ (g.index_of p = -(g.width + 1) - g.width) := by omega
  have c2 : ¬ (g.index_of p = -(g.width + 1) - 1 ∧ p.x < g.width - 1) := by omega
  have c3 : ¬ (g.index_of p = -(g.width + 1) + 1 ∧ p.x > 0) := by omega
  have c4 : ¬ (g.index_of p = -(g.width + 1) + g.width) := by omega
  unfold intersect_point
  rw [if_pos hp1]
  simp only [ha, if_neg c1, if_neg c2, if_neg c3, if_neg c4, Option.map]

theorem intersect_point_right (g : grid_t) (m : List Nat) (prev : Int) (v : Nat) (p : point_t)
    (hw : 0 < g.width) (hp : in_bounds g p) (hidx : g.index_of p = prev + 1) (hx : 0 < p.x)
    (hlen : g.index_of p < m.length) (hv : vec_get m prev = some v) :
    intersect_point g (m, prev) p =
      some (vec_set (vec_set (vec_set m (prev + 1) 16) (prev + 1) 18) prev (v ||| 4), prev + 1) := by
  have h0 := index_of_nonneg g p hp
  have hpr := vec_get_range _ _ _ hv
  obtain ⟨a, ha⟩ := (vec_get_some_iff m (g.index_of p)).mpr ⟨h0, hlen⟩
  have hp1 : 0 ≤ p.x ∧ p.x < g.width ∧ 0 ≤ p.y ∧ p.y < g.height := hp
  have c1 : ¬ (g.index_of p = prev - g.width) := by omega
  have c2 : ¬ (g.index_of p = prev - 1 ∧ p.x < g.width - 1) := by omega
  have c3 : g.index_of p = prev + 1 ∧ p.x > 0 := ⟨hidx, hx⟩
  have h1 : vec_get (vec_set m (g.index_of p) 16) (g.index_of p) = some 16 :=
    vec_get_set_same _ _ _ (by omega) (by omega)
  have h2 : vec_get (vec_set (vec_set m (g.index_of p) 16) (g.index_of p) (16 ||| 2)) prev
      = some v := by
    rw [vec_get_set_ne _ _ _ _ (by omega), vec_get_set_ne _ _ _ _ (by omega)]; exact hv
  unfold intersect_point
  rw [if_pos hp1]
  simp only [ha, if_neg c1, if_neg c2, if_pos c3, or_at_some _ _ _ _ h1, Option.bind,
    or_at_some _ _ _ _ h2, Option.map]
  rw [hidx]
  rfl

theorem vec_set_bound (m : List Nat) (i : Int) (a b : Nat) (hm : ∀ v ∈ m, v < b) (ha : a < b) :
    ∀ v ∈ vec_set m i a, v < b := by
  intro v hv
  unfold vec_set at hv
  split at hv
  · rcases List.mem_or_eq_of_mem_set hv with h | h
    · exact hm v h
    · rw [h]; exact ha
  · exact hm v hv

theorem vec_get_mem {α : Type} (m : List α) (i : Int) (a : α) (h : vec_get m i = some a) :
    a ∈ m := by
  unfold vec_get at h
  split at h
  · exact List.getElem?_mem h
  · simp at h

theorem or_at_bound (m m1 : List Nat) (i : Int) (bit : Nat) (hm : ∀ v ∈ m, v < 32)
    (hb : bit < 32) (h : or_at m i bit = some m1) :
    (∀ v ∈ m1, v < 32) ∧ m1.length = m.length := by
  unfold or_at at h
  split at h
  · rename_i v hv
    simp only [Option.some.injEq] at h
    subst h
    refine ⟨vec_set_bound m i _ 32 hm ?_, vec_set_length _ _ _⟩
    exact Nat.or_lt_two_pow (n := 5) (hm v (vec_get_mem _ _ _ hv)) hb
  · simp at h

theorem or_at_pair_bound (m m2 : List Nat) (i j : Int) (b1 b2 : Nat) (hm : ∀ v ∈ m, v < 32)
    (h1 : b1 < 32) (h2 : b2 < 32)
    (h : (or_at m i b1).bind (fun m1 => or_at m1 j b2) = some m2) :
    (∀ v ∈ m2, v < 32) ∧ m2.length = m.length := by
  cases hq : or_at m i b1 with
  | none => rw [hq] at h; simp at h
  | some m1 =>
    rw [hq] at h
    simp only [Option.bind] at h
    have a1 := or_at_bound m m1 i b1 hm h1 hq
    have a2 := or_at_bound m1 m2 j b2 a1.1 h2 h
    exact ⟨a2.1, a2.2.trans a1.2⟩

theorem intersect_point_bound (g : grid_t) (st st1 : List Nat × Int) (p : point_t)
    (hm : ∀ v ∈ st.1, v < 32) (h : intersect_point g st p = some st1) :
    (∀ v ∈ st1.1, v < 32) ∧ st1.1.length = st.1.length := by
  unfold intersect_point at h
  split at h
  · dsimp only at h
    split at h
    · simp at h
    · simp only [Option.map_eq_some'] at h
      obtain ⟨m2, hl, rfl⟩ := h
      have hs : ∀ v ∈ vec_set st.1 (g.index_of p) 16, v < 32 :=
        vec_set_bound _ _ _ 32 hm (by decide)
      have hlen := vec_set_length st.1 (g.index_of p) 16
      split at hl
      · have := or_at_pair_bound _ _ _ _ _ _ hs (by decide) (by decide) hl
        exact ⟨this.1, this.2.trans hlen⟩
      · split at hl
        · have := or_at_pair_bound _ _ _ _ _ _ hs (by decide) (by decide) hl
          exact ⟨this.1, this.2.trans hlen⟩
        · split at hl
          · have := or_at_pair_bound _ _ _ _ _ _ hs (by decide) (by decide) hl
            exact ⟨this.1, this.2.trans hlen⟩
          · split at hl
            · have := or_at_pair_bound _ _ _ _ _ _ hs (by decide) (by decide) hl
              exact ⟨this.1, this.2.trans hlen⟩
            · simp only [Option.some.injEq] at hl
              subst hl
              exact ⟨hs, hlen⟩
  · simp only [Option.some.injEq] at h
    subst h
    exact ⟨hm, rfl⟩

theorem intersect_loop_bound (g : grid_t) (path : List point_t) :
    ∀ (st : List Nat × Int) (m : List Nat), (∀ v ∈ st.1, v < 32) →
      intersect_loop g path st = some m → (∀ v ∈ m, v < 32) ∧ m.length = st.1.length := by
  induction path with
  | nil =>
    intro st m hm h
    simp only [intersect_loop, Option.some.injEq] at h
    subst h
    exact ⟨hm, rfl⟩
  | cons p rest ih =>
    intro st m hm h
    unfold intersect_loop at h
    split at h
    · rename_i st1 hst
      have a1 := intersect_point_bound g st st1 p hm hst
      have a2 := ih st1 m a1.1 h
      exact ⟨a2.1, a2.2.trans a1.2⟩
    · simp at h

theorem compute_intersections_bound (g : grid_t) (path : List point_t) (m : List Nat)
    (h : compute_intersections g path = some m) :
    (∀ v ∈ m, v < 32) ∧ m.length = (g.width * g.height).toNat := by
  unfold compute_intersections at h
  have := intersect_loop_bound g path _ m (by
    intro v hv
    simp only [List.mem_replicate] at hv
    omega) h
  simpa using this

theorem print_cell_some (g : grid_t) (m : List Nat) (x y : Int) (c : cell_t) (v : Nat)
    (hc : vec_get g.cells (g.index_of ⟨x, y⟩) = some c)
    (hv : vec_get m (g.index_of ⟨x, y⟩) = some v) (hlt : v < 32) :
    ∃ ch, print_cell g m x y = some ch := by
  unfold print_cell
  simp only [hc, hv]
  cases c with
  | wall => exact ⟨_, rfl⟩
  | empty =>
    simp only
    split
    · exact ⟨_, rfl⟩
    · split
      · exact ⟨_, rfl⟩
      · have : v < intersection_graphics.length := by
          have : intersection_graphics.length = 32 := by decide
          omega
        exact ⟨intersection_graphics[v], List.getElem?_eq_getElem this⟩

theorem print_row_spec (g : grid_t) (m : List Nat) (y : Int) :
    ∀ (k : Nat) (x0 : Int) (row : List Char), print_row g m y k x0 = some row →
      row.length = k + 1 ∧ ∀ j : Nat, j < k → row[j]? = print_cell g m (x0 + j) y := by
  intro k
  induction k with
  | zero =>
    intro x0 row h
    simp only [print_row, Option.some.injEq] at h
    subst h
    exact ⟨rfl, fun j hj => absurd hj (by omega)⟩
  | succ k ih =>
    intro x0 row h
    unfold print_row at h
    split at h
    · rename_i c rest hc hrest
      simp only [Option.some.injEq] at h
      subst h
      obtain ⟨hl, hg⟩ := ih (x0 + 1) rest hrest
      refine ⟨by simp [hl], ?_⟩
      intro j hj
      cases j with
      | zero => simp [hc]
      | succ j =>
        simp only [List.getElem?_cons_succ]
        rw [hg j (by omega)]
        congr 1
        push_cast
        ring
    · simp at h

theorem print_row_some (g : grid_t) (m : List Nat) (y : Int) :
    ∀ (k : Nat) (x0 : Int), (∀ j : Nat, j < k → ∃ ch, print_cell g m (x0 + j) y = some ch) →
      ∃ row, print_row g m y k x0 = some row := by
  intro k
  induction k with
  | zero => intro x0 _; exact ⟨_, rfl⟩
  | succ k ih =>
    intro x0 h
    obtain ⟨c, hc⟩ := h 0 (by omega)
    obtain ⟨rest, hrest⟩ := ih (x0 + 1) (by
      intro j hj
      obtain ⟨ch, hch⟩ := h (j + 1) (by omega)
      refine ⟨ch, ?_⟩
      rw [← hch]
      congr 1
      push_cast
      ring)
    simp only [Nat.cast_zero, add_zero] at hc
    exact ⟨c :: rest, by unfold print_row; simp only [hc, hrest]⟩

theorem print_rows_spec (g : grid_t) (m : List Nat) :
    ∀ (k : Nat) (y0 : Int) (out : List Char), print_rows g m k y0 = some out →
      ∀ i j : Nat, j < k → i < g.width.toNat →
        out[j * (g.width.toNat + 1) + i]? = print_cell g m i (y0 + j) := by
  intro k
  induction k with
  | zero => intro y0 out _ i j hj; omega
  | succ k ih =>
    intro y0 out h i j hj hi
    unfold print_rows at h
    split at h
    · rename_i row rest hrow hrest
      simp only [Option.some.injEq] at h
      subst h
      obtain ⟨hl, hg⟩ := print_row_spec g m y0 _ 0 row hrow
      cases j with
      | zero =>
        simp only [Nat.zero_mul, Nat.zero_add, Nat.cast_zero, add_zero]
        rw [List.getElem?_append_left (by omega), hg i hi]
        simp
      | succ j =>
        have hidx : (j + 1) * (g.width.toNat + 1) + i =
            row.length + (j * (g.width.toNat + 1) + i) := by
          rw [hl]; ring
        rw [hidx, List.getElem?_append_right (by omega)]
        simp only [Nat.add_sub_cancel_left]
        rw [ih (y0 + 1) rest hrest i j (by omega) hi]
        congr 1
        push_cast
        ring
    · simp at h

theorem print_rows_some (g : grid_t) (m : List Nat) :
    ∀ (k : Nat) (y0 : Int),
      (∀ i j : Nat, j < k → i < g.width.toNat → ∃ ch, print_cell g m i (y0 + j) = some ch) →
      ∃ out, print_rows g m k y0 = some out := by
  intro k
  induction k with
  | zero => intro y0 _; exact ⟨_, rfl⟩
  | succ k ih =>
    intro y0 h
    obtain ⟨row, hrow⟩ := print_row_some g m y0 g.width.toNat 0 (by
      intro j hj
      obtain ⟨ch, hch⟩ := h j 0 (by omega) hj
      refine ⟨ch, ?_⟩
      rw [← hch]
      simp)
    obtain ⟨rest, hrest⟩ := ih (y0 + 1) (by
      intro i j hj hi
      obtain ⟨ch, hch⟩ := h i (j + 1) (by omega) hi
      refine ⟨ch, ?_⟩
      rw [← hch]
      congr 1
      push_cast
      ring)
    exact ⟨row ++ rest, by unfold print_rows; simp only [hrow, hrest]⟩

theorem print_path_spec (g : grid_t) (path : List point_t) (m : List Nat)
    (hlen : (g.cells.length : Int) = g.width * g.height)
    (hm : compute_intersections g path = some m) :
    ∃ out, print_path g path = some out ∧
      ∀ i j : Nat, j < g.height.toNat → i < g.width.toNat →
        out[j * (g.width.toNat + 1) + i]? = print_cell g m i j := by
  obtain ⟨hb, hml⟩ := compute_intersections_bound g path m hm
  obtain ⟨out, hout⟩ := print_rows_some g m g.height.toNat 0 (by
    intro i j hj hi
    have hp : in_bounds g ⟨(i : Int), 0 + (j : Int)⟩ := by
      unfold in_bounds
      simp only
      omega
    have h0 := index_of_nonneg g _ hp
    have h1 := index_of_lt g _ hp
    obtain ⟨c, hc⟩ := (vec_get_some_iff g.cells (g.index_of ⟨(i : Int), 0 + (j : Int)⟩)).mpr
      ⟨h0, by omega⟩
    obtain ⟨v, hv⟩ := (vec_get_some_iff m (g.index_of ⟨(i : Int), 0 + (j : Int)⟩)).mpr
      ⟨h0, by omega⟩
    exact print_cell_some g m _ _ c v hc hv (hb v (vec_get_mem _ _ _ hv)))
  refine ⟨out, by unfold print_path; simp only [hm, hout], ?_⟩
  intro i j hj hi
  rw [print_rows_spec g m _ 0 out hout i j hj hi]
  simp

/-- C10: for a grid of width at least 3 and a horizontal run
`(x, y), (x+1, y), (x+2, y)` inside the grid, `compute_intersections` gives the
middle cell the mask 22 (visited 16, left 2, right 4; no up or down bit), and
when `cells` has `width * height` entries and the middle cell is Empty and
neither start nor target, `print_path` writes `-` at its position. -/
theorem horizontal_run_middle (g : grid_t) (x y : Int) (hw : 3 ≤ g.width) (hx0 : 0 ≤ x)
    (hx2 : x + 2 < g.width) (hy0 : 0 ≤ y) (hy : y < g.height) :
    ∃ m, compute_intersections g [⟨x, y⟩, ⟨x + 1, y⟩, ⟨x + 2, y⟩] = some m ∧
      vec_get m (g.index_of ⟨x + 1, y⟩) = some 22 ∧
      ((g.cells.length : Int) = g.width * g.height →
        vec_get g.cells (g.index_of ⟨x + 1, y⟩) = some cell_t.empty →
        g.start ≠ ⟨x + 1, y⟩ → g.target ≠ ⟨x + 1, y⟩ →
        ∃ out, print_path g [⟨x, y⟩, ⟨x + 1, y⟩, ⟨x + 2, y⟩] = some out ∧
          out[y.toNat * (g.width.toNat + 1) + (x + 1).toNat]? = some '-') := by
  have hp0 : in_bounds g ⟨x, y⟩ := ⟨hx0, by simp only; omega, hy0, hy⟩
  have hp1 : in_bounds g ⟨x + 1, y⟩ := ⟨by simp only; omega, by simp only; omega, hy0, hy⟩
  have hp2 : in_bounds g ⟨x + 2, y⟩ := ⟨by simp only; omega, hx2, hy0, hy⟩
  have hn0 := index_of_nonneg g _ hp0
  have hl2 := index_of_lt g _ hp2
  have e1 : g.index_of ⟨x + 1, y⟩ = g.index_of ⟨x, y⟩ + 1 := by
    unfold grid_t.index_of; simp only; ring
  have e2 : g.index_of ⟨x + 2, y⟩ = g.index_of ⟨x, y⟩ + 1 + 1 := by
    unfold grid_t.index_of; simp only; ring
  generalize hi0 : g.index_of ⟨x, y⟩ = i0 at hn0 e1 e2
  have hN : ((List.replicate (g.width * g.height).toNat (0 : Nat)).length : Int)
      = g.width * g.height := by
    simp only [List.length_replicate]; omega
  -- first point
  have s1 := intersect_point_first g (List.replicate (g.width * g.height).toNat 0) ⟨x, y⟩
    (by omega) hp0 (by rw [hN, hi0]; omega)
  rw [hi0] at s1
  generalize hm1 : vec_set (List.replicate (g.width * g.height).toNat 0) i0 16 = m1 at s1
  have hm1len : (m1.length : Int) = g.width * g.height := by
    rw [← hm1, vec_set_length]; exact hN
  have hv1 : vec_get m1 i0 = some 16 := by
    rw [← hm1]; exact vec_get_set_same _ _ _ hn0 (by rw [hN]; omega)
  -- second point
  have s2 := intersect_point_right g m1 i0 16 ⟨x + 1, y⟩ (by omega) hp1 e1
    (by simp only; omega) (by rw [e1, hm1len]; omega) hv1
  generalize hm2 : vec_set (vec_set (vec_set m1 (i0 + 1) 16) (i0 + 1) 18) i0 (16 ||| 4) = m2 at s2
  have hm2len : (m2.length : Int) = g.width * g.height := by
    rw [← hm2, vec_set_length, vec_set_length, vec_set_length]; exact hm1len
  have hv2 : vec_get m2 (i0 + 1) = some 18 := by
    rw [← hm2, vec_get_set_ne _ _ _ _ (by omega)]
    exact vec_get_set_same _ _ _ (by omega) (by rw [vec_set_length, hm1len]; omega)
  -- third point
  have s3 := intersect_point_right g m2 (i0 + 1) 18 ⟨x + 2, y⟩ (by omega) hp2 e2
    (by simp only; omega) (by rw [e2, hm2len]; omega) hv2
  generalize hm3 : vec_set (vec_set (vec_set m2 (i0 + 1 + 1) 16) (i0 + 1 + 1) 18) (i0 + 1)
    (18 ||| 4) = m3 at s3
  have hv3 : vec_get m3 (i0 + 1) = some 22 := by
    rw [← hm3]
    exact vec_get_set_same _ _ _ (by omega)
      (by rw [vec_set_length, vec_set_length, hm2len]; omega)
  have hc : compute_intersections g [⟨x, y⟩, ⟨x + 1, y⟩, ⟨x + 2, y⟩] = some m3 := by
    unfold compute_intersections
    simp only [intersect_loop, s1, s2, s3]
  refine ⟨m3, hc, by rw [e1]; exact hv3, ?_⟩
  intro hlen hcell hs ht
  obtain ⟨out, hout, hget⟩ := print_path_spec g _ m3 hlen hc
  refine ⟨out, hout, ?_⟩
  rw [hget (x + 1).toNat y.toNat (by omega) (by omega)]
  have cx : (((x + 1).toNat : Nat) : Int) = x + 1 := Int.toNat_of_nonneg (by omega)
  have cy : ((y.toNat : Nat) : Int) = y := Int.toNat_of_nonneg hy0
  rw [cx, cy]
  rw [e1] at hcell
  unfold print_cell
  simp only [hcell, e1, hv3]
  have ns : ¬ (g.start.x = x + 1 ∧ g.start.y = y) := by
    rintro ⟨a, b⟩; apply hs; cases hgs : g.start; rw [hgs] at a b; simp_all
  have nt : ¬ (g.target.x = x + 1 ∧ g.target.y = y) := by
    rintro ⟨a, b⟩; apply ht; cases hgt : g.target; rw [hgt] at a b; simp_all
  rw [if_neg ns, if_neg nt]
  rfl

/-- C10 witness: the run `(1, 0), (2, 0), (3, 0)` on the one-row grid read from
`"s   t"`. -/
theorem horizontal_run_middle_witness :
    (3 : Int) ≤ (grid_t.mk 5 1 (List.replicate 5 cell_t.empty) ⟨0, 0⟩ ⟨4, 0⟩).width ∧
    (0 : Int) ≤ 1 ∧
    (1 : Int) + 2 < (grid_t.mk 5 1 (List.replicate 5 cell_t.empty) ⟨0, 0⟩ ⟨4, 0⟩).width ∧
    (0 : Int) ≤ 0 ∧
    (0 : Int) < (grid_t.mk 5 1 (List.replicate 5 cell_t.empty) ⟨0, 0⟩ ⟨4, 0⟩).height ∧
    ∃ m, compute_intersections (grid_t.mk 5 1 (List.replicate 5 cell_t.empty) ⟨0, 0⟩ ⟨4, 0⟩)
        [⟨1, 0⟩, ⟨1 + 1, 0⟩, ⟨1 + 2, 0⟩] = some m ∧
      vec_get m 2 = some 22 ∧
      ∃ out, print_path (grid_t.mk 5 1 (List.replicate 5 cell_t.empty) ⟨0, 0⟩ ⟨4, 0⟩)
          [⟨1, 0⟩, ⟨1 + 1, 0⟩, ⟨1 + 2, 0⟩] = some out ∧
        out[2]? = some '-' := by
  obtain ⟨m, h1, h2, h3⟩ := horizontal_run_middle
    (grid_t.mk 5 1 (List.replicate 5 cell_t.empty) ⟨0, 0⟩ ⟨4, 0⟩) 1 0
    (by decide) (by decide) (by decide) (by decide) (by decide)
  exact ⟨by decide, by decide, by decide, by decide, by decide, m, h1, h2,
    h3 (by decide) (by decide) (by decide) (by decide)⟩

/-! ## Directed search: the queue and the flags -/

theorem pq_push_length (l : List (Int × Int)) (e : Int × Int) :
    (pq_push l e).length = l.length + 1 := by
  induction l with
  | nil => rfl
  | cons a rest ih =>
    unfold pq_push
    split
    · simp
    · simp [ih]

theorem mem_pq_push (l : List (Int × Int)) (e x : Int × Int) :
    x ∈ pq_push l e ↔ x = e ∨ x ∈ l := by
  induction l with
  | nil => simp [pq_push]
  | cons a rest ih =>
    unfold pq_push
    split
    · simp
    · simp only [List.mem_cons, ih]
      tauto

theorem is_visited_range (visited : List Bool) (i : Int) (h : is_visited visited i) :
    0 ≤ i ∧ i < visited.length :=
  vec_get_range _ _ _ h

theorem is_visited_set (visited : List Bool) (i j : Int) (h : is_visited visited i) :
    is_visited (vec_set visited j true) i := by
  unfold is_visited at *
  by_cases hij : i = j
  · subst hij
    have hr := vec_get_range _ _ _ h
    exact vec_get_set_same _ _ _ hr.1 hr.2
  · rw [vec_get_set_ne _ _ _ _ hij]; exact h

theorem is_visited_set_iff (visited : List Bool) (i j : Int) (b : Bool)
    (hj : vec_get visited j = some b) :
    is_visited (vec_set visited j true) i ↔ i = j ∨ is_visited visited i := by
  constructor
  · intro h
    by_cases hij : i = j
    · exact Or.inl hij
    · right
      unfold is_visited at *
      rw [vec_get_set_ne _ _ _ _ hij] at h; exact h
  · rintro (h | h)
    · subst h
      have hr := vec_get_range _ _ _ hj
      exact vec_get_set_same _ _ _ hr.1 hr.2
    · exact is_visited_set _ _ _ h

theorem count_false_set_le (visited : List Bool) (n : Nat) :
    (visited.set n true).count false ≤ visited.count false := by
  induction visited generalizing n with
  | nil => simp
  | cons a rest ih =>
    cases n with
    | zero => cases a <;> simp [List.count_cons]
    | succ n =>
      simp only [List.set_cons_succ, List.count_cons]
      have := ih n
      omega

theorem count_false_set_lt (visited : List Bool) (n : Nat) (h : visited[n]? = some false) :
    (visited.set n true).count false + 1 = visited.count false := by
  induction visited generalizing n with
  | nil => simp at h
  | cons a rest ih =>
    cases n with
    | zero =>
      simp only [List.getElem?_cons_zero, Option.some.injEq] at h
      subst h
      simp [List.count_cons]
    | succ n =>
      simp only [List.getElem?_cons_succ] at h
      simp only [List.set_cons_succ, List.count_cons]
      have := ih n h
      omega

theorem vec_count_set_le (visited : List Bool) (i : Int) :
    (vec_set visited i true).count false ≤ visited.count false := by
  unfold vec_set
  split
  · exact count_false_set_le _ _
  · exact le_refl _

theorem vec_count_set_lt (visited : List Bool) (i : Int) (h : vec_get visited i = some false) :
    (vec_set visited i true).count false + 1 = visited.count false := by
  unfold vec_get at h
  unfold vec_set
  split
  · rename_i h0
    rw [if_pos h0] at h
    exact count_false_set_lt _ _ h
  · rename_i h0
    rw [if_neg h0] at h
    simp at h

/-! ## Directed search: chains of `previous` -/

theorem chain_nodes_visited (g : grid_t) (previous : List point_t) (visited : List Bool)
    (path : List point_t) :
    ∀ i, chain g previous visited i path → ∀ p ∈ path, is_visited visited (g.index_of p) := by
  induction path with
  | nil => intro i _ p hp; simp at hp
  | cons q rest ih =>
    intro i h p hp
    obtain ⟨_, _, _, hv, _, _, hc⟩ := h
    rcases List.mem_cons.mp hp with rfl | hp
    · exact hv
    · exact ih _ hc p hp

theorem chain_frame (g : grid_t) (previous : List point_t) (visited : List Bool)
    (j : Int) (c : point_t) (hj : vec_get visited j = some false) (path : List point_t) :
    ∀ i, chain g previous visited i path → is_visited visited i →
      chain g (vec_set previous j c) (vec_set visited j true) i path := by
  induction path with
  | nil => intro i h _; exact h
  | cons q rest ih =>
    intro i h hi
    obtain ⟨h1, h2, h3, h4, h5, h6, h7⟩ := h
    have hij : i ≠ j := by
      rintro rfl
      unfold is_visited at hi
      rw [hj] at hi
      simp at hi
    exact ⟨h1, by rw [vec_get_set_ne _ _ _ _ hij]; exact h2, h3, is_visited_set _ _ _ h4, h5, h6,
      ih _ h7 h4⟩

theorem chain_mark (g : grid_t) (previous : List point_t) (visited : List Bool)
    (j : Int) (path : List point_t) :
    ∀ i, chain g previous visited i path → chain g previous (vec_set visited j true) i path := by
  induction path with
  | nil => intro i h; exact h
  | cons q rest ih =>
    intro i h
    obtain ⟨h1, h2, h3, h4, h5, h6, h7⟩ := h
    exact ⟨h1, h2, h3, is_visited_set _ _ _ h4, h5, h6, ih _ h7⟩

theorem chain_link (g : grid_t) (previous : List point_t) (visited : List Bool)
    (path : List point_t) :
    ∀ i, chain g previous visited i path → link_path g i path := by
  induction path with
  | nil => intro i h; exact h
  | cons q rest ih =>
    intro i h
    obtain ⟨h1, _, h3, _, h5, h6, h7⟩ := h
    exact ⟨h1, h3, h5, h6, ih _ h7⟩

theorem link_path_nodup (g : grid_t) (path : List point_t) :
    ∀ i, link_path g i path → (i :: path.map g.index_of).Nodup := by
  induction path with
  | nil => intro i _; simp
  | cons q rest ih =>
    intro i h
    obtain ⟨_, _, _, h6, h7⟩ := h
    exact List.nodup_cons.mpr ⟨h6, ih _ h7⟩

theorem nodup_range_length (l : List Int) (n : Nat) (hn : l.Nodup)
    (hr : ∀ i ∈ l, 0 ≤ i ∧ i < n) : l.length ≤ n := by
  have h1 : (l.map Int.toNat).Nodup := by
    refine List.Nodup.map_on ?_ hn
    intro a ha b hb hab
    have := hr a ha
    have := hr b hb
    omega
  have h2 : l.map Int.toNat ⊆ List.range n := by
    intro x hx
    obtain ⟨a, ha, rfl⟩ := List.mem_map.mp hx
    have := hr a ha
    exact List.mem_range.mpr (by omega)
  have := (List.subperm_of_subset h1 h2).length_le
  simpa using this

theorem chain_length (g : grid_t) (previous : List point_t) (visited : List Bool)
    (path : List point_t) (i : Int) (h : chain g previous visited i path)
    (hi : is_visited visited i) : path.length + 1 ≤ visited.length := by
  have hn := link_path_nodup g path i (chain_link g previous visited path i h)
  have := nodup_range_length _ visited.length hn (by
    intro k hk
    rcases List.mem_cons.mp hk with rfl | hk
    · exact is_visited_range _ _ hi
    · obtain ⟨p, hp, rfl⟩ := List.mem_map.mp hk
      exact is_visited_range _ _ (chain_nodes_visited g previous visited path i h p hp))
  simpa using this

theorem reconstruct_chain (g : grid_t) (previous : List point_t) (visited : List Bool)
    (path : List point_t) :
    ∀ (fuel : Nat) (current : point_t) (acc : List point_t),
      chain g previous visited (g.index_of current) path → path.length < fuel →
      reconstruct g previous fuel current acc = result_t.ok (acc ++ path) := by
  induction path with
  | nil =>
    intro fuel current acc h hf
    cases fuel with
    | zero => simp at hf
    | succ fuel =>
      unfold reconstruct
      have h1 : g.index_of current = g.index_of g.target := h
      simp [h1]
  | cons q rest ih =>
    intro fuel current acc h hf
    cases fuel with
    | zero => simp at hf
    | succ fuel =>
      obtain ⟨h1, h2, _, _, _, _, h7⟩ := h
      unfold reconstruct
      rw [if_pos h1]
      simp only [h2]
      rw [ih fuel q (acc ++ [q]) h7 (by simpa using hf)]
      simp

/-! ## Directed search: one neighbour -/

theorem visit_neighbor_cases (g : grid_t) (current : point_t) (s s1 : search_t) (d : point_t)
    (h : visit_neighbor g current s d = result_t.ok s1) :
    (s1 = s ∧ (vec_get g.cells (g.index_of (step_to current d)) = some cell_t.wall ∨
        is_visited s.visited (g.index_of (step_to current d)))) ∨
    (vec_get g.cells (g.index_of (step_to current d)) = some cell_t.empty ∧
      vec_get s.visited (g.index_of (step_to current d)) = some false ∧
      s1 = ⟨vec_set s.previous (g.index_of (step_to current d)) current,
        vec_set s.visited (g.index_of (step_to current d)) true,
        pq_push s.next (calculate_heuristic (step_to current d) g.start,
          g.index_of (step_to current d))⟩) := by
  unfold visit_neighbor at h
  simp only at h
  change (match vec_get g.cells (g.index_of (step_to current d)),
      vec_get s.visited (g.index_of (step_to current d)) with
    | some c, some v =>
      if c = cell_t.wall ∨ v = true then result_t.ok s
      else result_t.ok
        ⟨vec_set s.previous (g.index_of (step_to current d)) current,
          vec_set s.visited (g.index_of (step_to current d)) true,
          pq_push s.next (calculate_heuristic (step_to current d) g.start,
            g.index_of (step_to current d))⟩
    | _, _ => result_t.fault (g.index_of (step_to current d))) = result_t.ok s1 at h
  split at h
  · rename_i c v hc hv
    split at h
    · rename_i hcv
      left
      simp only [result_t.ok.injEq] at h
      refine ⟨h.symm, ?_⟩
      rcases hcv with rfl | rfl
      · exact Or.inl hc
      · exact Or.inr hv
    · rename_i hcv
      right
      simp only [result_t.ok.injEq] at h
      push_neg at hcv
      refine ⟨?_, ?_, h.symm⟩
      · cases c with
        | empty => exact hc
        | wall => exact absurd rfl hcv.1
      · cases v with
        | false => exact hv
        | true => exact absurd rfl hcv.2
  · simp at h

theorem visit_neighbor_inv (g : grid_t) (current : point_t) (s s1 : search_t) (d : point_t)
    (hd : d ∈ directions) (hs : expand_inv g current s)
    (h : visit_neighbor g current s d = result_t.ok s1) :
    expand_inv g current s1 ∧ search_measure s1 ≤ search_measure s ∧
    (∀ i, is_visited s.visited i → is_visited s1.visited i) ∧
    (vec_get g.cells (g.index_of (step_to current d)) = some cell_t.wall ∨
      is_visited s1.visited (g.index_of (step_to current d))) := by
  rcases visit_neighbor_cases g current s s1 d h with ⟨rfl, hw⟩ | ⟨hc, hv, rfl⟩
  · exact ⟨hs, le_refl _, fun _ hi => hi, hw⟩
  · generalize hni : g.index_of (step_to current d) = ni at hc hv
    have hr := vec_get_range _ _ _ hv
    have hvis : is_visited (vec_set s.visited ni true) ni :=
      vec_get_set_same _ _ _ hr.1 hr.2
    have hne : ∀ i, is_visited s.visited i → i ≠ ni := by
      rintro i hi rfl
      unfold is_visited at hi
      rw [hv] at hi
      simp at hi
    refine ⟨⟨⟨?_, ?_, ?_, ?_, ?_⟩, ?_, hs.cur_open, is_visited_set _ _ _ hs.cur_visited⟩,
      ?_, fun i hi => is_visited_set _ _ _ hi, Or.inr hvis⟩
    · simp only [vec_set_length]; exact hs.inv.len_visited
    · simp only [vec_set_length]; exact hs.inv.len_previous
    · exact is_visited_set _ _ _ hs.inv.target_visited
    · intro e he
      rcases (mem_pq_push _ _ _).mp he with rfl | he
      · exact hvis
      · exact is_visited_set _ _ _ (hs.inv.queue_visited e he)
    · intro i hi
      rcases (is_visited_set_iff _ _ _ _ hv).mp hi with rfl | hi
      · refine ⟨hc, ?_⟩
        obtain ⟨_, pc, hpc⟩ := hs.inv.chains _ hs.cur_visited
        refine ⟨current :: pc, ?_, ?_, hs.cur_open, is_visited_set _ _ _ hs.cur_visited,
          ⟨d, hd, hni⟩, ?_, chain_frame g _ _ _ _ hv pc _ hpc hs.cur_visited⟩
        · exact (hne _ hs.inv.target_visited).symm
        · exact vec_get_set_same _ _ _ hr.1 (by
            rw [hs.inv.len_previous, ← hs.inv.len_visited]; exact hr.2)
        · intro hmem
          rcases List.mem_map.mp hmem with ⟨p, hp, hpe⟩
          rcases List.mem_cons.mp hp with rfl | hp
          · exact hne _ hs.cur_visited hpe
          · exact hne _ (chain_nodes_visited g _ _ pc _ hpc p hp) hpe
      · obtain ⟨hce, pc, hpc⟩ := hs.inv.chains i hi
        exact ⟨hce, pc, chain_frame g _ _ _ _ hv pc _ hpc hi⟩
    · intro i hi
      rcases (is_visited_set_iff _ _ _ _ hv).mp hi with rfl | hi
      · exact Or.inl ⟨_, (mem_pq_push _ _ _).mpr (Or.inl rfl), rfl⟩
      · rcases hs.front i hi with ⟨e, he, hei⟩ | hp | ⟨h1, h2⟩
        · exact Or.inl ⟨e, (mem_pq_push _ _ _).mpr (Or.inr he), hei⟩
        · exact Or.inr (Or.inl hp)
        · refine Or.inr (Or.inr ⟨h1, ?_⟩)
          intro d1 hd1
          rcases h2 d1 hd1 with hw | hw
          · exact Or.inl hw
          · exact Or.inr (is_visited_set _ _ _ hw)
    · unfold search_measure
      simp only [pq_push_length]
      have := vec_count_set_lt _ _ hv
      omega

theorem expand_spec (g : grid_t) (current : point_t) (ds : List point_t) :
    ∀ (s s1 : search_t), (∀ d ∈ ds, d ∈ directions) → expand_inv g current s →
      expand g current ds s = result_t.ok s1 →
      expand_inv g current s1 ∧ search_measure s1 ≤ search_measure s ∧
      (∀ i, is_visited s.visited i → is_visited s1.visited i) ∧
      (∀ d ∈ ds, vec_get g.cells (g.index_of (step_to current d)) = some cell_t.wall ∨
        is_visited s1.visited (g.index_of (step_to current d))) := by
  induction ds with
  | nil =>
    intro s s1 _ hs h
    simp only [expand, result_t.ok.injEq] at h
    subst h
    exact ⟨hs, le_refl _, fun _ hi => hi, fun d hd => absurd hd (by simp)⟩
  | cons d rest ih =>
    intro s s1 hds hs h
    unfold expand at h
    split at h
    · rename_i s2 h2
      obtain ⟨a1, a2, a3, a4⟩ := visit_neighbor_inv g current s s2 d (hds d (by simp)) hs h2
      obtain ⟨b1, b2, b3, b4⟩ := ih s2 s1 (fun x hx => hds x (by simp [hx])) a1 h
      refine ⟨b1, le_trans b2 a2, fun i hi => b3 i (a3 i hi), ?_⟩
      intro x hx
      rcases List.mem_cons.mp hx with rfl | hx
      · rcases a4 with hw | hw
        · exact Or.inl hw
        · exact Or.inr (b3 _ hw)
      · exact b4 x hx
    · simp at h
    · simp at h

/-! ## Directed search: a turn of the outer loop -/

theorem search_loop_cons (g : grid_t) (fuel : Nat) (s : search_t) (top : Int × Int)
    (rest : List (Int × Int)) (b : Bool) (hn : s.next = top :: rest)
    (hb : vec_get s.visited (g.index_of (get_point_from_index top.2 g.width)) = some b) :
    search_loop g (fuel + 1) s =
      finish_turn g (search_loop g fuel) (get_point_from_index top.2 g.width)
        ⟨s.previous,
          vec_set s.visited (g.index_of (get_point_from_index top.2 g.width)) true, rest⟩ := by
  unfold search_loop finish_turn
  simp only [hn, hb]

theorem valid_width_pos (g : grid_t) (hv : g.valid) : 0 < g.width := by
  obtain ⟨_, ⟨⟨h1, h2, _, _⟩, _⟩, _⟩ := hv
  omega

theorem open_cell_of_index (g : grid_t) (hv : g.valid) (i : Int)
    (hc : vec_get g.cells i = some cell_t.empty) :
    open_cell g (get_point_from_index i g.width) := by
  have hr := vec_get_range _ _ _ hc
  refine ⟨get_point_in_bounds g i (valid_width_pos g hv) hr.1 (by rw [← hv.1]; exact hr.2), ?_⟩
  rw [index_of_get_point]; exact hc

theorem pop_inv (g : grid_t) (hv : g.valid) (s : search_t) (top : Int × Int)
    (rest : List (Int × Int)) (hn : s.next = top :: rest) (hi : search_inv g s)
    (hf : frontier_inv g s none) :
    expand_inv g (get_point_from_index top.2 g.width)
      ⟨s.previous, vec_set s.visited (g.index_of (get_point_from_index top.2 g.width)) true,
        rest⟩ ∧
    search_measure ⟨s.previous,
      vec_set s.visited (g.index_of (get_point_from_index top.2 g.width)) true, rest⟩ <
      search_measure s ∧
    vec_get s.visited (g.index_of (get_point_from_index top.2 g.width)) = some true := by
  rw [index_of_get_point]
  have htop : is_visited s.visited top.2 := hi.queue_visited top (by rw [hn]; simp)
  have hvis : ∀ i, is_visited (vec_set s.visited top.2 true) i ↔ is_visited s.visited i := by
    intro i
    rw [is_visited_set_iff _ _ _ _ htop]
    constructor
    · rintro (rfl | h)
      · exact htop
      · exact h
    · exact Or.inr
  refine ⟨⟨⟨?_, hi.len_previous, ?_, ?_, ?_⟩, ?_, ?_, ?_⟩, ?_, htop⟩
  · simp only [vec_set_length]; exact hi.len_visited
  · exact is_visited_set _ _ _ hi.target_visited
  · intro e he
    exact is_visited_set _ _ _ (hi.queue_visited e (by rw [hn]; simp [he]))
  · intro i h
    obtain ⟨hc, pc, hpc⟩ := hi.chains i ((hvis i).mp h)
    exact ⟨hc, pc, chain_mark g _ _ _ pc i hpc⟩
  · intro i h
    rw [index_of_get_point]
    rcases hf i ((hvis i).mp h) with ⟨e, he, hei⟩ | hp | ⟨h1, h2⟩
    · rw [hn] at he
      rcases List.mem_cons.mp he with rfl | he
      · exact Or.inr (Or.inl (by rw [hei]))
      · exact Or.inl ⟨e, he, hei⟩
    · simp at hp
    · refine Or.inr (Or.inr ⟨h1, ?_⟩)
      intro d hd
      rcases h2 d hd with hw | hw
      · exact Or.inl hw
      · exact Or.inr (is_visited_set _ _ _ hw)
  · exact open_cell_of_index g hv top.2 (hi.chains top.2 htop).1
  · rw [index_of_get_point]; exact is_visited_set _ _ _ htop
  · unfold search_measure
    have := vec_count_set_le s.visited top.2
    simp only [hn, List.length_cons]
    omega

theorem expand_done (g : grid_t) (current : point_t) (s : search_t)
    (he : expand_inv g current s)
    (hc : ∀ d ∈ directions,
      vec_get g.cells (g.index_of (step_to current d)) = some cell_t.wall ∨
        is_visited s.visited (g.index_of (step_to current d)))
    (hne : g.index_of current ≠ g.index_of g.start) :
    search_inv g s ∧ frontier_inv g s none := by
  refine ⟨he.inv, ?_⟩
  intro i hi
  rcases he.front i hi with h | h | h
  · exact Or.inl h
  · simp only [Option.some.injEq] at h
    subst h
    refine Or.inr (Or.inr ⟨hne, ?_⟩)
    intro d hd
    rw [get_point_index_of g current he.cur_open.1]
    exact hc d hd
  · exact Or.inr (Or.inr h)

theorem init_inv (g : grid_t) (hv : g.valid) :
    expand_inv g g.target
      ⟨List.replicate g.cells.length ⟨0, 0⟩,
        vec_set (List.replicate g.cells.length false) (g.index_of g.target) true, []⟩ ∧
    search_measure
      ⟨List.replicate g.cells.length ⟨0, 0⟩,
        vec_set (List.replicate g.cells.length false) (g.index_of g.target) true, []⟩ + 1 =
      g.cells.length := by
  obtain ⟨hlen, hs, ht⟩ := hv
  have hr := vec_get_range _ _ _ ht.2
  have h0 : vec_get (List.replicate g.cells.length false) (g.index_of g.target) = some false :=
    vec_get_replicate _ _ _ hr.1 hr.2
  have hvis : ∀ i, is_visited
      (vec_set (List.replicate g.cells.length false) (g.index_of g.target) true) i →
      i = g.index_of g.target := by
    intro i hi
    rcases (is_visited_set_iff _ _ _ _ h0).mp hi with h | h
    · exact h
    · have := vec_get_replicate_eq _ _ _ _ h
      simp at this
  have ht1 : is_visited
      (vec_set (List.replicate g.cells.length false) (g.index_of g.target) true)
      (g.index_of g.target) :=
    vec_get_set_same _ _ _ hr.1 (by simpa using hr.2)
  refine ⟨⟨⟨?_, ?_, ht1, ?_, ?_⟩, ?_, ht, ht1⟩, ?_⟩
  · simp [vec_set_length]
  · simp
  · intro e he; simp at he
  · intro i hi
    rw [hvis i hi]
    exact ⟨ht.2, [], rfl⟩
  · intro i hi
    exact Or.inr (Or.inl (by rw [hvis i hi]))
  · unfold search_measure
    have := vec_count_set_lt _ _ h0
    simp only [List.length_nil, add_zero]
    rw [this]
    simp

theorem finish_turn_sound (g : grid_t) (k : search_t → result_t (List point_t))
    (hk : ∀ s, search_inv g s → frontier_inv g s none → ∀ path, k s = result_t.ok path →
      path ≠ [] → link_path g (g.index_of g.start) path)
    (current : point_t) (s1 : search_t) (he : expand_inv g current s1) :
    ∀ path, finish_turn g k current s1 = result_t.ok path → path ≠ [] →
      link_path g (g.index_of g.start) path := by
  intro path h hne
  unfold finish_turn at h
  split at h
  · rename_i hcs
    obtain ⟨_, pc, hpc⟩ := he.inv.chains _ he.cur_visited
    have hl := chain_length g _ _ pc _ hpc he.cur_visited
    rw [reconstruct_chain g _ _ pc _ current [] hpc
      (by rw [he.inv.len_visited] at hl; omega)] at h
    simp only [List.nil_append, result_t.ok.injEq] at h
    subst h
    rw [← hcs]
    exact chain_link g _ _ pc _ hpc
  · rename_i hcs
    split at h
    · rename_i s2 h2
      obtain ⟨a1, _, _, a4⟩ := expand_spec g current directions s1 s2 (fun _ hd => hd) he h2
      obtain ⟨b1, b2⟩ := expand_done g current s2 a1 a4 hcs
      exact hk s2 b1 b2 path h hne
    · simp at h
    · simp at h

theorem search_loop_sound (g : grid_t) (hv : g.valid) :
    ∀ (fuel : Nat) (s : search_t), search_inv g s → frontier_inv g s none →
      ∀ path, search_loop g fuel s = result_t.ok path → path ≠ [] →
        link_path g (g.index_of g.start) path := by
  intro fuel
  induction fuel with
  | zero => intro s _ _ path h; simp [search_loop] at h
  | succ fuel ih =>
    intro s hi hf path h hne
    cases hn : s.next with
    | nil =>
      unfold search_loop at h
      simp only [hn, result_t.ok.injEq] at h
      exact absurd h.symm hne
    | cons top rest =>
      obtain ⟨a1, _, a3⟩ := pop_inv g hv s top rest hn hi hf
      rw [search_loop_cons g fuel s top rest true hn a3] at h
      exact finish_turn_sound g _ ih _ _ a1 path h hne

theorem priority_search_eq_finish_turn (g : grid_t) (hv : g.valid) :
    priority_search g =
      finish_turn g (search_loop g (g.cells.length + 1)) g.target
        ⟨List.replicate g.cells.length ⟨0, 0⟩,
          vec_set (List.replicate g.cells.length false) (g.index_of g.target) true, []⟩ := by
  have hr := vec_get_range _ _ _ hv.2.2.2
  have hp := get_point_index_of g g.target hv.2.2.1
  unfold priority_search priority_search_fuel
  rw [search_loop_cons g _ (search_init g)
    (calculate_heuristic g.target g.start, g.index_of g.target) [] false rfl]
  · simp only [hp]
    rfl
  · simp only [hp]
    exact vec_get_replicate _ _ _ hr.1 hr.2

theorem priority_search_sound (g : grid_t) (hv : g.valid) (path : List point_t)
    (h : priority_search g = result_t.ok path) (hne : path ≠ []) :
    link_path g (g.index_of g.start) path := by
  rw [priority_search_eq_finish_turn g hv] at h
  exact finish_turn_sound g _ (search_loop_sound g hv _) _ _ (init_inv g hv).1 path h hne

/-! ## Directed search: the fuel of the model is never exhausted -/

theorem visit_neighbor_fuel (g : grid_t) (current : point_t) (s : search_t) (d : point_t) :
    visit_neighbor g current s d ≠ result_t.out_of_fuel := by
  unfold visit_neighbor
  simp only
  split
  · split <;> simp
  · simp

theorem expand_fuel (g : grid_t) (current : point_t) (ds : List point_t) :
    ∀ s, expand g current ds s ≠ result_t.out_of_fuel := by
  induction ds with
  | nil => intro s; simp [expand]
  | cons d rest ih =>
    intro s
    unfold expand
    split
    · exact ih _
    · simp
    · rename_i h
      exact absurd h (visit_neighbor_fuel g current s d)

theorem finish_turn_fuel (g : grid_t) (k : search_t → result_t (List point_t)) (m : Nat)
    (hk : ∀ s, search_inv g s → frontier_inv g s none → search_measure s ≤ m →
      k s ≠ result_t.out_of_fuel)
    (current : point_t) (s1 : search_t) (he : expand_inv g current s1)
    (hm : search_measure s1 ≤ m) :
    finish_turn g k current s1 ≠ result_t.out_of_fuel := by
  unfold finish_turn
  split
  · obtain ⟨_, pc, hpc⟩ := he.inv.chains _ he.cur_visited
    have hl := chain_length g _ _ pc _ hpc he.cur_visited
    rw [reconstruct_chain g _ _ pc _ current [] hpc
      (by rw [he.inv.len_visited] at hl; omega)]
    simp
  · rename_i hcs
    split
    · rename_i s2 h2
      obtain ⟨a1, a2, _, a4⟩ := expand_spec g current directions s1 s2 (fun _ hd => hd) he h2
      obtain ⟨b1, b2⟩ := expand_done g current s2 a1 a4 hcs
      exact hk s2 b1 b2 (le_trans a2 hm)
    · simp
    · rename_i h
      exact absurd h (expand_fuel g current directions s1)

theorem search_loop_fuel (g : grid_t) (hv : g.valid) :
    ∀ (fuel : Nat) (s : search_t), search_inv g s → frontier_inv g s none →
      search_measure s < fuel → search_loop g fuel s ≠ result_t.out_of_fuel := by
  intro fuel
  induction fuel with
  | zero => intro s _ _ h; omega
  | succ fuel ih =>
    intro s hi hf hm
    cases hn : s.next with
    | nil =>
      unfold search_loop
      simp [hn]
    | cons top rest =>
      obtain ⟨a1, a2, a3⟩ := pop_inv g hv s top rest hn hi hf
      rw [search_loop_cons g fuel s top rest true hn a3]
      exact finish_turn_fuel g _ _ (fun s2 c1 c2 c3 => ih s2 c1 c2 (by omega)) _ _ a1 (le_refl _)

theorem priority_search_fuel_suffices (g : grid_t) (hv : g.valid) :
    priority_search g ≠ result_t.out_of_fuel := by
  obtain ⟨a1, a2⟩ := init_inv g hv
  rw [priority_search_eq_finish_turn g hv]
  exact finish_turn_fuel g _ _
    (fun s2 c1 c2 c3 => search_loop_fuel g hv _ s2 c1 c2 (by omega)) _ _ a1 (le_refl _)

/-! ## Directed search: shape of the returned path -/

theorem link_path_last (g : grid_t) (hv : g.valid) (path : List point_t) :
    ∀ i, link_path g i path → path ≠ [] →
      path.getLast? = some g.target ∧ g.target ∉ path.dropLast := by
  induction path with
  | nil => intro i _ h; exact absurd rfl h
  | cons p rest ih =>
    intro i h _
    obtain ⟨_, hp, _, _, hrest⟩ := h
    cases rest with
    | nil =>
      have hpt : p = g.target := index_of_inj g p g.target hp.1 hv.2.2.1 hrest
      simp [hpt]
    | cons q rest =>
      obtain ⟨a1, a2⟩ := ih _ hrest (by simp)
      have hpt : g.target ≠ p := by
        intro hpt
        exact hrest.1 (by rw [hpt])
      refine ⟨by rw [List.getLast?_cons_cons]; exact a1, ?_⟩
      rw [List.dropLast_cons₂]
      intro hmem
      rcases List.mem_cons.mp hmem with h1 | h1
      · exact hpt h1
      · exact a2 h1

/-- C6: on a valid grid, a non-empty path returned by `priority_search` does
not contain the start cell, its last element is the target, and the target
occurs nowhere before the last element. -/
theorem priority_search_path_ends (g : grid_t) (hv : g.valid) (path : List point_t)
    (h : priority_search g = result_t.ok path) (hne : path ≠ []) :
    g.start ∉ path ∧ path.getLast? = some g.target ∧ g.target ∉ path.dropLast := by
  have hl := priority_search_sound g hv path h hne
  refine ⟨?_, link_path_last g hv path _ hl hne⟩
  intro hmem
  cases path with
  | nil => exact hne rfl
  | cons p rest =>
    obtain ⟨_, _, _, hnot, _⟩ := hl
    exact hnot (List.mem_map.mpr ⟨g.start, hmem, rfl⟩)

/-- C6 witness: a valid grid without border walls on which the search returns
the one-element path `[(2, 1)]`. -/
theorem priority_search_path_ends_witness :
    (grid_t.mk 3 3 [cell_t.empty, cell_t.empty, cell_t.wall, cell_t.empty, cell_t.empty,
      cell_t.empty, cell_t.wall, cell_t.wall, cell_t.wall] ⟨1, 1⟩ ⟨2, 1⟩).valid ∧
    priority_search (grid_t.mk 3 3 [cell_t.empty, cell_t.empty, cell_t.wall, cell_t.empty,
      cell_t.empty, cell_t.empty, cell_t.wall, cell_t.wall, cell_t.wall] ⟨1, 1⟩ ⟨2, 1⟩) =
      result_t.ok [⟨2, 1⟩] ∧
    ([⟨2, 1⟩] : List point_t) ≠ [] ∧
    ((⟨1, 1⟩ : point_t) ∉ [(⟨2, 1⟩ : point_t)] ∧
      [(⟨2, 1⟩ : point_t)].getLast? = some ⟨2, 1⟩ ∧
      (⟨2, 1⟩ : point_t) ∉ [(⟨2, 1⟩ : point_t)].dropLast) :=
  ⟨by decide, by decide, by decide,
    priority_search_path_ends (grid_t.mk 3 3 [cell_t.empty, cell_t.empty, cell_t.wall,
      cell_t.empty, cell_t.empty, cell_t.empty, cell_t.wall, cell_t.wall, cell_t.wall]
      ⟨1, 1⟩ ⟨2, 1⟩) (by decide) [⟨2, 1⟩] (by decide) (by decide)⟩

/-! ## Directed search on grids with a wall border -/

theorem open_cell_interior (g : grid_t) (hb : border_walls g) (p : point_t)
    (hp : open_cell g p) :
    1 ≤ p.x ∧ p.x ≤ g.width - 2 ∧ 1 ≤ p.y ∧ p.y ≤ g.height - 2 := by
  obtain ⟨hin, hc⟩ := hp
  have hr := vec_get_range _ _ _ hc
  have hcast : (((g.index_of p).toNat : Nat) : Int) = g.index_of p := Int.toNat_of_nonneg hr.1
  have hpt := get_point_index_of g p hin
  have hw := hb (g.index_of p).toNat (by omega)
  rw [hcast, hpt] at hw
  have hcell : g.cells[(g.index_of p).toNat]? = some cell_t.empty := by
    unfold vec_get at hc
    rw [if_pos hr.1] at hc
    exact hc
  have hnot : ¬ (p.x = 0 ∨ p.x = g.width - 1 ∨ p.y = 0 ∨ p.y = g.height - 1) := by
    intro hcon
    have := hw hcon
    rw [hcell] at this
    simp at this
  obtain ⟨h1, h2, h3, h4⟩ := hin
  omega

theorem directions_cases (d : point_t) (hd : d ∈ directions) :
    (d.x = 1 ∧ d.y = 0) ∨ (d.x = 0 ∧ d.y = 1) ∨ (d.x = -1 ∧ d.y = 0) ∨ (d.x = 0 ∧ d.y = -1) := by
  unfold directions at hd
  simp only [List.mem_cons, List.mem_singleton, List.not_mem_nil, or_false] at hd
  rcases hd with rfl | rfl | rfl | rfl <;> simp

theorem step_in_bounds (g : grid_t) (hb : border_walls g) (p d : point_t)
    (hp : open_cell g p) (hd : d ∈ directions) : in_bounds g (step_to p d) := by
  have hi := open_cell_interior g hb p hp
  have hc := directions_cases d hd
  unfold in_bounds step_to
  simp only
  omega

theorem step_adjacent (p d : point_t) (hd : d ∈ directions) : adjacent (step_to p d) p := by
  have hc := directions_cases d hd
  unfold adjacent step_to
  simp only
  omega

theorem link_path_route (g : grid_t) (hb : border_walls g)
    (path : List point_t) :
    ∀ q, in_bounds g q → link_path g (g.index_of q) path →
      steps_adjacent (q :: path) ∧ ∀ p ∈ path, open_cell g p := by
  induction path with
  | nil => intro q _ _; exact ⟨trivial, fun p hp => absurd hp (by simp)⟩
  | cons p rest ih =>
    intro q hq h
    obtain ⟨_, hp, ⟨d, hd, hidx⟩, _, hrest⟩ := h
    obtain ⟨a1, a2⟩ := ih p hp.1 hrest
    have hstep : step_to p d = q :=
      index_of_inj g _ _ (step_in_bounds g hb p d hp hd) hq hidx
    refine ⟨⟨?_, a1⟩, ?_⟩
    · rw [← hstep]; exact step_adjacent p d hd
    · intro x hx
      rcases List.mem_cons.mp hx with rfl | hx
      · exact hp
      · exact a2 x hx

/-- C1: on a valid grid whose border cells are all Wall, a non-empty path
returned by `priority_search` makes `start, path[0], ..., path[n-1]` a route:
consecutive points are orthogonally adjacent, every point is an in-bounds
Empty cell, and the last point is the target. -/
theorem priority_search_route (g : grid_t) (hv : g.valid) (hb : border_walls g)
    (path : List point_t) (h : priority_search g = result_t.ok path) (hne : path ≠ []) :
    is_route g (g.start :: path) ∧ path.getLast? = some g.target := by
  have hl := priority_search_sound g hv path h hne
  obtain ⟨a1, a2⟩ := link_path_route g hb path g.start hv.2.1.1 hl
  refine ⟨⟨a1, ?_⟩, (link_path_last g hv path _ hl hne).1⟩
  intro p hp
  rcases List.mem_cons.mp hp with rfl | hp
  · exact hv.2.1
  · exact a2 p hp

/-- C1 witness: on the 5 by 5 bordered grid the search returns a path of four
cells, which together with the start is a route ending at the target. -/
theorem priority_search_route_witness :
    bordered_example.valid ∧ border_walls bordered_example ∧
    priority_search bordered_example = result_t.ok [⟨1, 2⟩, ⟨1, 3⟩, ⟨2, 3⟩, ⟨3, 3⟩] ∧
    ([⟨1, 2⟩, ⟨1, 3⟩, ⟨2, 3⟩, ⟨3, 3⟩] : List point_t) ≠ [] ∧
    (is_route bordered_example (bordered_example.start :: [⟨1, 2⟩, ⟨1, 3⟩, ⟨2, 3⟩, ⟨3, 3⟩]) ∧
      ([⟨1, 2⟩, ⟨1, 3⟩, ⟨2, 3⟩, ⟨3, 3⟩] : List point_t).getLast? =
        some bordered_example.target) :=
  ⟨by decide, by decide, by decide, by decide,
    priority_search_route bordered_example (by decide) (by decide)
      [⟨1, 2⟩, ⟨1, 3⟩, ⟨2, 3⟩, ⟨3, 3⟩] (by decide) (by decide)⟩

/-! ## Directed search: completeness on grids with a wall border -/

theorem visit_neighbor_no_fault (g : grid_t) (hv : g.valid) (hb : border_walls g)
    (current : point_t) (s : search_t) (d : point_t) (hd : d ∈ directions)
    (hs : expand_inv g current s) : ∃ s1, visit_neighbor g current s d = result_t.ok s1 := by
  have hin := step_in_bounds g hb current d hs.cur_open hd
  have h0 := index_of_nonneg g _ hin
  have h1 := index_of_lt g _ hin
  rw [← hv.1] at h1
  obtain ⟨c, hc⟩ := (vec_get_some_iff g.cells _).mpr ⟨h0, h1⟩
  obtain ⟨v, hvv⟩ := (vec_get_some_iff s.visited _).mpr
    ⟨h0, by rw [hs.inv.len_visited]; exact h1⟩
  unfold visit_neighbor
  change ∃ s1, (match vec_get g.cells (g.index_of (step_to current d)),
      vec_get s.visited (g.index_of (step_to current d)) with
    | some c, some v =>
      if c = cell_t.wall ∨ v = true then result_t.ok s
      else result_t.ok
        ⟨vec_set s.previous (g.index_of (step_to current d)) current,
          vec_set s.visited (g.index_of (step_to current d)) true,
          pq_push s.next (calculate_heuristic (step_to current d) g.start,
            g.index_of (step_to current d))⟩
    | _, _ => result_t.fault (g.index_of (step_to current d))) = result_t.ok s1
  simp only [hc, hvv]
  split
  · exact ⟨_, rfl⟩
  · exact ⟨_, rfl⟩

theorem expand_no_fault (g : grid_t) (hv : g.valid) (hb : border_walls g)
    (current : point_t) (ds : List point_t) :
    ∀ s, (∀ d ∈ ds, d ∈ directions) → expand_inv g current s →
      ∃ s1, expand g current ds s = result_t.ok s1 := by
  induction ds with
  | nil => intro s _ _; exact ⟨s, rfl⟩
  | cons d rest ih =>
    intro s hds hs
    obtain ⟨s2, h2⟩ := visit_neighbor_no_fault g hv hb current s d (hds d (by simp)) hs
    obtain ⟨a1, _, _, _⟩ := visit_neighbor_inv g current s s2 d (hds d (by simp)) hs h2
    obtain ⟨s1, h1⟩ := ih s2 (fun x hx => hds x (by simp [hx])) a1
    exact ⟨s1, by unfold expand; rw [h2]; exact h1⟩

theorem adjacent_step (p q : point_t) (h : adjacent q p) :
    ∃ d ∈ directions, step_to p d = q := by
  unfold adjacent at h
  have hc : (q.x - p.x = 1 ∧ q.y - p.y = 0) ∨ (q.x - p.x = 0 ∧ q.y - p.y = 1) ∨
      (q.x - p.x = -1 ∧ q.y - p.y = 0) ∨ (q.x - p.x = 0 ∧ q.y - p.y = -1) := by omega
  obtain ⟨qx, qy⟩ := q
  obtain ⟨px, py⟩ := p
  simp only at hc
  unfold directions step_to
  rcases hc with ⟨h1, h2⟩ | ⟨h1, h2⟩ | ⟨h1, h2⟩ | ⟨h1, h2⟩
  · exact ⟨⟨1, 0⟩, by simp, by simp only [point_t.mk.injEq]; omega⟩
  · exact ⟨⟨0, 1⟩, by simp, by simp only [point_t.mk.injEq]; omega⟩
  · exact ⟨⟨-1, 0⟩, by simp, by simp only [point_t.mk.injEq]; omega⟩
  · exact ⟨⟨0, -1⟩, by simp, by simp only [point_t.mk.injEq]; omega⟩

theorem adjacent_symm (p q : point_t) (h : adjacent p q) : adjacent q p := by
  unfold adjacent at *
  omega

theorem visited_spreads (g : grid_t) (s : search_t) (hf : frontier_inv g s none)
    (hn : s.next = []) (p q : point_t) (hp : open_cell g p) (hq : open_cell g q)
    (ha : adjacent q p) (hvp : is_visited s.visited (g.index_of p)) :
    is_visited s.visited (g.index_of q) := by
  rcases hf _ hvp with ⟨e, he, _⟩ | h | ⟨_, hc⟩
  · rw [hn] at he; simp at he
  · simp at h
  · obtain ⟨d, hd, hstep⟩ := adjacent_step p q ha
    have := hc d hd
    rw [get_point_index_of g p hp.1, hstep, hq.2] at this
    rcases this with h | h
    · simp at h
    · exact h

theorem route_visited (g : grid_t) (s : search_t) (hf : frontier_inv g s none)
    (hn : s.next = []) (l : List point_t) :
    ∀ t, is_route g l → l.getLast? = some t → is_visited s.visited (g.index_of t) →
      ∀ p ∈ l, is_visited s.visited (g.index_of p) := by
  induction l with
  | nil => intro t _ _ _ p hp; simp at hp
  | cons a rest ih =>
    intro t hr hl ht p hp
    cases rest with
    | nil =>
      simp only [List.getLast?_singleton, Option.some.injEq] at hl
      simp only [List.mem_singleton] at hp
      rw [hp, hl]; exact ht
    | cons b rest =>
      have hr1 : is_route g (b :: rest) :=
        ⟨hr.1.2, fun x hx => hr.2 x (by simp only [List.mem_cons] at hx ⊢; tauto)⟩
      have hl1 : (b :: rest).getLast? = some t := by
        rw [List.getLast?_cons_cons] at hl; exact hl
      have hall := ih t hr1 hl1 ht
      rcases List.mem_cons.mp hp with rfl | hp
      · exact visited_spreads g s hf hn b p (hr.2 b (by simp)) (hr.2 p (by simp))
          hr.1.1 (hall b (by simp))
      · exact hall p hp

theorem queue_not_exhausted (g : grid_t) (s : search_t) (hi : search_inv g s)
    (hf : frontier_inv g s none) (l : List point_t) (hr : is_route g l)
    (hh : l.head? = some g.start) (hl : l.getLast? = some g.target) : s.next ≠ [] := by
  intro hn
  have hstart : g.start ∈ l := by
    cases l with
    | nil => simp at hh
    | cons a rest =>
      simp only [List.head?_cons, Option.some.injEq] at hh
      rw [hh]; simp
  have hvs := route_visited g s hf hn l g.target hr hl hi.target_visited g.start hstart
  rcases hf _ hvs with ⟨e, he, _⟩ | h | ⟨h, _⟩
  · rw [hn] at he; simp at he
  · simp at h
  · exact h rfl

theorem finish_turn_complete (g : grid_t) (hv : g.valid) (hb : border_walls g)
    (hne : g.index_of g.start ≠ g.index_of g.target)
    (k : search_t → result_t (List point_t)) (m : Nat)
    (hk : ∀ s, search_inv g s → frontier_inv g s none → search_measure s ≤ m →
      ∃ path, k s = result_t.ok path ∧ path ≠ [])
    (current : point_t) (s1 : search_t) (he : expand_inv g current s1)
    (hm : search_measure s1 ≤ m) :
    ∃ path, finish_turn g k current s1 = result_t.ok path ∧ path ≠ [] := by
  unfold finish_turn
  split
  · rename_i hcs
    obtain ⟨_, pc, hpc⟩ := he.inv.chains _ he.cur_visited
    have hl := chain_length g _ _ pc _ hpc he.cur_visited
    rw [reconstruct_chain g _ _ pc _ current [] hpc
      (by rw [he.inv.len_visited] at hl; omega)]
    refine ⟨pc, by simp, ?_⟩
    rintro rfl
    have : g.index_of current = g.index_of g.target := hpc
    exact hne (hcs.symm.trans this)
  · rename_i hcs
    obtain ⟨s2, h2⟩ := expand_no_fault g hv hb current directions s1 (fun _ hd => hd) he
    obtain ⟨a1, a2, _, a4⟩ := expand_spec g current directions s1 s2 (fun _ hd => hd) he h2
    obtain ⟨b1, b2⟩ := expand_done g current s2 a1 a4 hcs
    rw [h2]
    exact hk s2 b1 b2 (le_trans a2 hm)

theorem search_loop_complete (g : grid_t) (hv : g.valid) (hb : border_walls g)
    (hne : g.index_of g.start ≠ g.index_of g.target) (l : List point_t) (hr : is_route g l)
    (hh : l.head? = some g.start) (hl : l.getLast? = some g.target) :
    ∀ (fuel : Nat) (s : search_t), search_inv g s → frontier_inv g s none →
      search_measure s < fuel → ∃ path, search_loop g fuel s = result_t.ok path ∧ path ≠ [] := by
  intro fuel
  induction fuel with
  | zero => intro s _ _ h; omega
  | succ fuel ih =>
    intro s hi hf hm
    cases hn : s.next with
    | nil => exact absurd hn (queue_not_exhausted g s hi hf l hr hh hl)
    | cons top rest =>
      obtain ⟨a1, a2, a3⟩ := pop_inv g hv s top rest hn hi hf
      rw [search_loop_cons g fuel s top rest true hn a3]
      exact finish_turn_complete g hv hb hne _ _
        (fun s2 c1 c2 c3 => ih s2 c1 c2 (by omega)) _ _ a1 (le_refl _)

/-- C2: on a valid grid whose border cells are all Wall and whose start differs
from its target, if some route of orthogonally adjacent in-bounds Empty cells
leads from start to target, then `priority_search` returns a non-empty path. -/
theorem priority_search_complete (g : grid_t) (hv : g.valid) (hb : border_walls g)
    (hst : g.start ≠ g.target)
    (hroute : ∃ l, is_route g l ∧ l.head? = some g.start ∧ l.getLast? = some g.target) :
    ∃ path, priority_search g = result_t.ok path ∧ path ≠ [] := by
  obtain ⟨l, hr, hh, hl⟩ := hroute
  have hne : g.index_of g.start ≠ g.index_of g.target :=
    fun h => hst (index_of_inj g _ _ hv.2.1.1 hv.2.2.1 h)
  obtain ⟨a1, a2⟩ := init_inv g hv
  rw [priority_search_eq_finish_turn g hv]
  exact finish_turn_complete g hv hb hne _ _
    (fun s2 c1 c2 c3 => search_loop_complete g hv hb hne l hr hh hl _ s2 c1 c2 (by omega))
    _ _ a1 (le_refl _)

/-- C2 witness: the 5 by 5 bordered grid with the route along its left and
bottom corridor. -/
theorem priority_search_complete_witness :
    bordered_example.valid ∧ border_walls bordered_example ∧
    bordered_example.start ≠ bordered_example.target ∧
    (is_route bordered_example [⟨1, 1⟩, ⟨1, 2⟩, ⟨1, 3⟩, ⟨2, 3⟩, ⟨3, 3⟩] ∧
      ([⟨1, 1⟩, ⟨1, 2⟩, ⟨1, 3⟩, ⟨2, 3⟩, ⟨3, 3⟩] : List point_t).head? =
        some bordered_example.start ∧
      ([⟨1, 1⟩, ⟨1, 2⟩, ⟨1, 3⟩, ⟨2, 3⟩, ⟨3, 3⟩] : List point_t).getLast? =
        some bordered_example.target) ∧
    ∃ path, priority_search bordered_example = result_t.ok path ∧ path ≠ [] :=
  ⟨by decide, by decide, by decide, by decide,
    priority_search_complete bordered_example (by decide) (by decide) (by decide)
      ⟨[⟨1, 1⟩, ⟨1, 2⟩, ⟨1, 3⟩, ⟨2, 3⟩, ⟨3, 3⟩], by decide⟩⟩

/-! ## Reachability explorer -/

theorem flood_neighbor_spec (g : grid_t) (s : flood_t) (nb : point_t) :
    (flood_neighbor g s nb).closed_set = s.closed_set ∧
    (flood_neighbor g s nb).current_pos = s.current_pos ∧
    (∃ extra, (flood_neighbor g s nb).open_set = s.open_set ++ extra) ∧
    (flood_ok g nb → nb ∈ (flood_neighbor g s nb).open_set ∨ nb ∈ s.closed_set) := by
  unfold flood_neighbor flood_ok
  split
  · split
    · rename_i hc
      exact ⟨rfl, rfl, ⟨[], by simp⟩, fun _ => Or.inr hc⟩
    · split
      · rename_i ho
        exact ⟨rfl, rfl, ⟨[], by simp⟩, fun _ => Or.inl ho⟩
      · exact ⟨rfl, rfl, ⟨[nb], rfl⟩, fun _ => Or.inl (by simp)⟩
  · rename_i hn
    exact ⟨rfl, rfl, ⟨[], by simp⟩, fun h => absurd h hn⟩

theorem flood_fold_spec (g : grid_t) (ns : List point_t) :
    ∀ s, (ns.foldl (flood_neighbor g) s).closed_set = s.closed_set ∧
      (ns.foldl (flood_neighbor g) s).current_pos = s.current_pos ∧
      (∃ extra, (ns.foldl (flood_neighbor g) s).open_set = s.open_set ++ extra) ∧
      (∀ r ∈ ns, flood_ok g r →
        r ∈ (ns.foldl (flood_neighbor g) s).open_set ∨ r ∈ s.closed_set) := by
  induction ns with
  | nil => intro s; exact ⟨rfl, rfl, ⟨[], by simp⟩, fun r hr => absurd hr (by simp)⟩
  | cons n rest ih =>
    intro s
    obtain ⟨a1, a2, ⟨e1, a3⟩, a4⟩ := flood_neighbor_spec g s n
    obtain ⟨b1, b2, ⟨e2, b3⟩, b4⟩ := ih (flood_neighbor g s n)
    simp only [List.foldl_cons]
    refine ⟨b1.trans a1, b2.trans a2, ⟨e1 ++ e2, by rw [b3, a3, List.append_assoc]⟩, ?_⟩
    intro r hr hok
    rcases List.mem_cons.mp hr with rfl | hr
    · rcases a4 hok with h | h
      · left; rw [b3]; exact List.mem_append_left _ h
      · exact Or.inr h
    · rcases b4 r hr hok with h | h
      · exact Or.inl h
      · right; rw [← a1]; exact h

theorem flood_turn_spec (g : grid_t) (s : flood_t) (t : List point_t)
    (ho : s.open_set = s.current_pos :: t) :
    ∃ extra, (flood_turn g s).open_set = t ++ extra ∧
      (flood_turn g s).closed_set = s.closed_set ++ [s.current_pos] ∧
      (∀ r ∈ flood_neighbors s.current_pos, flood_ok g r →
        r ∈ s.current_pos :: (t ++ extra) ∨ r ∈ s.closed_set) ∧
      ((flood_turn g s).open_set ≠ [] →
        (flood_turn g s).open_set.head? = some (flood_turn g s).current_pos) := by
  obtain ⟨a1, _, ⟨extra, a3⟩, a4⟩ := flood_fold_spec g (flood_neighbors s.current_pos) s
  have hopen : (flood_turn g s).open_set = t ++ extra := by
    unfold flood_turn
    simp only [a3, ho, List.cons_append, List.tail_cons]
  refine ⟨extra, hopen, ?_, ?_, ?_⟩
  · unfold flood_turn
    simp only [a1]
  · intro r hr hok
    rcases a4 r hr hok with h | h
    · left; rw [a3, ho] at h; exact h
    · exact Or.inr h
  · intro hne
    unfold flood_turn
    simp only [a3, ho, List.cons_append, List.tail_cons]
    cases hte : t ++ extra with
    | nil => rw [hopen] at hne; exact absurd hte hne
    | cons p rest => rfl

theorem flood_turn_inv (g : grid_t) (s : flood_t) (hi : flood_inv g s)
    (ho : s.open_set ≠ [])
    (hc : ¬ (s.current_pos.x = g.target.x ∧ s.current_pos.y = g.target.y)) :
    flood_inv g (flood_turn g s) ∧ s.current_pos ∈ (flood_turn g s).closed_set ∧
    ∃ t extra, s.open_set = s.current_pos :: t ∧ (flood_turn g s).open_set = t ++ extra := by
  obtain ⟨t, ht⟩ : ∃ t, s.open_set = s.current_pos :: t := by
    have := hi.front ho
    cases hs : s.open_set with
    | nil => exact absurd hs ho
    | cons a t =>
      rw [hs] at this
      simp only [List.head?_cons, Option.some.injEq] at this
      exact ⟨t, by rw [this]⟩
  obtain ⟨extra, b1, b2, b3, b4⟩ := flood_turn_spec g s t ht
  refine ⟨⟨b4, ?_, ?_⟩, by rw [b2]; simp, t, extra, ht, b1⟩
  · intro c hcm r hr hok
    rw [b1, b2]
    have key : r ∈ s.current_pos :: (t ++ extra) ∨ r ∈ s.closed_set := by
      rw [b2] at hcm
      rcases List.mem_append.mp hcm with h | h
      · rcases hi.closed_done c h r hr hok with h1 | h1
        · left
          rw [ht] at h1
          rcases List.mem_cons.mp h1 with h2 | h2
          · rw [h2]; simp
          · exact List.mem_cons_of_mem _ (List.mem_append_left _ h2)
        · exact Or.inr h1
      · simp only [List.mem_singleton] at h
        subst h
        exact b3 r hr hok
    rcases key with h | h
    · rcases List.mem_cons.mp h with h1 | h1
      · right; rw [h1]; simp
      · exact Or.inl h1
    · right; exact List.mem_append_left _ h
  · rw [b2]
    intro hmem
    rcases List.mem_append.mp hmem with h | h
    · exact hi.target_open h
    · simp only [List.mem_singleton] at h
      exact hc ⟨by rw [h], by rw [h]⟩

theorem flood_loop_turn (g : grid_t) (fuel : Nat) (s : flood_t) (ho : s.open_set ≠ [])
    (hc : ¬ (s.current_pos.x = g.target.x ∧ s.current_pos.y = g.target.y)) :
    flood_loop g (fuel + 1) s = flood_loop g fuel (flood_turn g s) := by
  rw [flood_loop, if_neg ho, if_neg hc]

theorem flood_loop_stop (g : grid_t) (fuel : Nat) (s : flood_t)
    (hc : s.current_pos.x = g.target.x ∧ s.current_pos.y = g.target.y) :
    flood_loop g (fuel + 1) s = some s := by
  rw [flood_loop]
  split <;> rfl

theorem flood_frontier (g : grid_t) (s : flood_t) (hi : flood_inv g s) :
    ∀ (L : Nat) (r : point_t), (r ∈ s.open_set ∨ r ∈ s.closed_set) →
      flood_reach g L r g.target →
      ∃ L1, L1 ≤ L ∧ ∃ (k : Nat) (q : point_t),
        s.open_set[k]? = some q ∧ flood_reach g L1 q g.target := by
  intro L
  induction L with
  | zero =>
    intro r hr hreach
    rcases hr with h | h
    · obtain ⟨k, hk⟩ := List.mem_iff_getElem?.mp h
      exact ⟨0, le_refl _, k, r, hk, hreach⟩
    · have : r = g.target := hreach
      rw [this] at h
      exact absurd h hi.target_open
  | succ L ih =>
    intro r hr hreach
    rcases hr with h | h
    · obtain ⟨k, hk⟩ := List.mem_iff_getElem?.mp h
      exact ⟨L + 1, le_refl _, k, r, hk, hreach⟩
    · obtain ⟨r1, hr1, hok, hreach1⟩ := hreach
      obtain ⟨L1, hL1, k, q, hk, hq⟩ := ih r1 (hi.closed_done r h r1 hr1 hok) hreach1
      exact ⟨L1, by omega, k, q, hk, hq⟩

theorem flood_loop_reaches (g : grid_t) :
    ∀ (L k : Nat) (s : flood_t), flood_inv g s →
      (∃ q, s.open_set[k]? = some q ∧ flood_reach g L q g.target) →
      ∃ fuel s1, flood_loop g fuel s = some s1 ∧ flood_inv g s1 ∧ s1.open_set ≠ [] ∧
        s1.current_pos = g.target := by
  intro L
  induction L using Nat.strong_induction_on with
  | _ L ihL =>
    intro k
    induction k with
    | zero =>
      intro s hi ⟨q, hq, hreach⟩
      have ho : s.open_set ≠ [] := by
        intro h; rw [h] at hq; simp at hq
      by_cases hc : s.current_pos.x = g.target.x ∧ s.current_pos.y = g.target.y
      · refine ⟨1, s, flood_loop_stop g 0 s hc, hi, ho, ?_⟩
        cases hcp : s.current_pos
        cases htg : g.target
        rw [hcp, htg] at hc
        simp only at hc
        rw [hc.1, hc.2]
      · obtain ⟨a1, a2, t, extra, a3, a4⟩ := flood_turn_inv g s hi ho hc
        have hqc : q = s.current_pos := by
          rw [a3] at hq
          simp only [List.getElem?_cons_zero, Option.some.injEq] at hq
          exact hq.symm
        cases L with
        | zero =>
          have : q = g.target := hreach
          rw [hqc] at this
          exact absurd ⟨by rw [this], by rw [this]⟩ hc
        | succ L =>
          obtain ⟨r, hr, hok, hreach1⟩ := hreach
          rw [hqc] at hr
          obtain ⟨L1, hL1, k1, q1, hk1, hq1⟩ :=
            flood_frontier g _ a1 L r (a1.closed_done _ a2 r hr hok) hreach1
          obtain ⟨fuel, s1, b1, b2⟩ := ihL L1 (by omega) k1 _ a1 ⟨q1, hk1, hq1⟩
          exact ⟨fuel + 1, s1, by rw [flood_loop_turn g fuel s ho hc]; exact b1, b2⟩
    | succ k ihk =>
      intro s hi ⟨q, hq, hreach⟩
      have ho : s.open_set ≠ [] := by
        intro h; rw [h] at hq; simp at hq
      by_cases hc : s.current_pos.x = g.target.x ∧ s.current_pos.y = g.target.y
      · refine ⟨1, s, flood_loop_stop g 0 s hc, hi, ho, ?_⟩
        cases hcp : s.current_pos
        cases htg : g.target
        rw [hcp, htg] at hc
        simp only at hc
        rw [hc.1, hc.2]
      · obtain ⟨a1, _, t, extra, a3, a4⟩ := flood_turn_inv g s hi ho hc
        have hq1 : (flood_turn g s).open_set[k]? = some q := by
          rw [a3] at hq
          simp only [List.getElem?_cons_succ] at hq
          have hlt : k < t.length := (List.getElem?_eq_some_iff.mp hq).1
          rw [a4, List.getElem?_append_left hlt]
          exact hq
        obtain ⟨fuel, s1, b1, b2⟩ := ihk _ a1 ⟨q, hq1, hreach⟩
        exact ⟨fuel + 1, s1, by rw [flood_loop_turn g fuel s ho hc]; exact b1, b2⟩

theorem flood_loop_mono (g : grid_t) :
    ∀ (fuel : Nat) (s s1 : flood_t), flood_loop g fuel s = some s1 →
      flood_loop g (fuel + 1) s = some s1 := by
  intro fuel
  induction fuel with
  | zero => intro s s1 h; simp [flood_loop] at h
  | succ fuel ih =>
    intro s s1 h
    rw [flood_loop] at h ⊢
    split at h
    · rename_i ho; rw [if_pos ho]; exact h
    · rename_i ho
      rw [if_neg ho]
      split at h
      · rename_i hc; rw [if_pos hc]; exact h
      · rename_i hc; rw [if_neg hc]; exact ih _ _ h

theorem flood_loop_mono_le (g : grid_t) (s s1 : flood_t) (fuel : Nat)
    (h : flood_loop g fuel s = some s1) :
    ∀ fuel1, fuel ≤ fuel1 → flood_loop g fuel1 s = some s1 := by
  intro fuel1 hle
  induction fuel1 with
  | zero =>
    have : fuel = 0 := by omega
    rw [this] at h; exact h
  | succ n ih =>
    by_cases hn : fuel ≤ n
    · exact flood_loop_mono g n s s1 (ih hn)
    · have : fuel = n + 1 := by omega
      rw [this] at h; exact h

theorem flood_loop_inv (g : grid_t) :
    ∀ (fuel : Nat) (s s1 : flood_t), flood_inv g s → flood_loop g fuel s = some s1 →
      flood_inv g s1 := by
  intro fuel
  induction fuel with
  | zero => intro s s1 _ h; simp [flood_loop] at h
  | succ fuel ih =>
    intro s s1 hi h
    rw [flood_loop] at h
    split at h
    · simp only [Option.some.injEq] at h; rw [← h]; exact hi
    · rename_i ho
      split at h
      · simp only [Option.some.injEq] at h; rw [← h]; exact hi
      · rename_i hc
        exact ih _ _ (flood_turn_inv g s hi ho hc).1 h

theorem flood_init_inv (g : grid_t) : flood_inv g (flood_init g) :=
  ⟨fun _ => rfl, fun c hc => absurd hc (by simp [flood_init]), by simp [flood_init]⟩

theorem flood_ok_of_in_bounds (g : grid_t) (hlen : (g.cells.length : Int) = g.width * g.height)
    (hw : ∀ c ∈ g.cells, c = cell_t.empty) (p : point_t) (hp : in_bounds g p) :
    flood_ok g p := by
  have h0 := index_of_nonneg g p hp
  have h1 := index_of_lt g p hp
  obtain ⟨c, hc⟩ := (vec_get_some_iff g.cells (g.index_of p)).mpr ⟨h0, by omega⟩
  unfold flood_ok
  rw [hc, hw c (vec_get_mem _ _ _ hc)]

theorem flood_reach_wall_free (g : grid_t) (hlen : (g.cells.length : Int) = g.width * g.height)
    (hw : ∀ c ∈ g.cells, c = cell_t.empty) (t : point_t) (ht : in_bounds g t) :
    ∀ (n : Nat) (p : point_t), in_bounds g p →
      (p.x - t.x).natAbs + (p.y - t.y).natAbs = n → flood_reach g n p t := by
  intro n
  induction n with
  | zero =>
    intro p _ h
    obtain ⟨px, py⟩ := p
    obtain ⟨tx, ty⟩ := t
    simp only at h
    show _ = _
    simp only [point_t.mk.injEq]
    omega
  | succ n ih =>
    intro p hp h
    obtain ⟨px, py⟩ := p
    obtain ⟨tx, ty⟩ := t
    unfold in_bounds at hp ht
    simp only at h hp ht
    have step : ∀ r : point_t, r ∈ flood_neighbors ⟨px, py⟩ → in_bounds g r →
        (r.x - tx).natAbs + (r.y - ty).natAbs = n → flood_reach g (n + 1) ⟨px, py⟩ ⟨tx, ty⟩ :=
      fun r hr hin hd => ⟨r, hr, flood_ok_of_in_bounds g hlen hw r hin, ih r hin hd⟩
    by_cases hx1 : px < tx
    · exact step ⟨px + 1, py⟩ (by simp [flood_neighbors])
        (by unfold in_bounds; simp only; omega) (by simp only; omega)
    · by_cases hx2 : tx < px
      · exact step ⟨px - 1, py⟩ (by simp [flood_neighbors])
          (by unfold in_bounds; simp only; omega) (by simp only; omega)
      · by_cases hy1 : py < ty
        · exact step ⟨px, py + 1⟩ (by simp [flood_neighbors])
            (by unfold in_bounds; simp only; omega) (by simp only; omega)
        · exact step ⟨px, py - 1⟩ (by simp [flood_neighbors])
            (by unfold in_bounds; simp only; omega) (by simp only; omega)

/-- C8 counterexample: on the valid wall-free grid read from `"st"` the
explorer stops with the closed list `[(0, 0)]`, which does not contain the
target `(1, 0)`. -/
theorem flood_fill_closed_misses_target :
    (grid_t.mk 2 1 [cell_t.empty, cell_t.empty] ⟨0, 0⟩ ⟨1, 0⟩).valid ∧
    (∀ c ∈ (grid_t.mk 2 1 [cell_t.empty, cell_t.empty] ⟨0, 0⟩ ⟨1, 0⟩).cells, c = cell_t.empty) ∧
    flood_fill 2 (grid_t.mk 2 1 [cell_t.empty, cell_t.empty] ⟨0, 0⟩ ⟨1, 0⟩) = some [⟨0, 0⟩] ∧
    (grid_t.mk 2 1 [cell_t.empty, cell_t.empty] ⟨0, 0⟩ ⟨1, 0⟩).target ∉ [(⟨0, 0⟩ : point_t)] := by
  decide

/-- C8 (amended): on a valid grid without Wall cells `flood_fill` stops at the
target test: from some fuel on the loop ends in one and the same state, whose
current cell is the target, at the front of the open list, and the closed list
it returns does not contain the target; moreover no closed list returned by
`flood_fill`, for any fuel, contains the target. -/
theorem flood_fill_stops_at_target (g : grid_t) (hv : g.valid)
    (hw : ∀ c ∈ g.cells, c = cell_t.empty) :
    (∃ (N : Nat) (s : flood_t), s.current_pos = g.target ∧
      s.open_set.head? = some g.target ∧ g.target ∉ s.closed_set ∧
      ∀ fuel, N ≤ fuel → flood_loop g fuel (flood_init g) = some s ∧
        flood_fill fuel g = some s.closed_set) ∧
    ∀ fuel closed, flood_fill fuel g = some closed → g.target ∉ closed := by
  constructor
  · have hreach := flood_reach_wall_free g hv.1 hw g.target hv.2.2.1 _ g.start hv.2.1.1 rfl
    obtain ⟨N, s, h1, h2, h3, h4⟩ := flood_loop_reaches g _ 0 (flood_init g) (flood_init_inv g)
      ⟨g.start, rfl, hreach⟩
    refine ⟨N, s, h4, by rw [h2.front h3, h4], h2.target_open, ?_⟩
    intro fuel hle
    have := flood_loop_mono_le g _ _ N h1 fuel hle
    exact ⟨this, by unfold flood_fill; rw [this]; rfl⟩
  · intro fuel closed h
    unfold flood_fill at h
    cases hs : flood_loop g fuel (flood_init g) with
    | none => rw [hs] at h; simp at h
    | some s =>
      rw [hs] at h
      simp only [Option.map_some', Option.some.injEq] at h
      rw [← h]
      exact (flood_loop_inv g fuel _ s (flood_init_inv g) hs).target_open

/-- C8 (amended) witness: the wall-free grid read from `"st"`. -/
theorem flood_fill_stops_at_target_witness :
    (grid_t.mk 2 1 [cell_t.empty, cell_t.empty] ⟨0, 0⟩ ⟨1, 0⟩).valid ∧
    (∀ c ∈ (grid_t.mk 2 1 [cell_t.empty, cell_t.empty] ⟨0, 0⟩ ⟨1, 0⟩).cells, c = cell_t.empty) ∧
    ((∃ (N : Nat) (s : flood_t),
      s.current_pos = (grid_t.mk 2 1 [cell_t.empty, cell_t.empty] ⟨0, 0⟩ ⟨1, 0⟩).target ∧
      s.open_set.head? = some (grid_t.mk 2 1 [cell_t.empty, cell_t.empty] ⟨0, 0⟩ ⟨1, 0⟩).target ∧
      (grid_t.mk 2 1 [cell_t.empty, cell_t.empty] ⟨0, 0⟩ ⟨1, 0⟩).target ∉ s.closed_set ∧
      ∀ fuel, N ≤ fuel →
        flood_loop (grid_t.mk 2 1 [cell_t.empty, cell_t.empty] ⟨0, 0⟩ ⟨1, 0⟩) fuel
          (flood_init (grid_t.mk 2 1 [cell_t.empty, cell_t.empty] ⟨0, 0⟩ ⟨1, 0⟩)) = some s ∧
        flood_fill fuel (grid_t.mk 2 1 [cell_t.empty, cell_t.empty] ⟨0, 0⟩ ⟨1, 0⟩) =
          some s.closed_set) ∧
    ∀ fuel closed,
      flood_fill fuel (grid_t.mk 2 1 [cell_t.empty, cell_t.empty] ⟨0, 0⟩ ⟨1, 0⟩) = some closed →
      (grid_t.mk 2 1 [cell_t.empty, cell_t.empty] ⟨0, 0⟩ ⟨1, 0⟩).target ∉ closed) :=
  ⟨by decide, by decide,
    flood_fill_stops_at_target (grid_t.mk 2 1 [cell_t.empty, cell_t.empty] ⟨0, 0⟩ ⟨1, 0⟩)
      (by decide) (by decide)⟩

/-! ## Path geometry encoder: one point -/

theorem intersect_point_outside (g : grid_t) (st : List Nat × Int) (p : point_t)
    (hp : ¬ in_bounds g p) : intersect_point g st p = some (st.1, -(g.width + 1)) := by
  have hp1 : ¬ (0 ≤ p.x ∧ p.x < g.width ∧ 0 ≤ p.y ∧ p.y < g.height) := hp
  unfold intersect_point
  rw [if_neg hp1]

theorem link_bits_cases (g : grid_t) (prev : Int) (p : point_t) :
    link_bits g prev p = (0, 0) ∨
    ((link_bits g prev p = (8, 1) ∨ link_bits g prev p = (4, 2) ∨
        link_bits g prev p = (2, 4) ∨ link_bits g prev p = (1, 8)) ∧
      (g.index_of p = prev - g.width ∨ g.index_of p = prev - 1 ∨
        g.index_of p = prev + 1 ∨ g.index_of p = prev + g.width)) := by
  unfold link_bits
  split
  · rename_i h; exact Or.inr ⟨Or.inl rfl, Or.inl h⟩
  · split
    · rename_i h; exact Or.inr ⟨Or.inr (Or.inl rfl), Or.inr (Or.inl h.1)⟩
    · split
      · rename_i h; exact Or.inr ⟨Or.inr (Or.inr (Or.inl rfl)), Or.inr (Or.inr (Or.inl h.1))⟩
      · split
        · rename_i h
          exact Or.inr ⟨Or.inr (Or.inr (Or.inr rfl)), Or.inr (Or.inr (Or.inr h))⟩
        · exact Or.inl rfl

theorem intersect_point_linked (g : grid_t) (m : List Nat) (prev : Int) (p : point_t)
    (hp : in_bounds g p) :
    intersect_point g (m, prev) p =
      (match vec_get m (g.index_of p) with
        | none => none
        | some _ =>
          (if (link_bits g prev p).2 = 0 then some (vec_set m (g.index_of p) 16)
            else (or_at (vec_set m (g.index_of p) 16) (g.index_of p) (link_bits g prev p).1).bind
              (fun m1 => or_at m1 prev (link_bits g prev p).2)).map
            (fun m2 => (m2, g.index_of p))) := by
  have hp1 : 0 ≤ p.x ∧ p.x < g.width ∧ 0 ≤ p.y ∧ p.y < g.height := hp
  unfold intersect_point link_bits
  rw [if_pos hp1]
  simp only
  cases vec_get m (g.index_of p) with
  | none => rfl
  | some a =>
    simp only
    split
    · rfl
    · split
      · rfl
      · split
        · rfl
        · split
          · rfl
          · rfl

theorem intersect_point_step (g : grid_t) (hw : 1 ≤ g.width) (m : List Nat) (prev : Int)
    (p : point_t) (hp : in_bounds g p) (hlen : m.length = (g.width * g.height).toNat)
    (hprev : prev = -(g.width + 1) ∨ ∃ v, vec_get m prev = some v) :
    ∃ m1, intersect_point g (m, prev) p = some (m1, g.index_of p) ∧ m1.length = m.length ∧
      ∀ i, vec_get m1 i =
        if i = g.index_of p then some (16 ||| (link_bits g prev p).1)
        else if i = prev then (vec_get m prev).map (fun v => v ||| (link_bits g prev p).2)
        else vec_get m i := by
  have h0 := index_of_nonneg g p hp
  have h1 := index_of_lt g p hp
  have hr : g.index_of p < m.length := by rw [hlen]; omega
  obtain ⟨a, ha⟩ := (vec_get_some_iff m (g.index_of p)).mpr ⟨h0, hr⟩
  rw [intersect_point_linked g m prev p hp]
  simp only [ha]
  rcases link_bits_cases g prev p with hz | ⟨hv, hrel⟩
  · rw [hz]
    simp only [if_true, Option.map_some']
    refine ⟨_, rfl, vec_set_length _ _ _, ?_⟩
    intro i
    by_cases hi : i = g.index_of p
    · rw [if_pos hi, hi]
      exact vec_get_set_same _ _ _ h0 hr
    · rw [if_neg hi, vec_get_set_ne _ _ _ _ hi]
      split
      · rename_i hip
        rw [hip]
        cases vec_get m prev <;> simp
      · rfl
  · have hnz : (link_bits g prev p).2 ≠ 0 := by
      rcases hv with h | h | h | h <;> rw [h] <;> decide
    have hne : prev ≠ g.index_of p := by omega
    obtain ⟨vp, hvp⟩ : ∃ v, vec_get m prev = some v := by
      rcases hprev with h | h
      · omega
      · exact h
    have hpr := vec_get_range _ _ _ hvp
    have g1 : vec_get (vec_set m (g.index_of p) 16) (g.index_of p) = some 16 :=
      vec_get_set_same _ _ _ h0 hr
    have g2 : vec_get (vec_set (vec_set m (g.index_of p) 16) (g.index_of p)
        (16 ||| (link_bits g prev p).1)) prev = some vp := by
      rw [vec_get_set_ne _ _ _ _ hne, vec_get_set_ne _ _ _ _ hne]; exact hvp
    rw [if_neg hnz, or_at_some _ _ _ _ g1]
    simp only [Option.bind]
    rw [or_at_some _ _ _ _ g2]
    simp only [Option.map_some']
    refine ⟨_, rfl, by simp only [vec_set_length], ?_⟩
    intro i
    by_cases hi : i = g.index_of p
    · rw [if_pos hi, hi, vec_get_set_ne _ _ _ _ (Ne.symm hne)]
      exact vec_get_set_same _ _ _ h0 (by rw [vec_set_length]; exact hr)
    · rw [if_neg hi]
      by_cases hip : i = prev
      · rw [if_pos hip, hip, hvp]
        exact vec_get_set_same _ _ _ hpr.1 (by simp only [vec_set_length]; exact hpr.2)
      · rw [if_neg hip, vec_get_set_ne _ _ _ _ hip, vec_get_set_ne _ _ _ _ hi,
          vec_get_set_ne _ _ _ _ hi]

/-! ## Path geometry encoder: the loop invariant -/

theorem index_split (w x y x1 y1 : Int) (hx : 0 ≤ x ∧ x < w) (hx1 : 0 ≤ x1 ∧ x1 < w)
    (h : x + y * w = x1 + y1 * w) : x = x1 ∧ y = y1 := by
  have e1 : (x + y * w) % w = x := by
    rw [Int.add_mul_emod_self]; exact Int.emod_eq_of_lt hx.1 hx.2
  have e2 : (x1 + y1 * w) % w = x1 := by
    rw [Int.add_mul_emod_self]; exact Int.emod_eq_of_lt hx1.1 hx1.2
  have hxx : x = x1 := by rw [← e1, ← e2, h]
  refine ⟨hxx, ?_⟩
  subst hxx
  have : y * w = y1 * w := by omega
  exact mul_right_cancel₀ (by omega : w ≠ 0) this

theorem point_of_index (g : grid_t) (q : point_t) (x y : Int) (hq : in_bounds g q)
    (hx : 0 ≤ x ∧ x < g.width) (h : g.index_of q = x + y * g.width) : q = ⟨x, y⟩ := by
  obtain ⟨a, b⟩ := index_split g.width q.x q.y x y ⟨hq.1, hq.2.1⟩ hx h
  cases q
  simp only [point_t.mk.injEq]
  exact ⟨a, b⟩

theorem link_bits_geometry (g : grid_t) (p q : point_t) (hp : in_bounds g p)
    (hq : in_bounds g q) (hnz : (link_bits g (g.index_of q) p).2 ≠ 0) :
    (link_bits g (g.index_of q) p).1 ∈ [1, 2, 4, 8] ∧
    (link_bits g (g.index_of q) p).2 ∈ [1, 2, 4, 8] ∧
    dir_neighbor p (link_bits g (g.index_of q) p).1 = q ∧
    dir_neighbor q (link_bits g (g.index_of q) p).2 = p := by
  obtain ⟨px, py⟩ := p
  have hpx : 0 ≤ px ∧ px < g.width := ⟨hp.1, hp.2.1⟩
  unfold link_bits at hnz ⊢
  split at hnz
  · rename_i h
    rw [if_pos h]
    have hq1 : q = ⟨px, py + 1⟩ := point_of_index g q px (py + 1) hq hpx (by
      unfold grid_t.index_of at h ⊢; simp only at h ⊢; linarith)
    subst hq1
    refine ⟨by simp, by simp, ?_, ?_⟩ <;> simp [dir_neighbor]
  · rename_i h1
    rw [if_neg h1]
    split at hnz
    · rename_i h
      rw [if_pos h]
      have hq1 : q = ⟨px + 1, py⟩ := point_of_index g q (px + 1) py hq
        ⟨by omega, by have := h.2; simp only at this; omega⟩ (by
        have := h.1
        unfold grid_t.index_of at this ⊢; simp only at this ⊢; linarith)
      subst hq1
      refine ⟨by simp, by simp, ?_, ?_⟩ <;> simp [dir_neighbor]
    · rename_i h2
      rw [if_neg h2]
      split at hnz
      · rename_i h
        rw [if_pos h]
        have hq1 : q = ⟨px - 1, py⟩ := point_of_index g q (px - 1) py hq
          ⟨by have := h.2; simp only at this; omega, by omega⟩ (by
          have := h.1
          unfold grid_t.index_of at this ⊢; simp only at this ⊢; linarith)
        subst hq1
        refine ⟨by simp, by simp, ?_, ?_⟩ <;> simp [dir_neighbor]
      · rename_i h3
        rw [if_neg h3]
        split at hnz
        · rename_i h
          rw [if_pos h]
          have hq1 : q = ⟨px, py - 1⟩ := point_of_index g q px (py - 1) hq hpx (by
            unfold grid_t.index_of at h ⊢; simp only at h ⊢; linarith)
          subst hq1
          refine ⟨by simp, by simp, ?_, ?_⟩ <;> simp [dir_neighbor]
        · exact absurd rfl hnz

theorem follows_append (l : List point_t) (a b p : point_t) (h : follows l a b) :
    follows (l ++ [p]) a b := by
  obtain ⟨pre, post, rfl⟩ := h
  exact ⟨pre, post ++ [p], by simp⟩

theorem follows_last (l : List point_t) (q p : point_t) (h : l.getLast? = some q) :
    follows (l ++ [p]) q p := by
  obtain ⟨pre, rfl⟩ : ∃ pre, l = pre ++ [q] := by
    rcases List.eq_nil_or_concat l with rfl | ⟨pre, x, rfl⟩
    · simp at h
    · simp at h
      exact ⟨pre, by rw [h]; simp⟩
  exact ⟨pre, [], by simp⟩

theorem link_ok_append (g : grid_t) (l : List point_t) (c p : point_t) (bit : Nat)
    (h : link_ok g l c bit) : link_ok g (l ++ [p]) c bit := by
  rcases h with h | ⟨h1, h2, h3⟩
  · exact Or.inl h
  · refine Or.inr ⟨h1, h2, ?_⟩
    rcases h3 with h | h
    · exact Or.inl (follows_append _ _ _ _ h)
    · exact Or.inr (follows_append _ _ _ _ h)

theorem link_ok_zero (g : grid_t) (l : List point_t) (c : point_t) : link_ok g l c 0 :=
  Or.inl rfl

theorem last_index_append (g : grid_t) (l : List point_t) (p : point_t) :
    last_index g (l ++ [p]) = if in_bounds g p then g.index_of p else -(g.width + 1) := by
  unfold last_index
  simp

theorem encode_inv_step (g : grid_t) (hw : 1 ≤ g.width) (done : List point_t)
    (st : List Nat × Int) (p : point_t) (hi : encode_inv g done st) :
    ∃ st1, intersect_point g st p = some st1 ∧ encode_inv g (done ++ [p]) st1 := by
  obtain ⟨m, prev⟩ := st
  by_cases hp : in_bounds g p
  · -- the previous index is the sentinel or the index of an in-bounds point
    have hprev : (prev = -(g.width + 1) ∧ ∀ c, in_bounds g c → g.index_of c ≠ prev) ∨
        ∃ q a, done.getLast? = some q ∧ in_bounds g q ∧ prev = g.index_of q ∧
          link_ok g done q a ∧ vec_get m prev = some (16 ||| a) := by
      have hpe : prev = last_index g done := hi.prev_eq
      unfold last_index at hpe
      split at hpe
      · rename_i q hq
        split at hpe
        · rename_i hqb
          obtain ⟨a, ha1, ha2⟩ := hi.at_prev q hq hqb
          exact Or.inr ⟨q, a, hq, hqb, hpe, ha1, by rw [hpe]; exact ha2⟩
        · refine Or.inl ⟨hpe, fun c hc => ?_⟩
          have := index_of_nonneg g c hc
          omega
      · refine Or.inl ⟨hpe, fun c hc => ?_⟩
        have := index_of_nonneg g c hc
        omega
    obtain ⟨m1, h1, h2, h3⟩ := intersect_point_step g hw m prev p hp hi.len (by
      rcases hprev with h | ⟨q, a, _, _, _, _, h⟩
      · exact Or.inl h.1
      · exact Or.inr ⟨_, h⟩)
    -- the bits of this step are accounted for
    have hbits : link_ok g (done ++ [p]) p (link_bits g prev p).1 ∧
        ∀ q, done.getLast? = some q → in_bounds g q → prev = g.index_of q →
          link_ok g (done ++ [p]) q (link_bits g prev p).2 := by
      by_cases hnz : (link_bits g prev p).2 = 0
      · have hz : link_bits g prev p = (0, 0) := by
          rcases link_bits_cases g prev p with h | ⟨h, _⟩
          · exact h
          · rcases h with h | h | h | h <;> rw [h] at hnz <;> simp at hnz
        rw [hz]
        exact ⟨Or.inl rfl, fun _ _ _ _ => Or.inl rfl⟩
      · rcases hprev with ⟨hs, _⟩ | ⟨q, a, hq, hqb, hpq, _, _⟩
        · exfalso
          have := index_of_nonneg g p hp
          rcases link_bits_cases g prev p with h | ⟨_, h⟩
          · rw [h] at hnz; exact hnz rfl
          · omega
        · subst hpq
          obtain ⟨b1, b2, b3, b4⟩ := link_bits_geometry g p q hp hqb hnz
          refine ⟨Or.inr ⟨b1, by rw [b3]; exact hqb, Or.inl (by
            rw [b3]; exact follows_last done q p hq)⟩, ?_⟩
          intro q1 hq1 _ _
          have : q1 = q := by rw [hq] at hq1; exact (Option.some.inj hq1).symm
          subst this
          exact Or.inr ⟨b2, by rw [b4]; exact hp, Or.inr (by
            rw [b4]; exact follows_last done q1 p hq)⟩
    refine ⟨(m1, g.index_of p), h1, ⟨?_, ?_, ?_, ?_⟩⟩
    · exact h2.trans hi.len
    · rw [last_index_append, if_pos hp]
    · intro p1 hp1 _
      have : p1 = p := by simpa using hp1.symm
      subst this
      exact ⟨_, hbits.1, by rw [h3, if_pos rfl]⟩
    · intro c hc
      obtain ⟨v, hv, hform⟩ := hi.cells c hc
      simp only [h3]
      by_cases hcp : g.index_of c = g.index_of p
      · rw [if_pos hcp]
        have : c = p := index_of_inj g c p hc hp hcp
        subst this
        exact ⟨_, rfl, Or.inr ⟨_, 0, hbits.1, Or.inl rfl, by simp⟩⟩
      · rw [if_neg hcp]
        by_cases hcq : g.index_of c = prev
        · rw [if_pos hcq]
          rcases hprev with ⟨_, hs⟩ | ⟨q, a, hq, hqb, hpq, ha, hva⟩
          · exact absurd hcq (hs c hc)
          · have : c = q := index_of_inj g c q hc hqb (hcq.trans hpq)
            subst this
            rw [hva]
            exact ⟨_, rfl, Or.inr ⟨a, _, link_ok_append g done c p a ha,
              hbits.2 c hq hqb hpq, rfl⟩⟩
        · rw [if_neg hcq]
          refine ⟨v, hv, ?_⟩
          rcases hform with h | ⟨a, b, ha, hb, hab⟩
          · exact Or.inl h
          · exact Or.inr ⟨a, b, link_ok_append g done c p a ha,
              link_ok_append g done c p b hb, hab⟩
  · refine ⟨(m, -(g.width + 1)), intersect_point_outside g (m, prev) p hp, ⟨hi.len, ?_, ?_, ?_⟩⟩
    · rw [last_index_append, if_neg hp]
    · intro p1 hp1 hp1b
      have : p1 = p := by simpa using hp1.symm
      subst this
      exact absurd hp1b hp
    · intro c hc
      obtain ⟨v, hv, hform⟩ := hi.cells c hc
      refine ⟨v, hv, ?_⟩
      rcases hform with h | ⟨a, b, ha, hb, hab⟩
      · exact Or.inl h
      · exact Or.inr ⟨a, b, link_ok_append g done c p a ha,
          link_ok_append g done c p b hb, hab⟩

theorem encode_inv_loop (g : grid_t) (hw : 1 ≤ g.width) (path : List point_t) :
    ∀ (done : List point_t) (st : List Nat × Int), encode_inv g done st →
      ∃ m, intersect_loop g path st = some m ∧
        encode_inv g (done ++ path) (m, last_index g (done ++ path)) := by
  induction path with
  | nil =>
    intro done st hi
    refine ⟨st.1, rfl, ?_⟩
    rw [List.append_nil, ← hi.prev_eq]
    exact hi
  | cons p rest ih =>
    intro done st hi
    obtain ⟨st1, h1, h2⟩ := encode_inv_step g hw done st p hi
    obtain ⟨m, h3, h4⟩ := ih (done ++ [p]) st1 h2
    refine ⟨m, by unfold intersect_loop; rw [h1]; exact h3, ?_⟩
    simpa using h4

theorem encode_inv_init (g : grid_t) :
    encode_inv g [] (List.replicate (g.width * g.height).toNat 0, -(g.width + 1)) := by
  refine ⟨by simp, rfl, fun p hp => by simp at hp, ?_⟩
  intro c hc
  have h0 := index_of_nonneg g c hc
  have h1 := index_of_lt g c hc
  exact ⟨0, vec_get_replicate _ _ _ h0 (by omega), Or.inl rfl⟩

theorem compute_intersections_inv (g : grid_t) (hw : 1 ≤ g.width) (path : List point_t) :
    ∃ m, compute_intersections g path = some m ∧
      encode_inv g path (m, last_index g path) := by
  obtain ⟨m, h1, h2⟩ := encode_inv_loop g hw path [] _ (encode_inv_init g)
  exact ⟨m, h1, by simpa using h2⟩

/-! ## Path geometry encoder: accesses and direction bits -/

theorem mask_bit_cases :
    ∀ a ∈ [0, 1, 2, 4, 8], ∀ b ∈ [0, 1, 2, 4, 8], ∀ d ∈ [1, 2, 4, 8],
      (16 ||| a ||| b) &&& d ≠ 0 → d = a ∨ d = b := by
  decide

theorem link_ok_mem (g : grid_t) (l : List point_t) (c : point_t) (a : Nat)
    (h : link_ok g l c a) : a ∈ [0, 1, 2, 4, 8] := by
  rcases h with h | ⟨h, _⟩
  · rw [h]; simp
  · exact List.mem_cons_of_mem _ h

theorem follows_pair (a b x y : point_t) (h : follows [a, b] x y) : x = a ∧ y = b := by
  obtain ⟨pre, post, h⟩ := h
  cases pre with
  | nil =>
    simp only [List.nil_append, List.cons.injEq] at h
    exact ⟨h.1.symm, h.2.1.symm⟩
  | cons u pre =>
    cases pre with
    | nil => simp at h
    | cons u1 pre => simp at h

theorem masks_of_cells (g : grid_t) (hw : 1 ≤ g.width) (done : List point_t) (m : List Nat)
    (prev : Int) (hi : encode_inv g done (m, prev)) (v : Nat) (hv : v ∈ m) :
    ∃ c, in_bounds g c ∧ vec_get m (g.index_of c) = some v := by
  obtain ⟨n, hn⟩ := List.mem_iff_getElem?.mp hv
  have hlt : n < m.length := (List.getElem?_eq_some_iff.mp hn).1
  have hlen : m.length = (g.width * g.height).toNat := hi.len
  have hb := get_point_in_bounds g (n : Int) (by omega) (by omega) (by omega)
  refine ⟨_, hb, ?_⟩
  rw [index_of_get_point]
  unfold vec_get
  rw [if_pos (by omega)]
  simpa using hn

theorem follows_triple (a p b x y : point_t) (h : follows [a, p, b] x y) :
    (x = a ∧ y = p) ∨ (x = p ∧ y = b) := by
  obtain ⟨pre, post, h⟩ := h
  cases pre with
  | nil =>
    simp only [List.nil_append, List.cons.injEq] at h
    exact Or.inl ⟨h.1.symm, h.2.1.symm⟩
  | cons u pre =>
    cases pre with
    | nil =>
      simp only [List.cons_append, List.nil_append, List.cons.injEq] at h
      exact Or.inr ⟨h.2.1.symm, h.2.2.1.symm⟩
    | cons u1 pre =>
      cases pre with
      | nil => simp at h
      | cons u2 pre => simp at h

theorem no_link_through_outside (g : grid_t) (a p b c : point_t) (bit : Nat)
    (hp : ¬ in_bounds g p) (hc : in_bounds g c) (h : link_ok g [a, p, b] c bit) : bit = 0 := by
  rcases h with h | ⟨_, h2, h3⟩
  · exact h
  · exfalso
    rcases h3 with h | h
    · rcases follows_triple _ _ _ _ _ h with ⟨_, e⟩ | ⟨e, _⟩
      · exact hp (e ▸ hc)
      · exact hp (e ▸ h2)
    · rcases follows_triple _ _ _ _ _ h with ⟨_, e⟩ | ⟨e, _⟩
      · exact hp (e ▸ h2)
      · exact hp (e ▸ hc)

/-- C11: for a grid of width at least 1 (and height at least 0) and any path
of integer points, `compute_intersections` returns the masks, so every index it
used lay inside the mask vector of `width * height` entries; a point outside
the grid leaves the masks unchanged and resets `prev_grid_index` to the
sentinel, an in-bounds point met in that state only gets its own mask set to
`visited`, no other mask being touched, and on a path `a, p, b` with `p`
outside the grid no mask receives a direction bit. -/
theorem compute_intersections_in_range (g : grid_t) (hw : 1 ≤ g.width) (_hh : 0 ≤ g.height) :
    (∀ path, ∃ m, compute_intersections g path = some m ∧
      m.length = (g.width * g.height).toNat) ∧
    (∀ st p, ¬ in_bounds g p → intersect_point g st p = some (st.1, -(g.width + 1))) ∧
    (∀ m q, in_bounds g q → m.length = (g.width * g.height).toNat →
      intersect_point g (m, -(g.width + 1)) q =
        some (vec_set m (g.index_of q) 16, g.index_of q)) ∧
    (∀ a p b m, ¬ in_bounds g p → compute_intersections g [a, p, b] = some m →
      ∀ v ∈ m, v = 0 ∨ v = 16) := by
  refine ⟨?_, ?_, ?_, ?_⟩
  · intro path
    obtain ⟨m, h1, h2⟩ := compute_intersections_inv g hw path
    exact ⟨m, h1, h2.len⟩
  · intro st p hp
    exact intersect_point_outside g st p hp
  · intro m q hq hlen
    have := index_of_lt g q hq
    exact intersect_point_first g m q (by omega) hq (by rw [hlen]; omega)
  · intro a p b m hp hm v hv
    obtain ⟨m1, h1, hi⟩ := compute_intersections_inv g hw [a, p, b]
    rw [hm] at h1
    have hmm : m1 = m := (Option.some.inj h1).symm
    subst hmm
    obtain ⟨c, hc, hvc⟩ := masks_of_cells g hw _ m1 _ hi v hv
    obtain ⟨v1, hv1, hform⟩ := hi.cells c hc
    rw [hvc] at hv1
    have : v1 = v := (Option.some.inj hv1).symm
    subst this
    rcases hform with h0 | ⟨x, y, hx, hy, hxy⟩
    · exact Or.inl h0
    · right
      rw [hxy, no_link_through_outside g a p b c x hp hc hx,
        no_link_through_outside g a p b c y hp hc hy]
      rfl

/-- C11 witness: a grid of width 2 and height 1. -/
theorem compute_intersections_in_range_witness :
    (1 : Int) ≤ (grid_t.mk 2 1 [cell_t.empty, cell_t.empty] ⟨0, 0⟩ ⟨1, 0⟩).width ∧
    (0 : Int) ≤ (grid_t.mk 2 1 [cell_t.empty, cell_t.empty] ⟨0, 0⟩ ⟨1, 0⟩).height ∧
    ((∀ path, ∃ m,
        compute_intersections (grid_t.mk 2 1 [cell_t.empty, cell_t.empty] ⟨0, 0⟩ ⟨1, 0⟩) path =
          some m ∧ m.length = ((2 : Int) * 1).toNat) ∧
      (∀ st p, ¬ in_bounds (grid_t.mk 2 1 [cell_t.empty, cell_t.empty] ⟨0, 0⟩ ⟨1, 0⟩) p →
        intersect_point (grid_t.mk 2 1 [cell_t.empty, cell_t.empty] ⟨0, 0⟩ ⟨1, 0⟩) st p =
          some (st.1, -((2 : Int) + 1))) ∧
      (∀ m q, in_bounds (grid_t.mk 2 1 [cell_t.empty, cell_t.empty] ⟨0, 0⟩ ⟨1, 0⟩) q →
        m.length = ((2 : Int) * 1).toNat →
        intersect_point (grid_t.mk 2 1 [cell_t.empty, cell_t.empty] ⟨0, 0⟩ ⟨1, 0⟩)
            (m, -((2 : Int) + 1)) q =
          some (vec_set m
            ((grid_t.mk 2 1 [cell_t.empty, cell_t.empty] ⟨0, 0⟩ ⟨1, 0⟩).index_of q) 16,
            (grid_t.mk 2 1 [cell_t.empty, cell_t.empty] ⟨0, 0⟩ ⟨1, 0⟩).index_of q)) ∧
      (∀ a p b m, ¬ in_bounds (grid_t.mk 2 1 [cell_t.empty, cell_t.empty] ⟨0, 0⟩ ⟨1, 0⟩) p →
        compute_intersections (grid_t.mk 2 1 [cell_t.empty, cell_t.empty] ⟨0, 0⟩ ⟨1, 0⟩)
          [a, p, b] = some m →
        ∀ v ∈ m, v = 0 ∨ v = 16)) :=
  ⟨by decide, by decide,
    compute_intersections_in_range (grid_t.mk 2 1 [cell_t.empty, cell_t.empty] ⟨0, 0⟩ ⟨1, 0⟩)
      (by decide) (by decide)⟩

theorem no_link_across_rows (g : grid_t) (hw : 2 ≤ g.width) (y : Int) (c : point_t) (a : Nat)
    (l : List point_t)
    (hl : l = [⟨g.width - 1, y⟩, ⟨0, y + 1⟩] ∨ l = [⟨0, y + 1⟩, ⟨g.width - 1, y⟩])
    (h : link_ok g l c a) : a = 0 := by
  rcases h with h | ⟨h1, _, h3⟩
  · exact h
  · exfalso
    obtain ⟨cx, cy⟩ := c
    simp only [List.mem_cons, List.mem_singleton, List.not_mem_nil, or_false] at h1
    rcases hl with rfl | rfl <;> rcases h3 with h | h <;>
      obtain ⟨e1, e2⟩ := follows_pair _ _ _ _ h <;>
      rcases h1 with rfl | rfl | rfl | rfl <;>
      simp [dir_neighbor] at e1 e2 <;> omega

/-- C18: for a grid of width at least 1 and any path, a direction bit set in
the final mask of a cell `c` means that the neighbour of `c` in that direction
(`up` is `y - 1`, `left` is `x - 1`, `right` is `x + 1`, `down` is `y + 1`) is
inside the grid and comes immediately before or immediately after an
occurrence of `c` in the path; and when the width is at least 2 the two-point
paths `[(width - 1, y), (0, y + 1)]` and `[(0, y + 1), (width - 1, y)]` leave
every mask at 0 or at `visited` alone. -/
theorem direction_bits_follow_path (g : grid_t) (hw : 1 ≤ g.width) :
    (∀ (path : List point_t) (m : List Nat) (c : point_t) (v bit : Nat),
      compute_intersections g path = some m → in_bounds g c →
      vec_get m (g.index_of c) = some v → bit ∈ [1, 2, 4, 8] → v &&& bit ≠ 0 →
      in_bounds g (dir_neighbor c bit) ∧
        (follows path (dir_neighbor c bit) c ∨ follows path c (dir_neighbor c bit))) ∧
    (2 ≤ g.width → ∀ (y : Int) (path : List point_t) (m : List Nat),
      (path = [⟨g.width - 1, y⟩, ⟨0, y + 1⟩] ∨ path = [⟨0, y + 1⟩, ⟨g.width - 1, y⟩]) →
      compute_intersections g path = some m → ∀ v ∈ m, v = 0 ∨ v = 16) := by
  constructor
  · intro path m c v bit hm hc hv hb hset
    obtain ⟨m1, h1, hi⟩ := compute_intersections_inv g hw path
    rw [hm] at h1
    have hmm : m1 = m := (Option.some.inj h1).symm
    subst hmm
    obtain ⟨v1, hv1, hform⟩ := hi.cells c hc
    rw [hv] at hv1
    have : v1 = v := (Option.some.inj hv1).symm
    subst this
    rcases hform with h0 | ⟨a, b, ha, hb1, hab⟩
    · rw [h0] at hset
      simp at hset
    · rw [hab] at hset
      have hcase := mask_bit_cases a (link_ok_mem g path c a ha) b (link_ok_mem g path c b hb1)
        bit hb hset
      have hne : bit ≠ 0 := by
        intro h; rw [h] at hb; simp at hb
      rcases hcase with h | h
      · rw [← h] at ha
        rcases ha with h0 | ⟨_, h2, h3⟩
        · exact absurd h0 hne
        · exact ⟨h2, h3⟩
      · rw [← h] at hb1
        rcases hb1 with h0 | ⟨_, h2, h3⟩
        · exact absurd h0 hne
        · exact ⟨h2, h3⟩
  · intro hw2 y path m hpath hm v hv
    obtain ⟨m1, h1, hi⟩ := compute_intersections_inv g hw path
    rw [hm] at h1
    have hmm : m1 = m := (Option.some.inj h1).symm
    subst hmm
    obtain ⟨c, hc, hvc⟩ := masks_of_cells g hw path m1 _ hi v hv
    obtain ⟨v1, hv1, hform⟩ := hi.cells c hc
    rw [hvc] at hv1
    have : v1 = v := (Option.some.inj hv1).symm
    subst this
    rcases hform with h0 | ⟨a, b, ha, hb, hab⟩
    · exact Or.inl h0
    · right
      rw [hab, no_link_across_rows g hw2 y c a path hpath ha,
        no_link_across_rows g hw2 y c b path hpath hb]
      rfl

/-- C18 witness: a grid of width 2 and height 2. -/
theorem direction_bits_follow_path_witness :
    (1 : Int) ≤ (grid_t.mk 2 2 (List.replicate 4 cell_t.empty) ⟨0, 0⟩ ⟨1, 1⟩).width ∧
    ((∀ (path : List point_t) (m : List Nat) (c : point_t) (v bit : Nat),
      compute_intersections (grid_t.mk 2 2 (List.replicate 4 cell_t.empty) ⟨0, 0⟩ ⟨1, 1⟩) path =
        some m →
      in_bounds (grid_t.mk 2 2 (List.replicate 4 cell_t.empty) ⟨0, 0⟩ ⟨1, 1⟩) c →
      vec_get m ((grid_t.mk 2 2 (List.replicate 4 cell_t.empty) ⟨0, 0⟩ ⟨1, 1⟩).index_of c) =
        some v →
      bit ∈ [1, 2, 4, 8] → v &&& bit ≠ 0 →
      in_bounds (grid_t.mk 2 2 (List.replicate 4 cell_t.empty) ⟨0, 0⟩ ⟨1, 1⟩)
          (dir_neighbor c bit) ∧
        (follows path (dir_neighbor c bit) c ∨ follows path c (dir_neighbor c bit))) ∧
    ((2 : Int) ≤ 2 → ∀ (y : Int) (path : List point_t) (m : List Nat),
      (path = [⟨(2 : Int) - 1, y⟩, ⟨0, y + 1⟩] ∨ path = [⟨0, y + 1⟩, ⟨(2 : Int) - 1, y⟩]) →
      compute_intersections (grid_t.mk 2 2 (List.replicate 4 cell_t.empty) ⟨0, 0⟩ ⟨1, 1⟩) path =
        some m →
      ∀ v ∈ m, v = 0 ∨ v = 16)) :=
  ⟨by decide,
    direction_bits_follow_path (grid_t.mk 2 2 (List.replicate 4 cell_t.empty) ⟨0, 0⟩ ⟨1, 1⟩)
      (by decide)⟩

/-! ## Path geometry encoder: glyphs -/

theorem print_row_mem (g : grid_t) (m : List Nat) (y : Int) :
    ∀ (k : Nat) (x0 : Int) (row : List Char), print_row g m y k x0 = some row →
      ∀ ch ∈ row, ch = '\n' ∨ ∃ x : Int, print_cell g m x y = some ch := by
  intro k
  induction k with
  | zero =>
    intro x0 row h ch hch
    simp only [print_row, Option.some.injEq] at h
    subst h
    simp only [List.mem_singleton] at hch
    exact Or.inl hch
  | succ k ih =>
    intro x0 row h ch hch
    unfold print_row at h
    split at h
    · rename_i c rest hc hrest
      simp only [Option.some.injEq] at h
      subst h
      rcases List.mem_cons.mp hch with rfl | hch
      · exact Or.inr ⟨x0, hc⟩
      · exact ih (x0 + 1) rest hrest ch hch
    · simp at h

theorem print_rows_mem (g : grid_t) (m : List Nat) :
    ∀ (k : Nat) (y0 : Int) (out : List Char), print_rows g m k y0 = some out →
      ∀ ch ∈ out, ch = '\n' ∨ ∃ x y : Int, print_cell g m x y = some ch := by
  intro k
  induction k with
  | zero =>
    intro y0 out h ch hch
    simp only [print_rows, Option.some.injEq] at h
    subst h
    simp at hch
  | succ k ih =>
    intro y0 out h ch hch
    unfold print_rows at h
    split at h
    · rename_i row rest hrow hrest
      simp only [Option.some.injEq] at h
      subst h
      rcases List.mem_append.mp hch with hch | hch
      · rcases print_row_mem g m y0 _ 0 row hrow ch hch with h1 | ⟨x, hx⟩
        · exact Or.inl h1
        · exact Or.inr ⟨x, y0, hx⟩
      · exact ih (y0 + 1) rest hrest ch hch
    · simp at h

theorem glyph_defined :
    intersection_graphics[0]? ≠ some '?' ∧
    ∀ a ∈ [0, 1, 2, 4, 8], ∀ b ∈ [0, 1, 2, 4, 8],
      intersection_graphics[16 ||| a ||| b]? ≠ some '?' := by
  decide

theorem print_cell_defined (g : grid_t) (m : List Nat) (x y : Int) (ch : Char)
    (hm : ∀ v ∈ m, v = 0 ∨ ∃ a ∈ [0, 1, 2, 4, 8], ∃ b ∈ [0, 1, 2, 4, 8], v = 16 ||| a ||| b)
    (h : print_cell g m x y = some ch) : ch ≠ '?' := by
  unfold print_cell at h
  simp only at h
  split at h
  · rename_i v _ hv
    have hvm := hm v (vec_get_mem _ _ _ hv)
    split at h
    · simp only [Option.some.injEq] at h
      rw [← h]; decide
    · split at h
      · simp only [Option.some.injEq] at h
        rw [← h]; decide
      · rintro rfl
        rcases hvm with h0 | ⟨a, ha, b, hb, hab⟩
        · rw [h0] at h
          exact glyph_defined.1 h
        · rw [hab] at h
          exact glyph_defined.2 a ha b hb h
  · simp only [Option.some.injEq] at h
    rw [← h]
    split <;> decide
  · simp at h

/-- C20: for a valid grid and a path of pairwise distinct points (the
distinctness is not needed), every mask of `compute_intersections` is 0 or the
`visited` bit together with at most two direction bits, and the output of
`print_path` contains no placeholder glyph `?`. -/
theorem no_placeholder_glyph (g : grid_t) (hv : g.valid) (path : List point_t)
    (_hd : path.Nodup) :
    ∃ m out, compute_intersections g path = some m ∧
      (∀ v ∈ m, v = 0 ∨ ∃ a ∈ [0, 1, 2, 4, 8], ∃ b ∈ [0, 1, 2, 4, 8], v = 16 ||| a ||| b) ∧
      print_path g path = some out ∧ '?' ∉ out := by
  have hw : 1 ≤ g.width := by have := valid_width_pos g hv; omega
  obtain ⟨m, hm, hi⟩ := compute_intersections_inv g hw path
  have hmask : ∀ v ∈ m, v = 0 ∨
      ∃ a ∈ [0, 1, 2, 4, 8], ∃ b ∈ [0, 1, 2, 4, 8], v = 16 ||| a ||| b := by
    intro v hvm
    obtain ⟨c, hc, hvc⟩ := masks_of_cells g hw path m _ hi v hvm
    obtain ⟨v1, hv1, hform⟩ := hi.cells c hc
    rw [hvc] at hv1
    have : v1 = v := (Option.some.inj hv1).symm
    subst this
    rcases hform with h0 | ⟨a, b, ha, hb, hab⟩
    · exact Or.inl h0
    · exact Or.inr ⟨a, link_ok_mem g path c a ha, b, link_ok_mem g path c b hb, hab⟩
  obtain ⟨out, hout, _⟩ := print_path_spec g path m hv.1 hm
  refine ⟨m, out, hm, hmask, hout, ?_⟩
  intro hq
  have hrows : print_rows g m g.height.toNat 0 = some out := by
    unfold print_path at hout
    rw [hm] at hout
    exact hout
  rcases print_rows_mem g m _ 0 out hrows '?' hq with h | ⟨x, y, h⟩
  · exact absurd h (by decide)
  · exact print_cell_defined g m x y '?' hmask h rfl

/-- C20 witness: the path found on the 5 by 5 bordered grid. -/
theorem no_placeholder_glyph_witness :
    bordered_example.valid ∧
    ([⟨1, 2⟩, ⟨1, 3⟩, ⟨2, 3⟩, ⟨3, 3⟩] : List point_t).Nodup ∧
    ∃ m out, compute_intersections bordered_example [⟨1, 2⟩, ⟨1, 3⟩, ⟨2, 3⟩, ⟨3, 3⟩] = some m ∧
      (∀ v ∈ m, v = 0 ∨ ∃ a ∈ [0, 1, 2, 4, 8], ∃ b ∈ [0, 1, 2, 4, 8], v = 16 ||| a ||| b) ∧
      print_path bordered_example [⟨1, 2⟩, ⟨1, 3⟩, ⟨2, 3⟩, ⟨3, 3⟩] = some out ∧ '?' ∉ out :=
  ⟨by decide, by decide,
    no_placeholder_glyph bordered_example (by decide) [⟨1, 2⟩, ⟨1, 3⟩, ⟨2, 3⟩, ⟨3, 3⟩]
      (by decide)⟩

/-- C12 counterexample: on the valid one-cell grid whose start and target
coincide, `print_path` writes `s` at the target position, not `t`. -/
theorem target_glyph_hidden_by_start :
    (grid_t.mk 1 1 [cell_t.empty] ⟨0, 0⟩ ⟨0, 0⟩).valid ∧
    print_path (grid_t.mk 1 1 [cell_t.empty] ⟨0, 0⟩ ⟨0, 0⟩) [] = some ['s', '\n'] ∧
    (['s', '\n'] : List Char)[(grid_t.mk 1 1 [cell_t.empty] ⟨0, 0⟩ ⟨0, 0⟩).target.y.toNat *
        ((grid_t.mk 1 1 [cell_t.empty] ⟨0, 0⟩ ⟨0, 0⟩).width.toNat + 1) +
        (grid_t.mk 1 1 [cell_t.empty] ⟨0, 0⟩ ⟨0, 0⟩).target.x.toNat]? ≠ some 't' := by
  decide

/-- C12 (amended): for a valid grid and any path, `print_path` writes `s` at
the start position, and writes `t` at the target position when the target
differs from the start (where they coincide the `s` is written). -/
theorem start_target_glyphs (g : grid_t) (hv : g.valid) (path : List point_t) :
    ∃ out, print_path g path = some out ∧
      out[g.start.y.toNat * (g.width.toNat + 1) + g.start.x.toNat]? = some 's' ∧
      (g.target ≠ g.start →
        out[g.target.y.toNat * (g.width.toNat + 1) + g.target.x.toNat]? = some 't') := by
  have hw : 1 ≤ g.width := by have := valid_width_pos g hv; omega
  obtain ⟨m, hm, hi⟩ := compute_intersections_inv g hw path
  obtain ⟨out, hout, hget⟩ := print_path_spec g path m hv.1 hm
  obtain ⟨hlen, ⟨hsb, hsc⟩, ⟨htb, htc⟩⟩ := hv
  refine ⟨out, hout, ?_, ?_⟩
  · rw [hget g.start.x.toNat g.start.y.toNat (by have := hsb.2.2; omega)
      (by have := hsb.2.1; have := hsb.1; omega)]
    have cx : ((g.start.x.toNat : Nat) : Int) = g.start.x := Int.toNat_of_nonneg hsb.1
    have cy : ((g.start.y.toNat : Nat) : Int) = g.start.y := Int.toNat_of_nonneg hsb.2.2.1
    rw [cx, cy]
    obtain ⟨v, hvm, _⟩ := hi.cells g.start hsb
    unfold print_cell
    simp only [hsc, hvm, and_self, if_true]
  · intro hne
    rw [hget g.target.x.toNat g.target.y.toNat (by have := htb.2.2; omega)
      (by have := htb.2.1; have := htb.1; omega)]
    have cx : ((g.target.x.toNat : Nat) : Int) = g.target.x := Int.toNat_of_nonneg htb.1
    have cy : ((g.target.y.toNat : Nat) : Int) = g.target.y := Int.toNat_of_nonneg htb.2.2.1
    rw [cx, cy]
    obtain ⟨v, hvm, _⟩ := hi.cells g.target htb
    have hns : ¬ (g.start.x = g.target.x ∧ g.start.y = g.target.y) := by
      rintro ⟨a, b⟩
      apply hne
      cases hs : g.start
      cases ht : g.target
      rw [hs, ht] at a b
      simp only at a b
      rw [a, b]
    unfold print_cell
    simp only [htc, hvm, if_neg hns, and_self, if_true]

/-- C12 (amended) witness: the 5 by 5 bordered grid with the path found on it. -/
theorem start_target_glyphs_witness :
    bordered_example.valid ∧ bordered_example.target ≠ bordered_example.start ∧
    ∃ out, print_path bordered_example [⟨1, 2⟩, ⟨1, 3⟩, ⟨2, 3⟩, ⟨3, 3⟩] = some out ∧
      out[bordered_example.start.y.toNat * (bordered_example.width.toNat + 1) +
        bordered_example.start.x.toNat]? = some 's' ∧
      out[bordered_example.target.y.toNat * (bordered_example.width.toNat + 1) +
        bordered_example.target.x.toNat]? = some 't' := by
  obtain ⟨out, h1, h2, h3⟩ :=
    start_target_glyphs bordered_example (by decide) [⟨1, 2⟩, ⟨1, 3⟩, ⟨2, 3⟩, ⟨3, 3⟩]
  exact ⟨by decide, by decide, out, h1, h2, h3 (by decide)⟩

/-! ## Path geometry encoder: reciprocal bits of a step -/

theorem and_or_keep (v x d : Nat) (h : v &&& d = d) : (v ||| x) &&& d = d := by
  apply Nat.eq_of_testBit_eq
  intro i
  have hi := congrArg (fun n => Nat.testBit n i) h
  simp only [Nat.testBit_and, Nat.testBit_or] at hi ⊢
  cases hd : d.testBit i <;> cases hv : v.testBit i <;> simp_all

theorem or_and_self_right (x d : Nat) : (x ||| d) &&& d = d := by
  rw [Nat.or_comm]
  exact and_or_keep d x d (Nat.and_self d)

theorem encode_inv_prev (g : grid_t) (done : List point_t) (m : List Nat) (prev : Int)
    (hi : encode_inv g done (m, prev)) :
    prev = -(g.width + 1) ∨ ∃ v, vec_get m prev = some v := by
  have hpe : prev = last_index g done := hi.prev_eq
  unfold last_index at hpe
  split at hpe
  · rename_i q hq
    split at hpe
    · rename_i hqb
      obtain ⟨a, _, ha⟩ := hi.at_prev q hq hqb
      exact Or.inr ⟨_, by rw [hpe]; exact ha⟩
    · exact Or.inl hpe
  · exact Or.inl hpe

theorem encode_loop_append (g : grid_t) (hw : 1 ≤ g.width) (pre : List point_t) :
    ∀ (done : List point_t) (st : List Nat × Int), encode_inv g done st →
      ∃ st1, encode_inv g (done ++ pre) st1 ∧
        ∀ rest, intersect_loop g (pre ++ rest) st = intersect_loop g rest st1 := by
  induction pre with
  | nil => intro done st hi; exact ⟨st, by simpa using hi, fun _ => rfl⟩
  | cons p pre ih =>
    intro done st hi
    obtain ⟨st1, h1, h2⟩ := encode_inv_step g hw done st p hi
    obtain ⟨st2, h3, h4⟩ := ih (done ++ [p]) st1 h2
    refine ⟨st2, by simpa using h3, ?_⟩
    intro rest
    show intersect_loop g (p :: (pre ++ rest)) st = _
    rw [intersect_loop, h1]
    exact h4 rest

theorem bits_persist (g : grid_t) (hw : 1 ≤ g.width) (post : List point_t) :
    ∀ (done : List point_t) (st : List Nat × Int) (i : Int) (v : Nat),
      encode_inv g done st → vec_get st.1 i = some v →
      (∀ r ∈ post, in_bounds g r → g.index_of r ≠ i) →
      ∃ m v1, intersect_loop g post st = some m ∧ vec_get m i = some v1 ∧
        ∀ d, v &&& d = d → v1 &&& d = d := by
  induction post with
  | nil =>
    intro done st i v _ hv _
    exact ⟨st.1, v, rfl, hv, fun _ h => h⟩
  | cons r rest ih =>
    intro done st i v hi hv hpost
    obtain ⟨st1, h1, h2⟩ := encode_inv_step g hw done st r hi
    have hrest : ∀ r1 ∈ rest, in_bounds g r1 → g.index_of r1 ≠ i :=
      fun r1 hr1 => hpost r1 (List.mem_cons_of_mem _ hr1)
    have key : ∃ v1, vec_get st1.1 i = some v1 ∧ ∀ d, v &&& d = d → v1 &&& d = d := by
      obtain ⟨m, prev⟩ := st
      by_cases hr : in_bounds g r
      · obtain ⟨m1, a1, _, a3⟩ := intersect_point_step g hw m prev r hr hi.len
          (encode_inv_prev g done m prev hi)
        rw [a1] at h1
        have hst : st1 = (m1, g.index_of r) := (Option.some.inj h1).symm
        subst hst
        have hne : i ≠ g.index_of r := fun h => hpost r (by simp) hr h.symm
        simp only [a3, if_neg hne]
        by_cases hip : i = prev
        · rw [if_pos hip, ← hip]
          simp only at hv
          rw [hv]
          exact ⟨_, rfl, fun d hd => and_or_keep v _ d hd⟩
        · rw [if_neg hip]
          exact ⟨v, hv, fun _ h => h⟩
      · rw [intersect_point_outside g (m, prev) r hr] at h1
        have hst : st1 = (m, -(g.width + 1)) := (Option.some.inj h1).symm
        subst hst
        exact ⟨v, hv, fun _ h => h⟩
    obtain ⟨v1, hv1, hk⟩ := key
    obtain ⟨mf, v2, b1, b2, b3⟩ := ih (done ++ [r]) st1 i v1 h2 hv1 hrest
    refine ⟨mf, v2, ?_, b2, fun d hd => b3 d (hk d hd)⟩
    unfold intersect_loop
    rw [h1]
    exact b1

theorem dir_bit_cases (p q : point_t) (hadj : adjacent p q) :
    (q = ⟨p.x, p.y - 1⟩ ∧ dir_bit p q = 1 ∧ dir_bit q p = 8) ∨
    (q = ⟨p.x - 1, p.y⟩ ∧ dir_bit p q = 2 ∧ dir_bit q p = 4) ∨
    (q = ⟨p.x + 1, p.y⟩ ∧ dir_bit p q = 4 ∧ dir_bit q p = 2) ∨
    (q = ⟨p.x, p.y + 1⟩ ∧ dir_bit p q = 8 ∧ dir_bit q p = 1) := by
  obtain ⟨px, py⟩ := p
  obtain ⟨qx, qy⟩ := q
  unfold adjacent at hadj
  simp only at hadj
  have hc : (qx = px ∧ qy = py - 1) ∨ (qx = px - 1 ∧ qy = py) ∨
      (qx = px + 1 ∧ qy = py) ∨ (qx = px ∧ qy = py + 1) := by omega
  unfold dir_bit
  simp only [point_t.mk.injEq]
  rcases hc with ⟨h1, h2⟩ | ⟨h1, h2⟩ | ⟨h1, h2⟩ | ⟨h1, h2⟩
  · refine Or.inl ⟨⟨h1, h2⟩, ?_, ?_⟩ <;> split_ifs <;> first | rfl | omega
  · refine Or.inr (Or.inl ⟨⟨h1, h2⟩, ?_, ?_⟩) <;> split_ifs <;> first | rfl | omega
  · refine Or.inr (Or.inr (Or.inl ⟨⟨h1, h2⟩, ?_, ?_⟩)) <;> split_ifs <;> first | rfl | omega
  · refine Or.inr (Or.inr (Or.inr ⟨⟨h1, h2⟩, ?_, ?_⟩)) <;> split_ifs <;> first | rfl | omega

theorem link_bits_adjacent (g : grid_t) (p q : point_t) (hp : in_bounds g p)
    (hq : in_bounds g q) (hadj : adjacent p q) :
    link_bits g (g.index_of p) q = (dir_bit q p, dir_bit p q) ∧
    dir_neighbor p (dir_bit p q) = q ∧ dir_neighbor q (dir_bit q p) = p := by
  obtain ⟨px, py⟩ := p
  unfold in_bounds at hp hq
  simp only at hp
  rcases dir_bit_cases ⟨px, py⟩ q hadj with ⟨h, b1, b2⟩ | ⟨h, b1, b2⟩ | ⟨h, b1, b2⟩ | ⟨h, b1, b2⟩
  all_goals
    rw [b1, b2]
    subst h
    simp only at hq
    unfold link_bits grid_t.index_of
    simp only
  · have c1 : px + (py - 1) * g.width = px + py * g.width - g.width := by ring
    rw [if_pos c1]
    exact ⟨rfl, by simp [dir_neighbor], by simp [dir_neighbor]⟩
  · have c1 : ¬ (px - 1 + py * g.width = px + py * g.width - g.width) := by omega
    have c2 : px - 1 + py * g.width = px + py * g.width - 1 ∧ px - 1 < g.width - 1 :=
      ⟨by ring, by omega⟩
    rw [if_neg c1, if_pos c2]
    exact ⟨rfl, by simp [dir_neighbor], by simp [dir_neighbor]⟩
  · have c1 : ¬ (px + 1 + py * g.width = px + py * g.width - g.width) := by omega
    have c2 : ¬ (px + 1 + py * g.width = px + py * g.width - 1 ∧ px + 1 < g.width - 1) := by
      omega
    have c3 : px + 1 + py * g.width = px + py * g.width + 1 ∧ px + 1 > 0 :=
      ⟨by ring, by omega⟩
    rw [if_neg c1, if_neg c2, if_pos c3]
    exact ⟨rfl, by simp [dir_neighbor], by simp [dir_neighbor]⟩
  · have e0 : px + (py + 1) * g.width = px + py * g.width + g.width := by ring
    rw [e0]
    have c1 : ¬ (px + py * g.width + g.width = px + py * g.width - g.width) := by omega
    have c2 : ¬ (px + py * g.width + g.width = px + py * g.width - 1 ∧ px < g.width - 1) := by
      omega
    have c3 : ¬ (px + py * g.width + g.width = px + py * g.width + 1 ∧ px > 0) := by omega
    rw [if_neg c1, if_neg c2, if_neg c3, if_pos rfl]
    exact ⟨rfl, by simp [dir_neighbor], by simp [dir_neighbor]⟩

/-- C19 counterexample: on a 2 by 2 grid the path
`(0,0), (1,0), (1,1), (1,0)` has the consecutive pair `(0,0)` then `(1,0)`, both
inside the grid and adjacent, yet the final mask of `(1,0)` is 24
(`visited | down`): its `left` bit toward `(0,0)` was cleared when the cell was
visited again. -/
theorem revisit_clears_bits :
    compute_intersections (grid_t.mk 2 2 (List.replicate 4 cell_t.empty) ⟨0, 0⟩ ⟨1, 1⟩)
      [⟨0, 0⟩, ⟨1, 0⟩, ⟨1, 1⟩, ⟨1, 0⟩] = some [20, 24, 0, 17] ∧
    in_bounds (grid_t.mk 2 2 (List.replicate 4 cell_t.empty) ⟨0, 0⟩ ⟨1, 1⟩) ⟨0, 0⟩ ∧
    in_bounds (grid_t.mk 2 2 (List.replicate 4 cell_t.empty) ⟨0, 0⟩ ⟨1, 1⟩) ⟨1, 0⟩ ∧
    adjacent ⟨0, 0⟩ ⟨1, 0⟩ ∧
    vec_get [20, 24, 0, 17]
      ((grid_t.mk 2 2 (List.replicate 4 cell_t.empty) ⟨0, 0⟩ ⟨1, 1⟩).index_of ⟨1, 0⟩) =
        some 24 ∧
    dir_bit ⟨1, 0⟩ ⟨0, 0⟩ = 2 ∧ 24 &&& 2 ≠ 2 := by
  decide

/-- C19 (amended): for every grid and every path, if `p` then `q` are
consecutive path points, both inside the grid and orthogonally adjacent, and
neither of them occurs again later in the path, then the final masks hold the
reciprocal direction bits (the bit of `p` toward `q`, the bit of `q` toward
`p`) and the `visited` bit on both cells. -/
theorem reciprocal_bits (g : grid_t) (pre post : List point_t) (p q : point_t)
    (hp : in_bounds g p) (hq : in_bounds g q) (hadj : adjacent p q)
    (hnp : p ∉ post) (hnq : q ∉ post) :
    ∃ m vp vq, compute_intersections g (pre ++ p :: q :: post) = some m ∧
      vec_get m (g.index_of p) = some vp ∧ vec_get m (g.index_of q) = some vq ∧
      vp &&& dir_bit p q = dir_bit p q ∧ vq &&& dir_bit q p = dir_bit q p ∧
      vp &&& 16 = 16 ∧ vq &&& 16 = 16 ∧
      dir_neighbor p (dir_bit p q) = q ∧ dir_neighbor q (dir_bit q p) = p := by
  have hw : 1 ≤ g.width := by have := hp.1; have := hp.2.1; omega
  obtain ⟨hlb, hd1, hd2⟩ := link_bits_adjacent g p q hp hq hadj
  have hpq : g.index_of q ≠ g.index_of p := by
    intro h
    have := index_of_inj g q p hq hp h
    subst this
    unfold adjacent at hadj
    simp at hadj
  -- the points before `p`
  obtain ⟨⟨m0, prev0⟩, i0, hrun⟩ := encode_loop_append g hw pre [] _ (encode_inv_init g)
  -- the point `p`
  obtain ⟨st1, s1, i1⟩ := encode_inv_step g hw _ _ p i0
  obtain ⟨m1, a1, _, a3⟩ := intersect_point_step g hw m0 prev0 p hp i0.len
    (encode_inv_prev g _ m0 prev0 i0)
  rw [a1] at s1
  have e1 : st1 = (m1, g.index_of p) := (Option.some.inj s1).symm
  subst e1
  have hvp1 : vec_get m1 (g.index_of p) = some (16 ||| (link_bits g prev0 p).1) := by
    rw [a3, if_pos rfl]
  -- the point `q`
  obtain ⟨st2, s2, i2⟩ := encode_inv_step g hw _ _ q i1
  obtain ⟨m2, b1, _, b3⟩ := intersect_point_step g hw m1 (g.index_of p) q hq i1.len
    (Or.inr ⟨_, hvp1⟩)
  rw [b1] at s2
  have e2 : st2 = (m2, g.index_of q) := (Option.some.inj s2).symm
  subst e2
  have hvq2 : vec_get m2 (g.index_of q) = some (16 ||| dir_bit q p) := by
    rw [b3, if_pos rfl, hlb]
  have hvp2 : vec_get m2 (g.index_of p) =
      some (16 ||| (link_bits g prev0 p).1 ||| dir_bit p q) := by
    rw [b3, if_neg (Ne.symm hpq), if_pos rfl, hvp1, hlb]
    rfl
  -- the points after `q`
  have hpost : ∀ c, in_bounds g c → c ∉ post →
      ∀ r ∈ post, in_bounds g r → g.index_of r ≠ g.index_of c := by
    intro c hc hcn r hr hrb h
    exact hcn (by rw [← index_of_inj g r c hrb hc h]; exact hr)
  obtain ⟨mf, vp, c1, c2, c3⟩ := bits_persist g hw post _ _ _ _ i2 hvp2 (hpost p hp hnp)
  obtain ⟨mf1, vq, d1, d2, d3⟩ := bits_persist g hw post _ _ _ _ i2 hvq2 (hpost q hq hnq)
  rw [c1] at d1
  have emf : mf1 = mf := (Option.some.inj d1).symm
  subst emf
  have hfinal : compute_intersections g (pre ++ p :: q :: post) = some mf1 := by
    unfold compute_intersections
    rw [hrun (p :: q :: post)]
    show intersect_loop g (p :: q :: post) (m0, prev0) = _
    rw [intersect_loop, a1]
    simp only
    rw [intersect_loop, b1]
    exact c1
  refine ⟨mf1, vp, vq, hfinal, c2, d2, c3 _ (or_and_self_right _ _),
    d3 _ (or_and_self_right _ _), c3 16 ?_, d3 16 ?_, hd1, hd2⟩
  · rw [Nat.or_assoc]
    exact and_or_keep 16 _ 16 (Nat.and_self 16)
  · exact and_or_keep 16 _ 16 (Nat.and_self 16)

/-- C19 (amended) witness: the step `(1, 2)` then `(1, 3)` of the path found on
the 5 by 5 bordered grid. -/
theorem reciprocal_bits_witness :
    in_bounds bordered_example ⟨1, 2⟩ ∧ in_bounds bordered_example ⟨1, 3⟩ ∧
    adjacent ⟨1, 2⟩ ⟨1, 3⟩ ∧
    (⟨1, 2⟩ : point_t) ∉ [(⟨2, 3⟩ : point_t), ⟨3, 3⟩] ∧
    (⟨1, 3⟩ : point_t) ∉ [(⟨2, 3⟩ : point_t), ⟨3, 3⟩] ∧
    ∃ m vp vq,
      compute_intersections bordered_example ([] ++ ⟨1, 2⟩ :: ⟨1, 3⟩ :: [⟨2, 3⟩, ⟨3, 3⟩]) =
        some m ∧
      vec_get m (bordered_example.index_of ⟨1, 2⟩) = some vp ∧
      vec_get m (bordered_example.index_of ⟨1, 3⟩) = some vq ∧
      vp &&& dir_bit ⟨1, 2⟩ ⟨1, 3⟩ = dir_bit ⟨1, 2⟩ ⟨1, 3⟩ ∧
      vq &&& dir_bit ⟨1, 3⟩ ⟨1, 2⟩ = dir_bit ⟨1, 3⟩ ⟨1, 2⟩ ∧
      vp &&& 16 = 16 ∧ vq &&& 16 = 16 ∧
      dir_neighbor ⟨1, 2⟩ (dir_bit ⟨1, 2⟩ ⟨1, 3⟩) = ⟨1, 3⟩ ∧
      dir_neighbor ⟨1, 3⟩ (dir_bit ⟨1, 3⟩ ⟨1, 2⟩) = ⟨1, 2⟩ :=
  ⟨by decide, by decide, by decide, by decide, by decide,
    reciprocal_bits bordered_example [] [⟨2, 3⟩, ⟨3, 3⟩] ⟨1, 2⟩ ⟨1, 3⟩
      (by decide) (by decide) (by decide) (by decide) (by decide)⟩

/-! ## Grid construction: accepted input -/

theorem read_cell_spec (g g1 : grid_t) (x y : Int) (c : Char)
    (h : read_cell g x y c = some g1) :
    accepted_char c ∧ g1.width = g.width ∧ g1.height = g.height ∧
    g1.cells = vec_set g.cells (g.index_of ⟨x, y⟩) (cell_of_char c) := by
  unfold read_cell at h
  unfold accepted_char cell_of_char
  simp only at h
  split at h
  · rename_i hc
    simp only [Option.some.injEq] at h
    subst h
    exact ⟨Or.inl hc, rfl, rfl, by rw [if_pos hc]⟩
  · rename_i h1
    split at h
    · rename_i hc
      simp only [Option.some.injEq] at h
      subst h
      exact ⟨Or.inr (Or.inl hc), rfl, rfl, by rw [if_neg h1]⟩
    · split at h
      · rename_i hc
        simp only [Option.some.injEq] at h
        subst h
        exact ⟨Or.inr (Or.inr (Or.inl hc)), rfl, rfl, by rw [if_neg h1]⟩
      · split at h
        · rename_i hc
          simp only [Option.some.injEq] at h
          subst h
          exact ⟨Or.inr (Or.inr (Or.inr hc)), rfl, rfl, by rw [if_neg h1]⟩
        · simp at h

theorem read_cell_some (g : grid_t) (x y : Int) (c : Char) (hc : accepted_char c) :
    ∃ g1, read_cell g x y c = some g1 := by
  unfold read_cell
  simp only
  rcases hc with h | h | h | h <;> subst h <;> simp

theorem read_row_ok (y : Int) (cs : List Char) :
    ∀ (x : Int) (g : grid_t),
      (read_row y cs x g).1 = true ↔ ∀ c ∈ cs, accepted_char c := by
  induction cs with
  | nil => intro x g; simp [read_row]
  | cons c cs ih =>
    intro x g
    unfold read_row
    cases hr : read_cell g x y c with
    | none =>
      simp only [Bool.false_eq_true, List.mem_cons, forall_eq_or_imp, false_iff, not_and]
      intro hc
      obtain ⟨g1, h1⟩ := read_cell_some g x y c hc
      rw [h1] at hr
      simp at hr
    | some g1 =>
      simp only [List.mem_cons, forall_eq_or_imp]
      rw [ih (x + 1) g1]
      exact ⟨fun h => ⟨(read_cell_spec g g1 x y c hr).1, h⟩, fun h => h.2⟩

theorem read_rows_ok (ls : List (List Char)) :
    ∀ (y : Int) (g : grid_t),
      (read_rows ls y g).1 = true ↔ ∀ l ∈ ls, ∀ c ∈ l, accepted_char c := by
  induction ls with
  | nil => intro y g; simp [read_rows]
  | cons l ls ih =>
    intro y g
    unfold read_rows
    have hrow := read_row_ok y l 0 g
    cases hr : read_row y l 0 g with
    | mk b g1 =>
      rw [hr] at hrow
      cases b with
      | true =>
        simp only [List.mem_cons, forall_eq_or_imp]
        rw [ih (y + 1) g1]
        exact ⟨fun h => ⟨hrow.mp rfl, h⟩, fun h => h.2⟩
      | false =>
        simp only [Bool.false_eq_true, List.mem_cons, forall_eq_or_imp, false_iff, not_and]
        intro h
        have := hrow.mpr h
        simp at this

/-- C13: `read_grid` returns `true` exactly when every character of every line
is one of `#`, space, `s`, `t`; as soon as another character occurs it returns
`false`. -/
theorem read_grid_accepts (lines : List String) (grid : grid_t) :
    ((read_grid lines grid).1 = true ↔
      ∀ line ∈ lines, ∀ c ∈ line.toList, accepted_char c) ∧
    ((∃ line ∈ lines, ∃ c ∈ line.toList, ¬ accepted_char c) →
      (read_grid lines grid).1 = false) := by
  have key : (read_grid lines grid).1 = true ↔
      ∀ line ∈ lines, ∀ c ∈ line.toList, accepted_char c := by
    unfold read_grid
    simp only
    rw [read_rows_ok]
    simp
  refine ⟨key, ?_⟩
  rintro ⟨line, hl, c, hc, hbad⟩
  cases hb : (read_grid lines grid).1 with
  | false => rfl
  | true => exact absurd (key.mp hb line hl c hc) hbad

/-! ## Grid construction: the cells -/

theorem vec_get_set {α : Type} (v : List α) (i j : Int) (a : α) :
    vec_get (vec_set v j a) i = if i = j then (vec_get v i).map (fun _ => a) else vec_get v i := by
  by_cases hij : i = j
  · rw [if_pos hij]
    subst hij
    by_cases hr : 0 ≤ i ∧ i < v.length
    · obtain ⟨b, hb⟩ := (vec_get_some_iff v i).mpr hr
      rw [vec_get_set_same v i a hr.1 hr.2, hb]
      rfl
    · have h1 : vec_get v i = none := (vec_get_none_iff v i).mpr hr
      have h2 : vec_get (vec_set v i a) i = none :=
        (vec_get_none_iff _ i).mpr (by rw [vec_set_length]; exact hr)
      rw [h1, h2]
      rfl
  · rw [if_neg hij, vec_get_set_ne _ _ _ _ hij]

theorem read_row_cells (y : Int) (cs : List Char) :
    ∀ (x0 : Int) (g g1 : grid_t), read_row y cs x0 g = (true, g1) →
      g1.width = g.width ∧ g1.height = g.height ∧ g1.cells.length = g.cells.length ∧
      (∀ (k : Nat) (c : Char), cs[k]? = some c →
        vec_get g1.cells (x0 + y * g.width + k) =
          (vec_get g.cells (x0 + y * g.width + k)).map (fun _ => cell_of_char c)) ∧
      (∀ i, ¬ (x0 + y * g.width ≤ i ∧ i < x0 + y * g.width + cs.length) →
        vec_get g1.cells i = vec_get g.cells i) := by
  induction cs with
  | nil =>
    intro x0 g g1 h
    simp only [read_row, Prod.mk.injEq, true_and] at h
    subst h
    exact ⟨rfl, rfl, rfl, fun k c hk => by simp at hk, fun _ _ => rfl⟩
  | cons c cs ih =>
    intro x0 g g1 h
    unfold read_row at h
    cases hr : read_cell g x0 y c with
    | none => rw [hr] at h; simp at h
    | some g2 =>
      rw [hr] at h
      simp only at h
      obtain ⟨_, w2, h2, c2⟩ := read_cell_spec g g2 x0 y c hr
      obtain ⟨a1, a2, a3, a4, a5⟩ := ih (x0 + 1) g2 g1 h
      rw [w2] at a4 a5
      have hidx : g.index_of ⟨x0, y⟩ = x0 + y * g.width := rfl
      rw [hidx] at c2
      refine ⟨a1.trans w2, a2.trans h2, by rw [a3, c2, vec_set_length], ?_, ?_⟩
      · intro k ch hk
        cases k with
        | zero =>
          simp only [List.getElem?_cons_zero, Option.some.injEq] at hk
          subst hk
          simp only [Nat.cast_zero, add_zero]
          rw [a5 _ (by omega), c2, vec_get_set, if_pos rfl]
        | succ k =>
          simp only [List.getElem?_cons_succ] at hk
          have e : x0 + y * g.width + ((k + 1 : Nat) : Int) = x0 + 1 + y * g.width + k := by
            push_cast; ring
          rw [e, a4 k ch hk, c2, vec_get_set, if_neg (by omega)]
      · intro i hi
        simp only [List.length_cons, Nat.cast_add, Nat.cast_one] at hi
        rw [a5 i (by omega), c2, vec_get_set, if_neg (by omega)]

theorem read_rows_cells (ls : List (List Char)) :
    ∀ (y0 : Int) (g g1 : grid_t), read_rows ls y0 g = (true, g1) → 0 ≤ g.width →
      (∀ l ∈ ls, (l.length : Int) ≤ g.width) →
      g1.width = g.width ∧ g1.height = g.height ∧ g1.cells.length = g.cells.length ∧
      (∀ (j : Nat) (l : List Char), ls[j]? = some l → ∀ (k : Nat) (c : Char), l[k]? = some c →
        vec_get g1.cells ((y0 + j) * g.width + k) =
          (vec_get g.cells ((y0 + j) * g.width + k)).map (fun _ => cell_of_char c)) ∧
      (∀ i, (∀ (j : Nat) (l : List Char), ls[j]? = some l →
          ¬ ((y0 + j) * g.width ≤ i ∧ i < (y0 + j) * g.width + l.length)) →
        vec_get g1.cells i = vec_get g.cells i) := by
  induction ls with
  | nil =>
    intro y0 g g1 h _ _
    simp only [read_rows, Prod.mk.injEq, true_and] at h
    subst h
    exact ⟨rfl, rfl, rfl, fun j l hj => by simp at hj, fun _ _ => rfl⟩
  | cons l ls ih =>
    intro y0 g g1 h hw hlen
    unfold read_rows at h
    cases hr : read_row y0 l 0 g with
    | mk b g2 =>
      rw [hr] at h
      cases b with
      | false => simp at h
      | true =>
        simp only at h
        obtain ⟨r1, r2, r3, r4, r5⟩ := read_row_cells y0 l 0 g g2 hr
        obtain ⟨a1, a2, a3, a4, a5⟩ := ih (y0 + 1) g2 g1 h (by rw [r1]; exact hw)
          (fun l1 hl1 => by rw [r1]; exact hlen l1 (List.mem_cons_of_mem _ hl1))
        rw [r1] at a4 a5
        have hl0 : (l.length : Int) ≤ g.width := hlen l (by simp)
        refine ⟨a1.trans r1, a2.trans r2, a3.trans r3, ?_, ?_⟩
        · intro j l1 hj k c hk
          have hkl : k < l1.length := (List.getElem?_eq_some_iff.mp hk).1
          cases j with
          | zero =>
            simp only [List.getElem?_cons_zero, Option.some.injEq] at hj
            subst hj
            simp only [Nat.cast_zero, add_zero]
            have := r4 k c hk
            simp only [zero_add] at this
            rw [← this]
            apply a5
            intro j1 l2 _
            have e : (y0 + 1 + (j1 : Int)) * g.width = y0 * g.width + g.width + j1 * g.width := by
              ring
            have hn : 0 ≤ (j1 : Int) * g.width := mul_nonneg (by omega) hw
            omega
          | succ j =>
            simp only [List.getElem?_cons_succ] at hj
            have e : (y0 + ((j + 1 : Nat) : Int)) * g.width = (y0 + 1 + j) * g.width := by
              push_cast; ring
            rw [e, a4 j l1 hj k c hk]
            congr 1
            apply r5
            have e2 : (y0 + 1 + (j : Int)) * g.width = y0 * g.width + g.width + j * g.width := by
              ring
            have hn : 0 ≤ (j : Int) * g.width := mul_nonneg (by omega) hw
            omega
        · intro i hi
          have h0 := hi 0 l (by simp)
          simp only [Nat.cast_zero, add_zero] at h0
          rw [a5 i (by
            intro j l1 hj
            have := hi (j + 1) l1 (by simpa using hj)
            have e : (y0 + ((j + 1 : Nat) : Int)) * g.width = (y0 + 1 + j) * g.width := by
              push_cast; ring
            rw [e] at this
            exact this)]
          exact r5 i (by omega)

theorem foldl_max_spec (lines : List String) :
    ∀ init : Nat, init ≤ lines.foldl (fun w line => max w line.length) init ∧
      (∀ l ∈ lines, l.length ≤ lines.foldl (fun w line => max w line.length) init) ∧
      (lines.foldl (fun w line => max w line.length) init = init ∨
        ∃ l ∈ lines, l.length = lines.foldl (fun w line => max w line.length) init) := by
  induction lines with
  | nil => intro init; simp
  | cons a rest ih =>
    intro init
    obtain ⟨h1, h2, h3⟩ := ih (max init a.length)
    simp only [List.foldl_cons, List.mem_cons, forall_eq_or_imp, exists_eq_or_imp]
    refine ⟨le_trans (le_max_left _ _) h1, ⟨le_trans (le_max_right _ _) h1, h2⟩, ?_⟩
    rcases h3 with h | ⟨l, hl, hll⟩
    · rcases le_total init a.length with hc | hc
      · right; left
        rw [h, max_eq_right hc]
      · left
        rw [h, max_eq_left hc]
    · exact Or.inr (Or.inr ⟨l, hl, hll⟩)

theorem toList_length (s : String) : s.toList.length = s.length := rfl

theorem row_of_index (w x y len : Int) (j : Nat) (hx : 0 ≤ x ∧ x < w) (hlen : len ≤ w)
    (h1 : (j : Int) * w ≤ x + y * w) (h2 : x + y * w < j * w + len) : (j : Int) = y := by
  by_contra hne
  rcases lt_or_gt_of_ne hne with h | h
  · have : ((j : Int) + 1) * w ≤ y * w := mul_le_mul_of_nonneg_right (by omega) (by omega)
    have e : ((j : Int) + 1) * w = j * w + w := by ring
    omega
  · have : (y + 1) * w ≤ (j : Int) * w := mul_le_mul_of_nonneg_right (by omega) (by omega)
    have e : (y + 1) * w = y * w + w := by ring
    omega

/-- C14: when `read_grid` succeeds on the lines (the grid object passed in is
freshly constructed, as in `main`, so its `cells` are empty), the grid has
`height` the number of lines, `width` the length of the longest line, `cells`
of `width * height` entries, and the cell of every in-bounds `(x, y)` is Wall
exactly when `x` is a position of line `y` holding `#`; every cell past the end
of a short line is Empty. -/
theorem read_grid_cells (lines : List String) (grid : grid_t) (hfresh : grid.cells = [])
    (hok : (read_grid lines grid).1 = true) :
    (read_grid lines grid).2.height = lines.length ∧
    (∀ line ∈ lines, (line.length : Int) ≤ (read_grid lines grid).2.width) ∧
    (lines ≠ [] → ∃ line ∈ lines, (line.length : Int) = (read_grid lines grid).2.width) ∧
    (lines = [] → (read_grid lines grid).2.width = 0) ∧
    ((read_grid lines grid).2.cells.length : Int) =
      (read_grid lines grid).2.width * (read_grid lines grid).2.height ∧
    (∀ p, in_bounds (read_grid lines grid).2 p →
      ∃ c, vec_get (read_grid lines grid).2.cells ((read_grid lines grid).2.index_of p) = some c ∧
        (c = cell_t.wall ↔
          ∃ line, lines[p.y.toNat]? = some line ∧ line.toList[p.x.toNat]? = some '#')) ∧
    (∀ p, in_bounds (read_grid lines grid).2 p → ∀ line, lines[p.y.toNat]? = some line →
      (line.length : Int) ≤ p.x →
      vec_get (read_grid lines grid).2.cells ((read_grid lines grid).2.index_of p) =
        some cell_t.empty) := by
  obtain ⟨_, hmax, hex⟩ := foldl_max_spec lines 0
  unfold read_grid at hok ⊢
  simp only at hok ⊢
  rw [hfresh] at hok ⊢
  generalize hW : lines.foldl (fun w line => max w line.length) 0 = W at hok hmax hex ⊢
  have hres : resize ([] : List cell_t) (W * lines.length) cell_t.empty =
      List.replicate (W * lines.length) cell_t.empty := by
    simp [resize]
  rw [hres] at hok ⊢
  cases hr : read_rows (lines.map String.toList) 0
      ⟨(W : Int), (lines.length : Int), List.replicate (W * lines.length) cell_t.empty,
        grid.start, grid.target⟩ with
  | mk b g1 =>
    rw [hr] at hok
    simp only at hok
    subst hok
    obtain ⟨a1, a2, a3, a4, a5⟩ := read_rows_cells _ 0 _ g1 hr (by simp) (by
      intro l hl
      obtain ⟨line, hline, rfl⟩ := List.mem_map.mp hl
      have := hmax line hline
      rw [toList_length]
      show (line.length : Int) ≤ (W : Int)
      exact_mod_cast this)
    simp only at a1 a2 a3 a4 a5 ⊢
    have hcell0 : ∀ i : Int, 0 ≤ i → i < (W : Int) * lines.length →
        vec_get (List.replicate (W * lines.length) cell_t.empty) i = some cell_t.empty := by
      intro i h0 h1
      exact vec_get_replicate _ _ _ h0 (by push_cast; exact h1)
    -- the cell of an in-bounds point
    have hpoint : ∀ p, in_bounds g1 p →
        ∃ line, lines[p.y.toNat]? = some line ∧
          ((p.x.toNat < line.toList.length ∧ ∃ c, line.toList[p.x.toNat]? = some c ∧
              vec_get g1.cells (g1.index_of p) = some (cell_of_char c)) ∨
            (line.toList.length ≤ p.x.toNat ∧
              vec_get g1.cells (g1.index_of p) = some cell_t.empty)) := by
      intro p hp
      obtain ⟨hx0, hx1, hy0, hy1⟩ := hp
      rw [a1] at hx1
      rw [a2] at hy1
      have hj : p.y.toNat < lines.length := by omega
      have hcy : ((p.y.toNat : Nat) : Int) = p.y := Int.toNat_of_nonneg hy0
      have hcx : ((p.x.toNat : Nat) : Int) = p.x := Int.toNat_of_nonneg hx0
      have hidx : g1.index_of p = p.x + p.y * W := by unfold grid_t.index_of; rw [a1]
      have hrange : 0 ≤ p.x + p.y * (W : Int) ∧ p.x + p.y * (W : Int) < W * lines.length := by
        have h1 : 0 ≤ p.y * (W : Int) := mul_nonneg hy0 (by omega)
        have h2 : (p.y + 1) * (W : Int) ≤ lines.length * W :=
          mul_le_mul_of_nonneg_right (by omega) (by omega)
        have e1 : (p.y + 1) * (W : Int) = p.y * W + W := by ring
        have e2 : (lines.length : Int) * W = W * lines.length := by ring
        constructor <;> omega
      refine ⟨lines[p.y.toNat], List.getElem?_eq_getElem hj, ?_⟩
      have hrow : (lines.map String.toList)[p.y.toNat]? = some (lines[p.y.toNat]).toList := by
        simp [List.getElem?_map, List.getElem?_eq_getElem hj]
      by_cases hk : p.x.toNat < (lines[p.y.toNat]).toList.length
      · left
        refine ⟨hk, _, List.getElem?_eq_getElem hk, ?_⟩
        have := a4 p.y.toNat _ hrow p.x.toNat _ (List.getElem?_eq_getElem hk)
        rw [hcy, hcx] at this
        have e : (0 + p.y) * (W : Int) + p.x = p.x + p.y * W := by ring
        rw [e, hcell0 _ hrange.1 hrange.2] at this
        rw [hidx, this]
        rfl
      · right
        refine ⟨by omega, ?_⟩
        rw [hidx, a5, hcell0 _ hrange.1 hrange.2]
        intro j l hjl hcon
        have hjlt : j < lines.length := by
          have := (List.getElem?_eq_some_iff.mp hjl).1
          simpa using this
        have hl : l = (lines[j]).toList := by
          have : (lines.map String.toList)[j]? = some (lines[j]).toList := by
            simp [List.getElem?_map, List.getElem?_eq_getElem hjlt]
          rw [this] at hjl
          exact (Option.some.inj hjl).symm
        have hlw : (l.length : Int) ≤ W := by
          have := hmax lines[j] (List.getElem_mem _)
          rw [hl, toList_length]
          exact_mod_cast this
        simp only [zero_add] at hcon
        have hjy := row_of_index W p.x p.y l.length j ⟨hx0, hx1⟩ hlw hcon.1 hcon.2
        have hjj : j = p.y.toNat := by omega
        have hl2 : l.length = (lines[p.y.toNat]).toList.length := by
          subst hjj; rw [hl]
        have e : (j : Int) * W = p.y * W := by rw [hjy]
        omega
    refine ⟨a2, ?_, ?_, ?_, ?_, ?_, ?_⟩
    · intro line hl
      rw [a1]
      exact_mod_cast hmax line hl
    · intro hne
      rcases hex with h | ⟨l, hl, hll⟩
      · cases lines with
        | nil => exact absurd rfl hne
        | cons a rest =>
          refine ⟨a, by simp, ?_⟩
          rw [a1]
          have := hmax a (by simp)
          omega
      · exact ⟨l, hl, by rw [a1]; exact_mod_cast hll⟩
    · intro hnil
      rw [a1]
      subst hnil
      simp at hW
      omega
    · rw [a3, a1, a2]
      simp
    · intro p hp
      obtain ⟨line, hline, h | h⟩ := hpoint p hp
      · obtain ⟨_, c, hc, hv⟩ := h
        refine ⟨_, hv, ?_⟩
        constructor
        · intro hw
          refine ⟨line, hline, ?_⟩
          rw [hc]
          unfold cell_of_char at hw
          split at hw
          · rename_i h1; rw [h1]
          · simp at hw
        · rintro ⟨line1, hline1, hc1⟩
          rw [hline] at hline1
          have := Option.some.inj hline1
          subst this
          rw [hc] at hc1
          have := Option.some.inj hc1
          subst this
          rfl
      · refine ⟨_, h.2, ?_⟩
        constructor
        · intro hw; simp at hw
        · rintro ⟨line1, hline1, hc1⟩
          rw [hline] at hline1
          have := Option.some.inj hline1
          subst this
          have := (List.getElem?_eq_some_iff.mp hc1).1
          omega
    · intro p hp line hline hlen
      obtain ⟨line1, hline1, h | h⟩ := hpoint p hp
      · rw [hline] at hline1
        have := Option.some.inj hline1
        subst this
        have h1 := h.1
        rw [toList_length] at h1
        have := hp.1
        omega
      · exact h.2

/-- C14 witness: the three rows `"s  #"`, `" # #"`, `"  t"` read into a fresh
grid. -/
theorem read_grid_cells_witness :
    fresh_grid.cells = [] ∧ (read_grid ragged_lines fresh_grid).1 = true ∧
    ((read_grid ragged_lines fresh_grid).2.height = ragged_lines.length ∧
    (∀ line ∈ ragged_lines, (line.length : Int) ≤ (read_grid ragged_lines fresh_grid).2.width) ∧
    (ragged_lines ≠ [] →
      ∃ line ∈ ragged_lines, (line.length : Int) = (read_grid ragged_lines fresh_grid).2.width) ∧
    (ragged_lines = [] → (read_grid ragged_lines fresh_grid).2.width = 0) ∧
    ((read_grid ragged_lines fresh_grid).2.cells.length : Int) =
      (read_grid ragged_lines fresh_grid).2.width *
        (read_grid ragged_lines fresh_grid).2.height ∧
    (∀ p, in_bounds (read_grid ragged_lines fresh_grid).2 p →
      ∃ c, vec_get (read_grid ragged_lines fresh_grid).2.cells
          ((read_grid ragged_lines fresh_grid).2.index_of p) = some c ∧
        (c = cell_t.wall ↔
          ∃ line, ragged_lines[p.y.toNat]? = some line ∧
            line.toList[p.x.toNat]? = some '#')) ∧
    (∀ p, in_bounds (read_grid ragged_lines fresh_grid).2 p →
      ∀ line, ragged_lines[p.y.toNat]? = some line → (line.length : Int) ≤ p.x →
      vec_get (read_grid ragged_lines fresh_grid).2.cells
        ((read_grid ragged_lines fresh_grid).2.index_of p) = some cell_t.empty)) :=
  ⟨by decide, by decide, read_grid_cells ragged_lines fresh_grid (by decide) (by decide)⟩

/-! ## Reachability explorer: points outside the grid -/

/-- C15: on the valid wall-free grid read from `"s  "`, `"  t"` the closed list
returned by `flood_fill` contains `(-1, 1)`, which is not inside the grid: its
index `-1 + 1 * 3 = 2` passes the test `index < cells.size()` and `cells[2]` is
Empty. -/
theorem flood_fill_leaves_grid :
    open_example.valid ∧
    flood_fill 7 open_example =
      some [⟨0, 0⟩, ⟨0, 1⟩, ⟨1, 0⟩, ⟨1, 1⟩, ⟨-1, 1⟩, ⟨2, 0⟩] ∧
    (⟨-1, 1⟩ : point_t) ∈ [(⟨0, 0⟩ : point_t), ⟨0, 1⟩, ⟨1, 0⟩, ⟨1, 1⟩, ⟨-1, 1⟩, ⟨2, 0⟩] ∧
    ¬ in_bounds open_example ⟨-1, 1⟩ ∧
    open_example.index_of ⟨-1, 1⟩ = 2 := by
  decide

theorem flood_fold_new (g : grid_t) (ns : List point_t) :
    ∀ s, ∀ r ∈ (ns.foldl (flood_neighbor g) s).open_set,
      r ∈ s.open_set ∨ (r ∈ ns ∧ flood_ok g r) := by
  induction ns with
  | nil => intro s r hr; exact Or.inl hr
  | cons n rest ih =>
    intro s r hr
    simp only [List.foldl_cons] at hr
    rcases ih (flood_neighbor g s n) r hr with h | ⟨h1, h2⟩
    · unfold flood_neighbor at h
      split at h
      · rename_i hok
        split at h
        · exact Or.inl h
        · split at h
          · exact Or.inl h
          · simp only [List.mem_append, List.mem_singleton] at h
            rcases h with h | h
            · exact Or.inl h
            · exact Or.inr ⟨by rw [h]; simp, by rw [h]; exact hok⟩
      · exact Or.inl h
    · exact Or.inr ⟨List.mem_cons_of_mem _ h1, h2⟩

theorem flood_turn_new (g : grid_t) (s : flood_t) :
    ∀ r ∈ (flood_turn g s).open_set,
      r ∈ s.open_set ∨ (r ∈ flood_neighbors s.current_pos ∧ flood_ok g r) := by
  intro r hr
  unfold flood_turn at hr
  simp only at hr
  exact flood_fold_new g _ s r (List.mem_of_mem_tail hr)

theorem flood_closed_reach (g : grid_t) (s : flood_t) (hi : flood_inv g s)
    (ho : s.open_set = []) (p r : point_t) (hp : p ∈ s.closed_set)
    (hr : r ∈ flood_neighbors p) (hok : flood_ok g r) : r ∈ s.closed_set := by
  rcases hi.closed_done p hp r hr hok with h | h
  · rw [ho] at h; simp at h
  · exact h

theorem looping_ok (p : point_t) (i : Int) (hi : looping_example.index_of p = i)
    (h : 0 ≤ i ∧ i ≤ 3) : flood_ok looping_example p := by
  unfold flood_ok
  rw [hi]
  have hc : i = 0 ∨ i = 1 ∨ i = 2 ∨ i = 3 := by omega
  rcases hc with rfl | rfl | rfl | rfl <;> decide

theorem looping_ok_index (p : point_t) (h : flood_ok looping_example p)
    (hr : looping_example.index_of p ≤ 6) :
    0 ≤ looping_example.index_of p ∧ looping_example.index_of p ≤ 3 := by
  unfold flood_ok at h
  have hrange := vec_get_range _ _ _ h
  generalize looping_example.index_of p = i at h hr hrange
  have hlen : (looping_example.cells.length : Int) = 9 := by decide
  have hc : i = 0 ∨ i = 1 ∨ i = 2 ∨ i = 3 ∨ i = 4 ∨ i = 5 ∨ i = 6 := by omega
  rcases hc with rfl | rfl | rfl | rfl | rfl | rfl | rfl
  · omega
  · omega
  · omega
  · omega
  · revert h; decide
  · revert h; decide
  · revert h; decide

theorem looping_diagonal (s : flood_t) (hi : flood_inv looping_example s)
    (ho : s.open_set = []) (hs : looping_example.start ∈ s.closed_set) :
    ∀ k : Nat, (⟨3 * k, -k⟩ : point_t) ∈ s.closed_set := by
  intro k
  induction k with
  | zero => simpa using hs
  | succ k ih =>
    have idx : ∀ x y : Int, looping_example.index_of ⟨x, y⟩ = x + y * 3 := fun _ _ => rfl
    have s1 : (⟨3 * k + 1, -k⟩ : point_t) ∈ s.closed_set :=
      flood_closed_reach _ s hi ho _ _ ih (by simp [flood_neighbors])
        (looping_ok _ 1 (by rw [idx]; ring) (by omega))
    have s2 : (⟨3 * k + 1 + 1, -k⟩ : point_t) ∈ s.closed_set :=
      flood_closed_reach _ s hi ho _ _ s1 (by simp [flood_neighbors])
        (looping_ok _ 2 (by rw [idx]; ring) (by omega))
    have s3 : (⟨3 * k + 1 + 1 + 1, -k⟩ : point_t) ∈ s.closed_set :=
      flood_closed_reach _ s hi ho _ _ s2 (by simp [flood_neighbors])
        (looping_ok _ 3 (by rw [idx]; ring) (by omega))
    have s4 : (⟨3 * k + 1 + 1 + 1, -k - 1⟩ : point_t) ∈ s.closed_set :=
      flood_closed_reach _ s hi ho _ _ s3 (by simp [flood_neighbors])
        (looping_ok _ 0 (by rw [idx]; ring) (by omega))
    have e : (⟨3 * ((k + 1 : Nat) : Int), -((k + 1 : Nat) : Int)⟩ : point_t) =
        ⟨3 * k + 1 + 1 + 1, -k - 1⟩ := by
      simp only [point_t.mk.injEq]
      constructor <;> push_cast <;> ring
    rw [e]
    exact s4

theorem closed_rows_bounded (l : List point_t) :
    ∀ p ∈ l, p.y.natAbs ≤ (l.map (fun q => q.y.natAbs)).sum := by
  intro p hp
  exact List.le_sum_of_mem (List.mem_map.mpr ⟨p, hp, rfl⟩)

theorem looping_open_nonempty (s : flood_t) (hi : flood_inv looping_example s)
    (hs : looping_example.start ∈ s.open_set ∨ looping_example.start ∈ s.closed_set) :
    s.open_set ≠ [] := by
  intro ho
  have hsc : looping_example.start ∈ s.closed_set := by
    rcases hs with h | h
    · rw [ho] at h; simp at h
    · exact h
  have hd := looping_diagonal s hi ho hsc ((s.closed_set.map (fun q => q.y.natAbs)).sum + 1)
  have hb := closed_rows_bounded s.closed_set _ hd
  simp only at hb
  omega

theorem looping_never_stops :
    ∀ (fuel : Nat) (s : flood_t), flood_inv looping_example s →
      (looping_example.start ∈ s.open_set ∨ looping_example.start ∈ s.closed_set) →
      (∀ p ∈ s.open_set, 0 ≤ looping_example.index_of p ∧ looping_example.index_of p ≤ 3) →
      flood_loop looping_example fuel s = none := by
  intro fuel
  induction fuel with
  | zero => intro s _ _ _; rfl
  | succ fuel ih =>
    intro s hi hs hopen
    have ho := looping_open_nonempty s hi hs
    have hfront := hi.front ho
    have hcur_mem : s.current_pos ∈ s.open_set := List.mem_of_mem_head? hfront
    have hcur := hopen _ hcur_mem
    have idx : ∀ p : point_t, looping_example.index_of p = p.x + p.y * 3 := fun _ => rfl
    have hc : ¬ (s.current_pos.x = looping_example.target.x ∧
        s.current_pos.y = looping_example.target.y) := by
      rintro ⟨h1, h2⟩
      rw [idx, h1, h2] at hcur
      have e1 : looping_example.target.x = 1 := rfl
      have e2 : looping_example.target.y = 2 := rfl
      omega
    rw [flood_loop_turn _ fuel s ho hc]
    obtain ⟨a1, a2, t, extra, a3, a4⟩ := flood_turn_inv _ s hi ho hc
    apply ih _ a1
    · rcases hs with h | h
      · rw [a3] at h
        rcases List.mem_cons.mp h with h1 | h1
        · right; rw [h1]; exact a2
        · left; rw [a4]; exact List.mem_append_left _ h1
      · right
        obtain ⟨_, _, b2, _, _⟩ := flood_turn_spec _ s t a3
        rw [b2]
        exact List.mem_append_left _ h
    · intro p hp
      rcases flood_turn_new _ s p hp with h | ⟨h1, h2⟩
      · exact hopen p h
      · apply looping_ok_index p h2
        unfold flood_neighbors at h1
        simp only [List.mem_cons, List.mem_singleton, List.not_mem_nil, or_false] at h1
        rw [idx] at hcur ⊢
        rcases h1 with rfl | rfl | rfl | rfl <;> simp only <;> omega

/-- C16: on the valid grid read from `"s  "`, `" ##"`, `"#t#"` the loop of
`flood_fill` never stops: the walled-off target is never the current cell and
the open list never becomes empty, because the points `(3k, -k)`, whose index
is 0, keep being accepted by the test on the index alone. -/
theorem flood_fill_diverges :
    looping_example.valid ∧ ∀ fuel, flood_fill fuel looping_example = none := by
  refine ⟨by decide, ?_⟩
  intro fuel
  unfold flood_fill
  rw [looping_never_stops fuel (flood_init looping_example) (flood_init_inv _)
    (Or.inl (by simp [flood_init]))
    (by
      intro p hp
      simp only [flood_init, List.mem_singleton] at hp
      rw [hp]
      decide)]
  rfl

/-! ## Directed search: termination on grids with a wall border -/

theorem priority_search_fuel_succ (g : grid_t) (hv : g.valid) (fuel : Nat) :
    priority_search_fuel (fuel + 1) g =
      finish_turn g (search_loop g fuel) g.target
        ⟨List.replicate g.cells.length ⟨0, 0⟩,
          vec_set (List.replicate g.cells.length false) (g.index_of g.target) true, []⟩ := by
  have hr := vec_get_range _ _ _ hv.2.2.2
  have hp := get_point_index_of g g.target hv.2.2.1
  unfold priority_search_fuel
  rw [search_loop_cons g _ (search_init g)
    (calculate_heuristic g.target g.start, g.index_of g.target) [] false rfl]
  · simp only [hp]
    rfl
  · simp only [hp]
    exact vec_get_replicate _ _ _ hr.1 hr.2

theorem finish_turn_total (g : grid_t) (hv : g.valid) (hb : border_walls g)
    (k : search_t → result_t (List point_t)) (m : Nat)
    (hk : ∀ s, search_inv g s → frontier_inv g s none → search_measure s ≤ m →
      ∃ path, k s = result_t.ok path ∧ path.length ≤ g.cells.length)
    (current : point_t) (s1 : search_t) (he : expand_inv g current s1)
    (hm : search_measure s1 ≤ m) :
    ∃ path, finish_turn g k current s1 = result_t.ok path ∧ path.length ≤ g.cells.length := by
  unfold finish_turn
  split
  · obtain ⟨_, pc, hpc⟩ := he.inv.chains _ he.cur_visited
    have hl := chain_length g _ _ pc _ hpc he.cur_visited
    rw [he.inv.len_visited] at hl
    rw [reconstruct_chain g _ _ pc _ current [] hpc (by omega)]
    exact ⟨pc, by simp, by omega⟩
  · rename_i hcs
    obtain ⟨s2, h2⟩ := expand_no_fault g hv hb current directions s1 (fun _ hd => hd) he
    obtain ⟨a1, a2, _, a4⟩ := expand_spec g current directions s1 s2 (fun _ hd => hd) he h2
    obtain ⟨b1, b2⟩ := expand_done g current s2 a1 a4 hcs
    rw [h2]
    exact hk s2 b1 b2 (le_trans a2 hm)

theorem search_loop_total (g : grid_t) (hv : g.valid) (hb : border_walls g) :
    ∀ (fuel : Nat) (s : search_t), search_inv g s → frontier_inv g s none →
      search_measure s < fuel →
      ∃ path, search_loop g fuel s = result_t.ok path ∧ path.length ≤ g.cells.length := by
  intro fuel
  induction fuel with
  | zero => intro s _ _ h; omega
  | succ fuel ih =>
    intro s hi hf hm
    cases hn : s.next with
    | nil =>
      refine ⟨[], ?_, by simp⟩
      unfold search_loop
      simp only [hn]
    | cons top rest =>
      obtain ⟨a1, a2, a3⟩ := pop_inv g hv s top rest hn hi hf
      rw [search_loop_cons g fuel s top rest true hn a3]
      exact finish_turn_total g hv hb _ _
        (fun s2 c1 c2 c3 => ih s2 c1 c2 (by omega)) _ _ a1 (le_refl _)

theorem finish_turn_mono (g : grid_t) (k k1 : search_t → result_t (List point_t))
    (hk : ∀ s path, k s = result_t.ok path → k1 s = result_t.ok path)
    (current : point_t) (s1 : search_t) (path : List point_t)
    (h : finish_turn g k current s1 = result_t.ok path) :
    finish_turn g k1 current s1 = result_t.ok path := by
  unfold finish_turn at h ⊢
  split
  · rename_i hcs
    rw [if_pos hcs] at h
    exact h
  · rename_i hcs
    rw [if_neg hcs] at h
    cases he : expand g current directions s1 with
    | ok s2 =>
      rw [he] at h
      exact hk s2 path h
    | fault i => rw [he] at h; simp at h
    | out_of_fuel => rw [he] at h; simp at h

theorem search_loop_mono (g : grid_t) :
    ∀ (fuel : Nat) (s : search_t) (path : List point_t),
      search_loop g fuel s = result_t.ok path → search_loop g (fuel + 1) s = result_t.ok path := by
  intro fuel
  induction fuel with
  | zero => intro s path h; simp [search_loop] at h
  | succ fuel ih =>
    intro s path h
    cases hn : s.next with
    | nil =>
      unfold search_loop at h ⊢
      simp only [hn] at h ⊢
      exact h
    | cons top rest =>
      cases hvg : vec_get s.visited (g.index_of (get_point_from_index top.2 g.width)) with
      | none =>
        unfold search_loop at h
        simp only [hn, hvg] at h
        simp at h
      | some b =>
        rw [search_loop_cons g fuel s top rest b hn hvg] at h
        rw [search_loop_cons g (fuel + 1) s top rest b hn hvg]
        exact finish_turn_mono g _ _ ih _ _ path h

theorem search_loop_mono_le (g : grid_t) (s : search_t) (path : List point_t) (fuel : Nat)
    (h : search_loop g fuel s = result_t.ok path) :
    ∀ fuel1, fuel ≤ fuel1 → search_loop g fuel1 s = result_t.ok path := by
  intro fuel1 hle
  induction fuel1 with
  | zero =>
    have : fuel = 0 := by omega
    rw [this] at h; exact h
  | succ n ih =>
    by_cases hn : fuel ≤ n
    · exact search_loop_mono g n s path (ih hn)
    · have : fuel = n + 1 := by omega
      rw [this] at h; exact h

/-! ## Directed search: every index is pushed at most once -/

theorem visit_neighbor_inv_visited (g : grid_t) (current : point_t) (s s1 : search_t)
    (d : point_t) (h : visit_neighbor g current s d = result_t.ok s1) :
    ∀ i, is_visited s.visited i → is_visited s1.visited i := by
  rcases visit_neighbor_cases g current s s1 d h with ⟨rfl, _⟩ | ⟨_, _, rfl⟩
  · exact fun _ hi => hi
  · exact fun i hi => is_visited_set _ _ _ hi

theorem visit_neighbor_log_fst (g : grid_t) (current : point_t) (s : search_t)
    (log : List Int) (d : point_t) :
    (visit_neighbor_log g current s log d).1 = visit_neighbor g current s d := by
  unfold visit_neighbor_log visit_neighbor
  simp only
  split
  · split <;> rfl
  · rfl

theorem visit_neighbor_log_cases (g : grid_t) (current : point_t) (s : search_t)
    (log : List Int) (d : point_t) :
    (visit_neighbor_log g current s log d).2 = log ∨
    (vec_get g.cells (g.index_of (step_to current d)) = some cell_t.empty ∧
      vec_get s.visited (g.index_of (step_to current d)) = some false ∧
      visit_neighbor_log g current s log d =
        (result_t.ok ⟨vec_set s.previous (g.index_of (step_to current d)) current,
          vec_set s.visited (g.index_of (step_to current d)) true,
          pq_push s.next (calculate_heuristic (step_to current d) g.start,
            g.index_of (step_to current d))⟩,
          log ++ [g.index_of (step_to current d)])) := by
  unfold visit_neighbor_log
  simp only
  change (match vec_get g.cells (g.index_of (step_to current d)),
      vec_get s.visited (g.index_of (step_to current d)) with
    | some c, some v =>
      if c = cell_t.wall ∨ v = true then (result_t.ok s, log)
      else (result_t.ok
        ⟨vec_set s.previous (g.index_of (step_to current d)) current,
          vec_set s.visited (g.index_of (step_to current d)) true,
          pq_push s.next (calculate_heuristic (step_to current d) g.start,
            g.index_of (step_to current d))⟩, log ++ [g.index_of (step_to current d)])
    | _, _ => (result_t.fault (g.index_of (step_to current d)), log)).2 = log ∨ _
  split
  · rename_i c v hc hv
    split
    · exact Or.inl rfl
    · rename_i hcv
      push_neg at hcv
      right
      have e1 : c = cell_t.empty := by
        cases c with
        | empty => rfl
        | wall => exact absurd rfl hcv.1
      have e2 : v = false := by
        cases v with
        | false => rfl
        | true => exact absurd rfl hcv.2
      subst e1; subst e2
      refine ⟨hc, hv, ?_⟩
      change (match vec_get g.cells (g.index_of (step_to current d)),
          vec_get s.visited (g.index_of (step_to current d)) with
        | some c, some v =>
          if c = cell_t.wall ∨ v = true then (result_t.ok s, log)
          else (result_t.ok
            ⟨vec_set s.previous (g.index_of (step_to current d)) current,
              vec_set s.visited (g.index_of (step_to current d)) true,
              pq_push s.next (calculate_heuristic (step_to current d) g.start,
                g.index_of (step_to current d))⟩, log ++ [g.index_of (step_to current d)])
        | _, _ => (result_t.fault (g.index_of (step_to current d)), log)) = _
      rw [hc, hv]
      simp
  · exact Or.inl rfl

theorem visit_neighbor_log_inv (g : grid_t) (current : point_t) (s : search_t)
    (log : List Int) (d : point_t) (hn : log.Nodup)
    (hr : ∀ i ∈ log, 0 ≤ i ∧ i < g.cells.length)
    (hm : ∀ i ∈ log, is_visited s.visited i) :
    (visit_neighbor_log g current s log d).2.Nodup ∧
    (∀ i ∈ (visit_neighbor_log g current s log d).2, 0 ≤ i ∧ i < g.cells.length) ∧
    ∀ s1, (visit_neighbor_log g current s log d).1 = result_t.ok s1 →
      ∀ i ∈ (visit_neighbor_log g current s log d).2, is_visited s1.visited i := by
  rcases visit_neighbor_log_cases g current s log d with h | ⟨hc, hv, h⟩
  · rw [h]
    refine ⟨hn, hr, ?_⟩
    intro s1 h1 i hi
    rw [visit_neighbor_log_fst] at h1
    exact (visit_neighbor_inv_visited g current s s1 d h1) i (hm i hi)
  · rw [h]
    simp only
    have hnot : g.index_of (step_to current d) ∉ log := by
      intro hmem
      have := hm _ hmem
      unfold is_visited at this
      rw [hv] at this
      simp at this
    have hrange := vec_get_range _ _ _ hv
    refine ⟨?_, ?_, ?_⟩
    · exact List.Nodup.append hn (by simp) (by
        intro a ha hb
        simp only [List.mem_singleton] at hb
        exact hnot (hb ▸ ha))
    · intro i hi
      rcases List.mem_append.mp hi with h1 | h1
      · exact hr i h1
      · simp only [List.mem_singleton] at h1
        rw [h1]
        exact vec_get_range _ _ _ hc
    · intro s1 h1 i hi
      simp only [result_t.ok.injEq] at h1
      subst h1
      simp only
      rcases List.mem_append.mp hi with h2 | h2
      · exact is_visited_set _ _ _ (hm i h2)
      · simp only [List.mem_singleton] at h2
        rw [h2]
        exact vec_get_set_same _ _ _ hrange.1 hrange.2

theorem expand_log_fst (g : grid_t) (current : point_t) (ds : List point_t) :
    ∀ (s : search_t) (log : List Int),
      (expand_log g current ds s log).1 = expand g current ds s := by
  induction ds with
  | nil => intro s log; rfl
  | cons d ds ih =>
    intro s log
    have h := visit_neighbor_log_fst g current s log d
    rw [expand_log, expand]
    rcases hq : visit_neighbor_log g current s log d with ⟨r, log1⟩
    rw [hq] at h
    simp only at h
    rw [← h]
    cases r with
    | ok s1 => exact ih s1 log1
    | fault i => rfl
    | out_of_fuel => rfl

theorem expand_log_inv (g : grid_t) (current : point_t) (ds : List point_t) :
    ∀ (s : search_t) (log : List Int), log.Nodup →
      (∀ i ∈ log, 0 ≤ i ∧ i < g.cells.length) →
      (∀ i ∈ log, is_visited s.visited i) →
      (expand_log g current ds s log).2.Nodup ∧
      (∀ i ∈ (expand_log g current ds s log).2, 0 ≤ i ∧ i < g.cells.length) ∧
      ∀ s2, (expand_log g current ds s log).1 = result_t.ok s2 →
        ∀ i ∈ (expand_log g current ds s log).2, is_visited s2.visited i := by
  induction ds with
  | nil =>
    intro s log hn hr hm
    refine ⟨hn, hr, ?_⟩
    intro s2 h2 i hi
    have e : s = s2 := by
      simpa [expand_log] using h2
    subst e
    exact hm i hi
  | cons d ds ih =>
    intro s log hn hr hm
    have h := visit_neighbor_log_inv g current s log d hn hr hm
    rw [expand_log]
    rcases hq : visit_neighbor_log g current s log d with ⟨r, log1⟩
    rw [hq] at h
    simp only at h
    cases r with
    | ok s1 => exact ih s1 log1 h.1 h.2.1 (h.2.2 s1 rfl)
    | fault i =>
      refine ⟨h.1, h.2.1, ?_⟩
      intro s2 h2
      simp at h2
    | out_of_fuel =>
      refine ⟨h.1, h.2.1, ?_⟩
      intro s2 h2
      simp at h2

theorem search_loop_log_fst (g : grid_t) (fuel : Nat) :
    ∀ (s : search_t) (log : List Int),
      (search_loop_log g fuel s log).1 = search_loop g fuel s := by
  induction fuel with
  | zero => intro s log; rfl
  | succ fuel ih =>
    intro s log
    rw [search_loop_log, search_loop]
    cases hnext : s.next with
    | nil => rfl
    | cons top rest =>
      simp only
      cases hvis : vec_get s.visited (g.index_of (get_point_from_index top.2 g.width)) with
      | none => rfl
      | some b =>
        simp only
        split_ifs with hc
        · rfl
        · have h := expand_log_fst g (get_point_from_index top.2 g.width) directions
            ⟨s.previous,
              vec_set s.visited (g.index_of (get_point_from_index top.2 g.width)) true, rest⟩ log
          rcases hq : expand_log g (get_point_from_index top.2 g.width) directions
            ⟨s.previous,
              vec_set s.visited (g.index_of (get_point_from_index top.2 g.width)) true, rest⟩
            log with ⟨r, log2⟩
          rw [hq] at h
          simp only at h
          rw [← h]
          cases r with
          | ok s2 => exact ih s2 log2
          | fault i => rfl
          | out_of_fuel => rfl

theorem search_loop_log_inv (g : grid_t) (fuel : Nat) :
    ∀ (s : search_t) (log : List Int), log.Nodup →
      (∀ i ∈ log, 0 ≤ i ∧ i < g.cells.length) →
      ((∀ i ∈ log, is_visited s.visited i) ∨
        ∃ (h i0 : Int), s.next = [(h, i0)] ∧ log = [i0]) →
      (search_loop_log g fuel s log).2.Nodup ∧
      ∀ i ∈ (search_loop_log g fuel s log).2, 0 ≤ i ∧ i < g.cells.length := by
  induction fuel with
  | zero => intro s log hn hr _; exact ⟨hn, hr⟩
  | succ fuel ih =>
    intro s log hn hr hm
    rw [search_loop_log]
    cases hnext : s.next with
    | nil => exact ⟨hn, hr⟩
    | cons top rest =>
      simp only
      cases hvis : vec_get s.visited (g.index_of (get_point_from_index top.2 g.width)) with
      | none => exact ⟨hn, hr⟩
      | some b =>
        simp only
        split_ifs with hc
        · exact ⟨hn, hr⟩
        · have hci : g.index_of (get_point_from_index top.2 g.width) = top.2 :=
            index_of_get_point g top.2
          have hrange := vec_get_range _ _ _ hvis
          have hm1 : ∀ i ∈ log, is_visited
              (vec_set s.visited (g.index_of (get_point_from_index top.2 g.width)) true) i := by
            rcases hm with hm | ⟨h, i0, hq, hl⟩
            · exact fun i hi => is_visited_set _ _ _ (hm i hi)
            · intro i hi
              rw [hl, List.mem_singleton] at hi
              rw [hnext] at hq
              have e : top.2 = i0 := by
                have := (List.cons.inj hq).1
                rw [this]
              rw [hci, e, hi]
              rw [hci, e] at hrange
              exact vec_get_set_same _ _ _ hrange.1 hrange.2
          have h := expand_log_inv g (get_point_from_index top.2 g.width) directions
            ⟨s.previous,
              vec_set s.visited (g.index_of (get_point_from_index top.2 g.width)) true, rest⟩
            log hn hr hm1
          rcases hq : expand_log g (get_point_from_index top.2 g.width) directions
            ⟨s.previous,
              vec_set s.visited (g.index_of (get_point_from_index top.2 g.width)) true, rest⟩
            log with ⟨r, log2⟩
          rw [hq] at h
          simp only at h
          cases r with
          | ok s2 => exact ih s2 log2 h.1 h.2.1 (Or.inl (h.2.2 s2 rfl))
          | fault i => exact ⟨h.1, h.2.1⟩
          | out_of_fuel => exact ⟨h.1, h.2.1⟩

theorem priority_search_log_fst (fuel : Nat) (g : grid_t) :
    (priority_search_log fuel g).1 = priority_search_fuel fuel g :=
  search_loop_log_fst g fuel (search_init g) [g.index_of g.target]

theorem priority_search_log_nodup (fuel : Nat) (g : grid_t) (hv : g.valid) :
    (priority_search_log fuel g).2.Nodup ∧
    ∀ i ∈ (priority_search_log fuel g).2, 0 ≤ i ∧ i < g.cells.length := by
  refine search_loop_log_inv g fuel (search_init g) [g.index_of g.target]
    (List.nodup_singleton _) ?_ (Or.inr ⟨_, _, rfl, rfl⟩)
  intro i hi
  rw [List.mem_singleton] at hi
  rw [hi]
  have h1 := index_of_nonneg g g.target hv.2.2.1
  have h2 := index_of_lt g g.target hv.2.2.1
  rw [← hv.1] at h2
  exact ⟨h1, h2⟩

/-- C17: on a valid grid whose border cells are all Wall, `priority_search`
terminates with a path: `width * height` turns of the outer loop (plus the
final test of the empty queue) are enough, more fuel gives the same path, and
the reconstruction appended at most `width * height` points; an index is
pushed only while its `visited` flag is clear, the push sets the flag, and no
neighbour step clears a flag; and over the whole run, whatever the number of
turns it is given, the indices passed to `next.push` (the push of the target
before the loop included) are pairwise distinct indices of `cells`, so at most
`width * height` pushes are made and no index is pushed twice. -/
theorem priority_search_terminates (g : grid_t) (hv : g.valid) (hb : border_walls g) :
    (∃ path, priority_search g = result_t.ok path ∧
      (∀ fuel, g.cells.length + 1 ≤ fuel → priority_search_fuel fuel g = result_t.ok path) ∧
      (path.length : Int) ≤ g.width * g.height) ∧
    (∀ (current : point_t) (s s1 : search_t) (d : point_t),
      visit_neighbor g current s d = result_t.ok s1 →
      (s1.next = s.next ∨
        (vec_get s.visited (g.index_of (step_to current d)) = some false ∧
          is_visited s1.visited (g.index_of (step_to current d)) ∧
          s1.next = pq_push s.next
            (calculate_heuristic (step_to current d) g.start,
              g.index_of (step_to current d)))) ∧
      ∀ i, is_visited s.visited i → is_visited s1.visited i) ∧
    (∀ fuel,
      (priority_search_log fuel g).1 = priority_search_fuel fuel g ∧
      (priority_search_log fuel g).2.Nodup ∧
      (∀ i ∈ (priority_search_log fuel g).2, 0 ≤ i ∧ i < g.width * g.height) ∧
      ((priority_search_log fuel g).2.length : Int) ≤ g.width * g.height) := by
  refine ⟨?_, ?_, ?_⟩
  · obtain ⟨a1, a2⟩ := init_inv g hv
    have hrun : ∃ path, priority_search_fuel (g.cells.length + 1) g = result_t.ok path ∧
        path.length ≤ g.cells.length := by
      rw [priority_search_fuel_succ g hv]
      exact finish_turn_total g hv hb _ _
        (fun s2 c1 c2 c3 => search_loop_total g hv hb _ s2 c1 c2 (by omega)) _ _ a1 (le_refl _)
    obtain ⟨path, h1, h2⟩ := hrun
    have hall : ∀ fuel, g.cells.length + 1 ≤ fuel →
        priority_search_fuel fuel g = result_t.ok path :=
      fun fuel hle => search_loop_mono_le g _ path _ h1 fuel hle
    have hps : priority_search g = priority_search_fuel (g.cells.length + 2) g := rfl
    refine ⟨path, by rw [hps]; exact hall _ (by omega), hall, ?_⟩
    rw [← hv.1]
    exact_mod_cast h2
  · intro current s s1 d h
    rcases visit_neighbor_cases g current s s1 d h with ⟨rfl, _⟩ | ⟨_, h2, rfl⟩
    · exact ⟨Or.inl rfl, fun _ hi => hi⟩
    · have hr := vec_get_range _ _ _ h2
      exact ⟨Or.inr ⟨h2, vec_get_set_same _ _ _ hr.1 hr.2, rfl⟩,
        fun i hi => is_visited_set _ _ _ hi⟩
  · intro fuel
    obtain ⟨hn, hr⟩ := priority_search_log_nodup fuel g hv
    refine ⟨priority_search_log_fst fuel g, hn, ?_, ?_⟩
    · intro i hi
      rw [← hv.1]
      exact hr i hi
    · rw [← hv.1]
      exact_mod_cast nodup_range_length _ _ hn hr

/-- C17 witness: the 5 by 5 bordered grid. -/
theorem priority_search_terminates_witness :
    bordered_example.valid ∧ border_walls bordered_example ∧
    ((∃ path, priority_search bordered_example = result_t.ok path ∧
      (∀ fuel, bordered_example.cells.length + 1 ≤ fuel →
        priority_search_fuel fuel bordered_example = result_t.ok path) ∧
      (path.length : Int) ≤ bordered_example.width * bordered_example.height) ∧
    (∀ (current : point_t) (s s1 : search_t) (d : point_t),
      visit_neighbor bordered_example current s d = result_t.ok s1 →
      (s1.next = s.next ∨
        (vec_get s.visited (bordered_example.index_of (step_to current d)) = some false ∧
          is_visited s1.visited (bordered_example.index_of (step_to current d)) ∧
          s1.next = pq_push s.next
            (calculate_heuristic (step_to current d) bordered_example.start,
              bordered_example.index_of (step_to current d)))) ∧
      ∀ i, is_visited s.visited i → is_visited s1.visited i) ∧
    (∀ fuel,
      (priority_search_log fuel bordered_example).1 =
        priority_search_fuel fuel bordered_example ∧
      (priority_search_log fuel bordered_example).2.Nodup ∧
      (∀ i ∈ (priority_search_log fuel bordered_example).2,
        0 ≤ i ∧ i < bordered_example.width * bordered_example.height) ∧
      ((priority_search_log fuel bordered_example).2.length : Int) ≤
        bordered_example.width * bordered_example.height)) :=
  ⟨by decide, by decide, priority_search_terminates bordered_example (by decide) (by decide)⟩

end ComputePath
